import Mathlib

/-!
# Shallow embedding of the incremental octree point locator

This file embeds `svtkIncrementalOctreePointLocator` (the locator source) and
the parts of `svtkIncrementalOctreeNode` that the locator calls, over exact
rational arithmetic (`ℚ` models C `double`; ideal real arithmetic, no
rounding).  The node class is not part of the provided sources, so its
operations are modelled from the specification (sections 3 and 4.1); each such
definition carries a doc comment starting with `Modelled from the spec:`.
Point ids are `Int` (models `svtkIdType`, with `-1` as the not-found sentinel).
-/

set_option linter.unusedVariables false

/-- Rational stand-in for the C constant `SVTK_DOUBLE_MAX` (`DBL_MAX`,
the largest finite IEEE-754 double, written out as the integer
`2 ^ 1024 - 2 ^ 971`). -/
def svtkDoubleMax : ℚ := 179769313486231570814527423731704356798070567525844996598917476803157260780028538760589558632766878171540458953514382464234321326889464182768467546703537516986049910576551282076245490090389328944075868508455133942304583236903222948165808559332123348274797826204144723168738177180919299881250404026184124858368

theorem svtkDoubleMax_eq_pow : svtkDoubleMax = 2 ^ 1024 - 2 ^ 971 := by
  unfold svtkDoubleMax
  norm_num

/-- A 3D point, modelling a `double[3]` coordinate triple. -/
structure P3 where
  x : ℚ
  y : ℚ
  z : ℚ
deriving DecidableEq, Repr

instance : Inhabited P3 := ⟨⟨0, 0, 0⟩⟩

/-- Squared Euclidean distance (`svtkMath::Distance2BetweenPoints`). -/
def dist2 (a b : P3) : ℚ :=
  (a.x - b.x) ^ 2 + (a.y - b.y) ^ 2 + (a.z - b.z) ^ 2

/-- The point container (`svtkPoints`): a dense sequence of coordinates
indexed by point id starting at 0. -/
abbrev PtStore := List P3

/-- Read a point by id (`svtkPoints::GetPoint`); out-of-range reads return a
junk value, which well-formed states never perform. -/
def getPt (P : PtStore) (id : Int) : P3 := P.getD id.toNat default

/-- Half-open box membership test used by `ContainsPoint`: the spec's
convention is that p is inside range r = (r1, r2] iff r1 < p ≤ r2, on all
three axes. -/
def inBoxHO (lo hi p : P3) : Bool :=
  decide (lo.x < p.x) && decide (p.x ≤ hi.x) &&
  decide (lo.y < p.y) && decide (p.y ≤ hi.y) &&
  decide (lo.z < p.z) && decide (p.z ≤ hi.z)

/-- Closed box membership, used to state data-bounds invariants. -/
def inBoxC (lo hi p : P3) : Prop :=
  lo.x ≤ p.x ∧ p.x ≤ hi.x ∧ lo.y ≤ p.y ∧ p.y ≤ hi.y ∧ lo.z ≤ p.z ∧ p.z ≤ hi.z

instance (lo hi p : P3) : Decidable (inBoxC lo hi p) := by
  unfold inBoxC; infer_instance

/-- Center of a box (`svtkIncrementalOctreeNode` caches this on construction). -/
def midPt (lo hi : P3) : P3 := ⟨(lo.x + hi.x) / 2, (lo.y + hi.y) / 2, (lo.z + hi.z) / 2⟩

/-- Modelled from the spec: `child_index(p)` is the 3-bit mask
`(x > mid.x)<<0 | (y > mid.y)<<1 | (z > mid.z)<<2` against the box midpoint. -/
def childIndexOf (lo hi p : P3) : Fin 8 :=
  let m := midPt lo hi
  Fin.mk ((if m.x < p.x then 1 else 0) + (if m.y < p.y then 2 else 0) +
      (if m.z < p.z then 4 else 0))
    (by split <;> split <;> split <;> omega)

/-- Low corner of octant `i` of the box `(lo, hi)`: bit `a` of `i` selects the
upper half along axis `a`. -/
def octantLo (lo hi : P3) (i : Fin 8) : P3 :=
  let m := midPt lo hi
  ⟨if i.val.testBit 0 then m.x else lo.x,
   if i.val.testBit 1 then m.y else lo.y,
   if i.val.testBit 2 then m.z else lo.z⟩

/-- High corner of octant `i` of the box `(lo, hi)`. -/
def octantHi (lo hi : P3) (i : Fin 8) : P3 :=
  let m := midPt lo hi
  ⟨if i.val.testBit 0 then hi.x else m.x,
   if i.val.testBit 1 then hi.y else m.y,
   if i.val.testBit 2 then hi.z else m.z⟩

/-- Modelled from the spec: an octree node is either a leaf owning an ordered
list of point ids, or an internal node exclusively owning exactly 8 children.
Each node carries its box (`MinBounds`/`MaxBounds`) and its data bounds
(`MinDataBounds`/`MaxDataBounds`, the tight bounding box of the points under
the node, meaningless while the node is empty). -/
inductive Node where
  | leaf (boxLo boxHi dataLo dataHi : P3) (ids : List Int)
  | internal (boxLo boxHi dataLo dataHi : P3)
      (c0 c1 c2 c3 c4 c5 c6 c7 : Node)
deriving DecidableEq, Repr

namespace Node

def boxLo : Node → P3
  | leaf l _ _ _ _ => l
  | internal l _ _ _ _ _ _ _ _ _ _ _ => l

def boxHi : Node → P3
  | leaf _ h _ _ _ => h
  | internal _ h _ _ _ _ _ _ _ _ _ _ => h

def dataLo : Node → P3
  | leaf _ _ d _ _ => d
  | internal _ _ d _ _ _ _ _ _ _ _ _ => d

def dataHi : Node → P3
  | leaf _ _ _ d _ => d
  | internal _ _ _ d _ _ _ _ _ _ _ _ => d

/-- `IsLeaf`. -/
def isLeaf : Node → Bool
  | leaf _ _ _ _ _ => true
  | internal _ _ _ _ _ _ _ _ _ _ _ _ => false

/-- `GetChild i`; junk (the node itself) on a leaf, never used there. -/
def child : Node → Fin 8 → Node
  | leaf l h dl dh ids, _ => leaf l h dl dh ids
  | internal _ _ _ _ a b c d e f g h, i =>
    match i with
    | 0 => a | 1 => b | 2 => c | 3 => d
    | 4 => e | 5 => f | 6 => g | 7 => h

/-- Structural size, the termination measure for the iterative traversals. -/
def size : Node → Nat
  | leaf _ _ _ _ _ => 1
  | internal _ _ _ _ a b c d e f g h =>
    1 + a.size + b.size + c.size + d.size + e.size + f.size + g.size + h.size

/-- `GetNumberOfPoints`: the number of point ids in or under the node. -/
def numPoints : Node → Nat
  | leaf _ _ _ _ ids => ids.length
  | internal _ _ _ _ a b c d e f g h =>
    a.numPoints + b.numPoints + c.numPoints + d.numPoints +
      e.numPoints + f.numPoints + g.numPoints + h.numPoints

/-- Modelled from the spec: all point ids in or under a node, in depth-first
(child 0 .. child 7) order.  This is the order produced by both
`ExportAllPointIdsByInsertion` and `ExportAllPointIdsByDirectSet`. -/
def allIds : Node → List Int
  | leaf _ _ _ _ ids => ids
  | internal _ _ _ _ a b c d e f g h =>
    a.allIds ++ b.allIds ++ c.allIds ++ d.allIds ++
      e.allIds ++ f.allIds ++ g.allIds ++ h.allIds

/-- `ContainsPoint`: half-open test against the node's box. -/
def containsPoint (n : Node) (p : P3) : Bool := inBoxHO n.boxLo n.boxHi p

/-- Modelled from the spec: `contains_point_by_data(p)` is the half-open test
against the data box; an empty node has an empty data box, containing
nothing. -/
def containsPointByData (n : Node) (p : P3) : Bool :=
  decide (n.numPoints ≠ 0) && inBoxHO n.dataLo n.dataHi p

theorem child_size_lt (l h dl dh : P3) (a b c d e f g hc : Node) (i : Fin 8) :
    ((internal l h dl dh a b c d e f g hc).child i).size <
      (internal l h dl dh a b c d e f g hc).size := by
  fin_cases i <;> simp [child, size] <;> omega

theorem size_pos (n : Node) : 0 < n.size := by
  cases n <;> simp [Node.size]

end Node

/-- Descent loop of `GetLeafContainer`, structurally recursive on a fuel that
the entry point chooses large enough (the subtree size) never to run out. -/
def leafPathGo (p : P3) : Nat → Node → List (Fin 8)
  | 0, _ => []
  | fuel + 1, n =>
    match n with
    | .leaf _ _ _ _ _ => []
    | .internal l h dl dh a b c d e f g hc =>
      let j := childIndexOf l h p
      j :: leafPathGo p fuel ((Node.internal l h dl dh a b c d e f g hc).child j)

/-- `GetLeafContainer`: descend from a node to the leaf whose octant chain
contains the point, recorded as the path of child indices taken. -/
def leafContainerPath (n : Node) (p : P3) : List (Fin 8) := leafPathGo p n.size n

theorem leafPathGo_irrel (p : P3) :
    ∀ fuel fuel' n, n.size ≤ fuel → n.size ≤ fuel' →
      leafPathGo p fuel n = leafPathGo p fuel' n := by
  intro fuel
  induction fuel with
  | zero =>
    intro fuel' n h _
    exact absurd h (by have := Node.size_pos n; omega)
  | succ fuel ih =>
    intro fuel' n h h'
    match fuel', n with
    | 0, n => exact absurd h' (by have := Node.size_pos n; omega)
    | fuel' + 1, .leaf _ _ _ _ _ => rfl
    | fuel' + 1, .internal l hh dl dh a b c d e f g hc =>
      simp only [leafPathGo]
      have hlt := Node.child_size_lt l hh dl dh a b c d e f g hc
        (childIndexOf l hh p)
      simp only [Node.size] at h h' hlt
      exact congrArg _ (ih fuel' _ (by omega) (by omega))

theorem leafContainerPath_leaf (l h dl dh : P3) (ids : List Int) (p : P3) :
    leafContainerPath (.leaf l h dl dh ids) p = [] := rfl

theorem leafContainerPath_internal (l h dl dh : P3) (a b c d e f g hc : Node)
    (p : P3) :
    leafContainerPath (.internal l h dl dh a b c d e f g hc) p =
      childIndexOf l h p ::
        leafContainerPath
          ((Node.internal l h dl dh a b c d e f g hc).child (childIndexOf l h p)) p := by
  show leafPathGo p ((Node.internal l h dl dh a b c d e f g hc).size) _ = _
  have hsz : (Node.internal l h dl dh a b c d e f g hc).size =
      ((Node.internal l h dl dh a b c d e f g hc).size - 1) + 1 := by
    have := Node.size_pos (Node.internal l h dl dh a b c d e f g hc)
    omega
  rw [hsz]
  simp only [leafPathGo, leafContainerPath]
  refine congrArg _ (leafPathGo_irrel p _ _ _ ?_ le_rfl)
  have hlt := Node.child_size_lt l h dl dh a b c d e f g hc (childIndexOf l h p)
  omega

/-- Follow a path of child indices down from a node. -/
def Node.descend : Node → List (Fin 8) → Node
  | n, [] => n
  | n, i :: rest => (n.child i).descend rest

/-- `FindClosestPointInLeafNode`'s scan loop: running best id and best squared
distance over the leaf's id list, with the early break once the distance hits
zero. -/
def leafScanGo (P : PtStore) (q : P3) : List Int → Int → ℚ → Int × ℚ
  | [], best, bd => (best, bd)
  | id :: rest, best, bd =>
    let d := dist2 (getPt P id) q
    let best' := if d < bd then id else best
    let bd' := if d < bd then d else bd
    if bd' = 0 then (best', bd') else leafScanGo P q rest best' bd'

/-- `FindClosestPointInLeafNode`: the closest id in a leaf and its squared
distance, starting from the sentinel `SVTK_DOUBLE_MAX`; `(-1, SVTK_DOUBLE_MAX)`
when the node has no id list. -/
def findClosestPointInLeafNode (P : PtStore) (q : P3) : Node → Int × ℚ
  | .leaf _ _ _ _ ids => leafScanGo P q ids (-1) svtkDoubleMax
  | .internal _ _ _ _ _ _ _ _ _ _ _ _ => (-1, svtkDoubleMax)

/-- Modelled from the spec: per-axis contribution to the squared distance from
a query coordinate to a box side, clamped to 0 when the coordinate lies inside
the side's range; a side whose face coincides with the corresponding root face
does not contribute. -/
def axisBoundaryContrib (q lo hi rootLo rootHi : ℚ) : ℚ :=
  (if q < lo then (if lo = rootLo then 0 else (lo - q) ^ 2) else 0) +
  (if hi < q then (if hi = rootHi then 0 else (q - hi) ^ 2) else 0)

/-- Modelled from the spec: squared distance from a point to a box, clamped to
0 when the point is inside, with root-coinciding faces excluded. -/
def dist2PtBox (q boxLo boxHi rootLo rootHi : P3) : ℚ :=
  axisBoundaryContrib q.x boxLo.x boxHi.x rootLo.x rootHi.x +
  axisBoundaryContrib q.y boxLo.y boxHi.y rootLo.y rootHi.y +
  axisBoundaryContrib q.z boxLo.z boxHi.z rootLo.z rootHi.z

/-- Modelled from the spec: `GetDistance2ToBoundary(point, root, checkData=1)`
— the squared distance from the point to the node's data box, with the
`SVTK_DOUBLE_MAX` sentinel when the node holds no points. -/
def Node.dist2ToBoundaryData (n : Node) (q : P3) (root : Node) : ℚ :=
  if n.numPoints = 0 then svtkDoubleMax
  else dist2PtBox q n.dataLo n.dataHi root.boxLo root.boxHi

/-- Modelled from the spec: accumulate the minimum over the two faces of one
axis, skipping a face that lies on the root boundary. -/
def innerFaceMin (q nLo nHi rLo rHi : ℚ) (acc : ℚ) : ℚ :=
  let acc1 := if nLo = rLo then acc else min acc ((q - nLo) ^ 2)
  if nHi = rHi then acc1 else min acc1 ((q - nHi) ^ 2)

/-- Modelled from the spec: `GetDistance2ToInnerBoundary(point, root)` — the
squared distance from the point to the nearest face of the node's box that is
not on the root boundary; `SVTK_DOUBLE_MAX` when every face lies on the root
boundary. -/
def Node.dist2ToInnerBoundary (n : Node) (q : P3) (root : Node) : ℚ :=
  innerFaceMin q.z n.boxLo.z n.boxHi.z root.boxLo.z root.boxHi.z
    (innerFaceMin q.y n.boxLo.y n.boxHi.y root.boxLo.y root.boxHi.y
      (innerFaceMin q.x n.boxLo.x n.boxHi.x root.boxLo.x root.boxHi.x
        svtkDoubleMax))

/-- Clamp a coordinate into an interval (projection onto the box, one axis). -/
def clampQ (q lo hi : ℚ) : ℚ := min (max q lo) hi

/-- Modelled from the spec: the closest point of a box to an outside query
point, as written by the 4-argument `GetDistance2ToBoundary` into its
`closest` output (componentwise clamp). -/
def projToBox (q lo hi : P3) : P3 :=
  ⟨clampQ q.x lo.x hi.x, clampQ q.y lo.y hi.y, clampQ q.z lo.z hi.z⟩

/-- A search item of the iterative traversals: a subtree together with the
path of child indices that leads to it from the root.  Paths model C++
pointer identity: two distinct nodes of one tree have distinct paths. -/
abbrev PathNode := List (Fin 8) × Node

/-- Sum of subtree sizes on a stack or queue, the termination measure of the
iterative traversals. -/
def stackSize (l : List PathNode) : Nat := (l.map (fun e => e.2.size)).sum

theorem stackSize_cons (e : PathNode) (l : List PathNode) :
    stackSize (e :: l) = e.2.size + stackSize l := by
  simp [stackSize]

theorem stackSize_append (l1 l2 : List PathNode) :
    stackSize (l1 ++ l2) = stackSize l1 + stackSize l2 := by
  simp [stackSize]

/-- The children of an internal node that pass a push filter, paired with
their paths, in child order 0..7. -/
def pushChildren (path : List (Fin 8)) (n : Node) (keep : Fin 8 → Bool) :
    List PathNode :=
  ((List.finRange 8).filter keep).map (fun i => (path ++ [i], n.child i))

theorem Node.child_c0 (l h dl dh : P3) (a b c d e f g hc : Node) :
    (Node.internal l h dl dh a b c d e f g hc).child 0 = a := rfl

theorem Node.child_c1 (l h dl dh : P3) (a b c d e f g hc : Node) :
    (Node.internal l h dl dh a b c d e f g hc).child 1 = b := rfl

theorem Node.child_c2 (l h dl dh : P3) (a b c d e f g hc : Node) :
    (Node.internal l h dl dh a b c d e f g hc).child 2 = c := rfl

theorem Node.child_c3 (l h dl dh : P3) (a b c d e f g hc : Node) :
    (Node.internal l h dl dh a b c d e f g hc).child 3 = d := rfl

theorem Node.child_c4 (l h dl dh : P3) (a b c d e f g hc : Node) :
    (Node.internal l h dl dh a b c d e f g hc).child 4 = e := rfl

theorem Node.child_c5 (l h dl dh : P3) (a b c d e f g hc : Node) :
    (Node.internal l h dl dh a b c d e f g hc).child 5 = f := rfl

theorem Node.child_c6 (l h dl dh : P3) (a b c d e f g hc : Node) :
    (Node.internal l h dl dh a b c d e f g hc).child 6 = g := rfl

theorem Node.child_c7 (l h dl dh : P3) (a b c d e f g hc : Node) :
    (Node.internal l h dl dh a b c d e f g hc).child 7 = hc := rfl

theorem stackSize_pushChildren (path : List (Fin 8)) (keep : Fin 8 → Bool)
    (l h dl dh : P3) (a b c d e f g hc : Node) :
    stackSize (pushChildren path (.internal l h dl dh a b c d e f g hc) keep)
      < (Node.internal l h dl dh a b c d e f g hc).size := by
  have hsub : List.Sublist ((List.finRange 8).filter keep) (List.finRange 8) :=
    List.filter_sublist _
  have hle : stackSize (pushChildren path (.internal l h dl dh a b c d e f g hc) keep)
      ≤ ((List.finRange 8).map
          (fun i => ((Node.internal l h dl dh a b c d e f g hc).child i).size)).sum := by
    unfold pushChildren stackSize
    rw [List.map_map]
    exact List.Sublist.sum_le_sum (hsub.map _) (by intro x hx; positivity)
  have h8 : List.finRange 8 = [0, 1, 2, 3, 4, 5, 6, 7] := rfl
  rw [h8] at hle
  simp only [List.map_cons, List.map_nil, List.sum_cons, List.sum_nil,
    Node.child_c0, Node.child_c1, Node.child_c2, Node.child_c3,
    Node.child_c4, Node.child_c5, Node.child_c6, Node.child_c7] at hle
  simp only [Node.size]
  omega

theorem stackSize_tail_lt (e : PathNode) (l : List PathNode) :
    stackSize l < stackSize (e :: l) := by
  rw [stackSize_cons]
  have := Node.size_pos e.2
  omega

theorem stackSize_push_lt (path : List (Fin 8)) (keep : Fin 8 → Bool)
    (l h dl dh : P3) (a b c d e f g hc : Node) (rest : List PathNode) :
    stackSize ((pushChildren path (.internal l h dl dh a b c d e f g hc) keep).reverse
        ++ rest)
      < stackSize ((path, Node.internal l h dl dh a b c d e f g hc) :: rest) := by
  have h1 := stackSize_pushChildren path keep l h dl dh a b c d e f g hc
  have h2 : stackSize (pushChildren path (.internal l h dl dh a b c d e f g hc) keep).reverse
      = stackSize (pushChildren path (.internal l h dl dh a b c d e f g hc) keep) := by
    unfold stackSize
    rw [List.map_reverse, List.sum_reverse]
  rw [stackSize_append, h2, stackSize_cons]
  show _ < (Node.internal l h dl dh a b c d e f g hc).size + stackSize rest
  omega

/-- The loop of `FindClosestPointInSphere`: a pruned depth-first search over a
stack of subtrees, tracking the best (id, squared distance) pair.  `mask` is
the path of the mask node; `aliased` selects whether `refDist2` aliases the
running minimum (`FindClosestPointInSphereWithoutTolerance` passes `minDist2`
for both pointers) or stays the fixed value `refFixed`
(`FindClosestPointInSphereWithTolerance` passes `&radius2`). -/
def sphereKeep (root : Node) (q : P3) (radius2 : ℚ)
    (mask : Option (List (Fin 8))) (refv : ℚ) (path : List (Fin 8)) (n : Node)
    (i : Fin 8) : Bool :=
  let cn := n.child i
  let distToData :=
    if cn.numPoints ≠ 0 then cn.dist2ToBoundaryData q root
    else radius2 + radius2
  decide (some (path ++ [i]) ≠ mask) &&
    (decide (distToData ≤ refv) || cn.containsPoint q)

def sphereGoF (P : PtStore) (root : Node) (q : P3) (radius2 : ℚ)
    (mask : Option (List (Fin 8))) (aliased : Bool) (refFixed : ℚ) :
    Nat → List PathNode → Int × ℚ → Int × ℚ
  | 0, _, best => best
  | _ + 1, [], best => best
  | fuel + 1, (path, n) :: rest, best =>
    if ¬ (0 < best.2) then best
    else
      match n with
      | .leaf l h dl dh ids =>
        let scanned := findClosestPointInLeafNode P q (.leaf l h dl dh ids)
        let best' := if scanned.2 < best.2 then scanned else best
        sphereGoF P root q radius2 mask aliased refFixed fuel rest best'
      | .internal l h dl dh a b c d e f g hc =>
        let refv := if aliased then best.2 else refFixed
        let keep := sphereKeep root q radius2 mask refv path
          (Node.internal l h dl dh a b c d e f g hc)
        sphereGoF P root q radius2 mask aliased refFixed fuel
          ((pushChildren path (.internal l h dl dh a b c d e f g hc) keep).reverse
            ++ rest) best

theorem stackSize_push_rev_append_lt (path : List (Fin 8)) (keep : Fin 8 → Bool)
    (l h dl dh : P3) (a b c d e f g hc : Node) (rest : List PathNode) :
    stackSize ((pushChildren path (.internal l h dl dh a b c d e f g hc) keep).reverse
        ++ rest) < (Node.internal l h dl dh a b c d e f g hc).size + stackSize rest := by
  have h1 := stackSize_push_lt path keep l h dl dh a b c d e f g hc rest
  rw [stackSize_cons] at h1
  exact h1

theorem sphereGoF_irrel (P : PtStore) (root : Node) (q : P3) (radius2 : ℚ)
    (mask : Option (List (Fin 8))) (aliased : Bool) (refFixed : ℚ) :
    ∀ fuel fuel' stack best, stackSize stack < fuel → stackSize stack < fuel' →
      sphereGoF P root q radius2 mask aliased refFixed fuel stack best =
        sphereGoF P root q radius2 mask aliased refFixed fuel' stack best := by
  intro fuel
  induction fuel with
  | zero => intro fuel' stack best h _; omega
  | succ fuel ih =>
    intro fuel' stack best h h'
    match fuel', stack with
    | 0, stack => omega
    | fuel' + 1, [] => rfl
    | fuel' + 1, (path, n) :: rest =>
      simp only [sphereGoF]
      split
      · rfl
      · match n with
        | .leaf l hh dl dh ids =>
          have hlt : stackSize rest < stackSize ((path, Node.leaf l hh dl dh ids) :: rest) :=
            stackSize_tail_lt _ _
          exact ih fuel' _ _ (by omega) (by omega)
        | .internal l hh dl dh a b c d e f g hc =>
          have hlt := stackSize_push_rev_append_lt path
            (sphereKeep root q radius2 mask (if aliased then best.2 else refFixed) path
              (Node.internal l hh dl dh a b c d e f g hc)) l hh dl dh a b c d e f g hc rest
          rw [stackSize_cons] at h h'
          have hj : (path, Node.internal l hh dl dh a b c d e f g hc).2.size =
              (Node.internal l hh dl dh a b c d e f g hc).size := rfl
          exact ih fuel' _ _ (by omega) (by omega)

/-- The loop of `FindClosestPointInSphere`: a pruned depth-first search over a
stack of subtrees, tracking the best (id, squared distance) pair.  `mask` is
the path of the mask node; `aliased` selects whether `refDist2` aliases the
running minimum (`FindClosestPointInSphereWithoutTolerance` passes `minDist2`
for both pointers) or stays the fixed value `refFixed`
(`FindClosestPointInSphereWithTolerance` passes `&radius2`). -/
def sphereGo (P : PtStore) (root : Node) (q : P3) (radius2 : ℚ)
    (mask : Option (List (Fin 8))) (aliased : Bool) (refFixed : ℚ)
    (stack : List PathNode) (best : Int × ℚ) : Int × ℚ :=
  sphereGoF P root q radius2 mask aliased refFixed (stackSize stack + 1) stack best

theorem sphereGo_nil (P : PtStore) (root : Node) (q : P3) (radius2 : ℚ)
    (mask : Option (List (Fin 8))) (aliased : Bool) (refFixed : ℚ)
    (best : Int × ℚ) :
    sphereGo P root q radius2 mask aliased refFixed [] best = best := rfl

theorem sphereGo_stop (P : PtStore) (root : Node) (q : P3) (radius2 : ℚ)
    (mask : Option (List (Fin 8))) (aliased : Bool) (refFixed : ℚ)
    (e : PathNode) (rest : List PathNode) (best : Int × ℚ) (h : ¬ (0 < best.2)) :
    sphereGo P root q radius2 mask aliased refFixed (e :: rest) best = best := by
  unfold sphereGo
  obtain ⟨path, n⟩ := e
  rw [stackSize_cons]
  simp only [sphereGoF]
  rw [if_pos h]

theorem sphereGo_leaf (P : PtStore) (root : Node) (q : P3) (radius2 : ℚ)
    (mask : Option (List (Fin 8))) (aliased : Bool) (refFixed : ℚ)
    (path : List (Fin 8)) (l h dl dh : P3) (ids : List Int)
    (rest : List PathNode) (best : Int × ℚ) (hpos : 0 < best.2) :
    sphereGo P root q radius2 mask aliased refFixed
        ((path, Node.leaf l h dl dh ids) :: rest) best =
      sphereGo P root q radius2 mask aliased refFixed rest
        (if (findClosestPointInLeafNode P q (.leaf l h dl dh ids)).2 < best.2
          then findClosestPointInLeafNode P q (.leaf l h dl dh ids) else best) := by
  have hstep : sphereGo P root q radius2 mask aliased refFixed
      ((path, Node.leaf l h dl dh ids) :: rest) best
    = sphereGoF P root q radius2 mask aliased refFixed
        ((path, Node.leaf l h dl dh ids).2.size + stackSize rest) rest
        (if (findClosestPointInLeafNode P q (.leaf l h dl dh ids)).2 < best.2
          then findClosestPointInLeafNode P q (.leaf l h dl dh ids) else best) := by
    unfold sphereGo
    rw [stackSize_cons]
    simp only [sphereGoF]
    rw [if_neg (not_not_intro hpos)]
  rw [hstep]
  unfold sphereGo
  apply sphereGoF_irrel
  · have hj : (path, Node.leaf l h dl dh ids).2.size = 1 := rfl
    omega
  · omega

theorem sphereGo_internal (P : PtStore) (root : Node) (q : P3) (radius2 : ℚ)
    (mask : Option (List (Fin 8))) (aliased : Bool) (refFixed : ℚ)
    (path : List (Fin 8)) (l h dl dh : P3) (a b c d e f g hc : Node)
    (rest : List PathNode) (best : Int × ℚ) (hpos : 0 < best.2) :
    sphereGo P root q radius2 mask aliased refFixed
        ((path, Node.internal l h dl dh a b c d e f g hc) :: rest) best =
      sphereGo P root q radius2 mask aliased refFixed
        ((pushChildren path (.internal l h dl dh a b c d e f g hc)
            (sphereKeep root q radius2 mask (if aliased then best.2 else refFixed) path
              (Node.internal l h dl dh a b c d e f g hc))).reverse ++ rest) best := by
  have hstep : sphereGo P root q radius2 mask aliased refFixed
      ((path, Node.internal l h dl dh a b c d e f g hc) :: rest) best
    = sphereGoF P root q radius2 mask aliased refFixed
        ((path, Node.internal l h dl dh a b c d e f g hc).2.size + stackSize rest)
        ((pushChildren path (.internal l h dl dh a b c d e f g hc)
            (sphereKeep root q radius2 mask (if aliased then best.2 else refFixed) path
              (Node.internal l h dl dh a b c d e f g hc))).reverse ++ rest) best := by
    unfold sphereGo
    rw [stackSize_cons]
    simp only [sphereGoF]
    rw [if_neg (not_not_intro hpos)]
  rw [hstep]
  unfold sphereGo
  apply sphereGoF_irrel
  · have hlt := stackSize_push_rev_append_lt path
      (sphereKeep root q radius2 mask (if aliased then best.2 else refFixed) path
        (Node.internal l h dl dh a b c d e f g hc)) l h dl dh a b c d e f g hc rest
    have hj : (path, Node.internal l h dl dh a b c d e f g hc).2.size =
        (Node.internal l h dl dh a b c d e f g hc).size := rfl
    omega
  · omega

/-- `FindClosestPointInSphere`: run the pruned search from the root with the
given initial minimum, and return the pair (returned id, final `*minDist2`);
the id is the best id if the final minimum is within `radius2`, else `-1`. -/
def findClosestPointInSphere (P : PtStore) (root : Node) (q : P3)
    (radius2 : ℚ) (mask : Option (List (Fin 8))) (aliased : Bool)
    (refFixed : ℚ) (minInit : ℚ) : Int × ℚ :=
  let r := sphereGo P root q radius2 mask aliased refFixed [([], root)] (-1, minInit)
  (if r.2 ≤ radius2 then r.1 else -1, r.2)

/-- `FindClosestPointInSphereWithoutTolerance`: initial minimum
`radius2 * 1.1` (the code's guard against equality pitfalls), with `refDist2`
aliasing `minDist2`. -/
def findClosestPointInSphereWithoutTolerance (P : PtStore) (root : Node)
    (q : P3) (radius2 : ℚ) (mask : Option (List (Fin 8))) : Int × ℚ :=
  findClosestPointInSphere P root q radius2 mask true 0 (radius2 * (11 / 10))

/-- `FindClosestPointInSphereWithTolerance`: initial minimum
`OctreeMaxDimSize² * 4`, with `refDist2` fixed at `radius2`. -/
def findClosestPointInSphereWithTolerance (P : PtStore) (root : Node)
    (q : P3) (octreeMaxDimSize : ℚ) (radius2 : ℚ)
    (mask : Option (List (Fin 8))) : Int × ℚ :=
  findClosestPointInSphere P root q radius2 mask false radius2
    (octreeMaxDimSize * octreeMaxDimSize * 4)

/-- Componentwise minimum, used to extend the low data bounds with a point. -/
def extendLoP (d p : P3) : P3 := ⟨min d.x p.x, min d.y p.y, min d.z p.z⟩

/-- Componentwise maximum, used to extend the high data bounds with a point. -/
def extendHiP (d p : P3) : P3 := ⟨max d.x p.x, max d.y p.y, max d.z p.z⟩

/-- Modelled from the spec: recompute data bounds from a list of ids by
extending an initially inverted (empty) range with each point. -/
def dataBoundsOf (P : PtStore) (invLo invHi : P3) (ids : List Int) : P3 × P3 :=
  ids.foldl (fun acc id => (extendLoP acc.1 (getPt P id), extendHiP acc.2 (getPt P id)))
    (invLo, invHi)

/-- Modelled from the spec: a leaf may subdivide only when its box has a side
of at least `2 * fudge_factor` in every axis (else coincident points would
recurse forever). -/
def bigEnough (lo hi : P3) (fudge : ℚ) : Bool :=
  decide (2 * fudge ≤ hi.x - lo.x) && decide (2 * fudge ≤ hi.y - lo.y) &&
    decide (2 * fudge ≤ hi.z - lo.z)

/-- Modelled from the spec: build child `k` during subdivision — an empty
leaf on octant `k` of the parent box that receives every id whose point falls
in that octant (the child whose box contains the point, equivalently the
child-index mask), with data bounds recomputed from the moved ids. -/
def mkSubChild (P : PtStore) (lo hi : P3) (ids : List Int) (k : Fin 8) : Node :=
  let cLo := octantLo lo hi k
  let cHi := octantHi lo hi k
  let cIds := ids.filter (fun id => decide (childIndexOf lo hi (getPt P id) = k))
  let db := dataBoundsOf P cHi cLo cIds
  Node.leaf cLo cHi db.1 db.2 cIds

/-- Modelled from the spec: insert point `p` with id `pid` into the subtree —
descend along the child-index chain extending data bounds, append the id to
the containing leaf, and subdivide the leaf when it exceeds
`max_points_per_leaf` and its box is large enough. -/
def Node.insertPt (P : PtStore) (pid : Int) (p : P3) (maxPts : Nat) (fudge : ℚ) :
    Node → Node
  | .leaf lo hi dLo dHi ids =>
    let dLo' := if ids.isEmpty then p else extendLoP dLo p
    let dHi' := if ids.isEmpty then p else extendHiP dHi p
    let ids' := ids ++ [pid]
    if maxPts < ids'.length ∧ bigEnough lo hi fudge then
      .internal lo hi dLo' dHi'
        (mkSubChild P lo hi ids' 0) (mkSubChild P lo hi ids' 1)
        (mkSubChild P lo hi ids' 2) (mkSubChild P lo hi ids' 3)
        (mkSubChild P lo hi ids' 4) (mkSubChild P lo hi ids' 5)
        (mkSubChild P lo hi ids' 6) (mkSubChild P lo hi ids' 7)
    else .leaf lo hi dLo' dHi' ids'
  | .internal lo hi dLo dHi a b c d e f g h =>
    let dLo' := extendLoP dLo p
    let dHi' := extendHiP dHi p
    match childIndexOf lo hi p with
    | 0 => .internal lo hi dLo' dHi' (a.insertPt P pid p maxPts fudge) b c d e f g h
    | 1 => .internal lo hi dLo' dHi' a (b.insertPt P pid p maxPts fudge) c d e f g h
    | 2 => .internal lo hi dLo' dHi' a b (c.insertPt P pid p maxPts fudge) d e f g h
    | 3 => .internal lo hi dLo' dHi' a b c (d.insertPt P pid p maxPts fudge) e f g h
    | 4 => .internal lo hi dLo' dHi' a b c d (e.insertPt P pid p maxPts fudge) f g h
    | 5 => .internal lo hi dLo' dHi' a b c d e (f.insertPt P pid p maxPts fudge) g h
    | 6 => .internal lo hi dLo' dHi' a b c d e f (g.insertPt P pid p maxPts fudge) h
    | 7 => .internal lo hi dLo' dHi' a b c d e f g (h.insertPt P pid p maxPts fudge)

/-- The locator state (`svtkIncrementalOctreePointLocator` members; the
attached point container is inlined, `octreeRootNode = none` models the null
root pointer). -/
structure Loc where
  fudgeFactor : ℚ
  octreeMaxDimSize : ℚ
  buildCubicOctree : Bool
  maxPointsPerLeaf : Nat
  tolerance : ℚ
  insertTolerance2 : ℚ
  locatorPoints : PtStore
  octreeRootNode : Option Node
deriving DecidableEq, Repr

/-- The constructor state, with the configuration setters applied: fudge 0,
max dim 0, `MaxPointsPerLeaf`/`BuildCubicOctree`/`Tolerance` as configured,
`InsertTolerance2 = 0.000001`, no container, no root. -/
def Loc.mk0 (tol : ℚ) (maxPts : Nat) (cubic : Bool) : Loc :=
  ⟨0, 0, cubic, maxPts, tol, 1 / 1000000, [], none⟩

/-- One axis of `InitPointInsertion`'s bounds fix-up: optional symmetric cube
expansion to `maxDim`, then either the anti-slab re-centering (when the extent
is below `minSide`) or the fudge shift of the low side. -/
def initAxis (cubic : Bool) (maxDim fudge minSide lo hi : ℚ) : ℚ × ℚ :=
  let d := hi - lo
  let lo1 := if cubic ∧ d ≠ maxDim then lo - (maxDim - d) / 2 else lo
  let hi1 := if cubic ∧ d ≠ maxDim then hi + (maxDim - d) / 2 else hi
  if hi1 - lo1 < minSide then (hi1 - minSide, lo1 + minSide)
  else (lo1 - fudge, hi1)

/-- `InitPointInsertion(points, bounds)` with a non-null container: drop the
old tree, attach the container, set `InsertTolerance2 = Tolerance²`, compute
the max dimension, fudge factor and fixed-up root box, and create the root as
a single empty leaf. -/
def initPointInsertion (st : Loc) (pts : PtStore) (bLo bHi : P3) : Loc :=
  let maxDim := max (max (max 0 (bHi.x - bLo.x)) (bHi.y - bLo.y)) (bHi.z - bLo.z)
  let fudge := maxDim * (1 / 100000)
  let minSide := maxDim * (1 / 10)
  let ax := initAxis st.buildCubicOctree maxDim fudge minSide bLo.x bHi.x
  let ay := initAxis st.buildCubicOctree maxDim fudge minSide bLo.y bHi.y
  let az := initAxis st.buildCubicOctree maxDim fudge minSide bLo.z bHi.z
  let rootLo : P3 := ⟨ax.1, ay.1, az.1⟩
  let rootHi : P3 := ⟨ax.2, ay.2, az.2⟩
  { st with
    insertTolerance2 := st.tolerance * st.tolerance,
    octreeMaxDimSize := maxDim,
    fudgeFactor := fudge,
    locatorPoints := pts,
    octreeRootNode := some (Node.leaf rootLo rootHi rootHi rootLo []) }

/-- `InsertPointWithoutChecking` in point-appending mode (`InsertNextPoint`
semantics, as `InsertUniquePoint` uses after a failed duplicate check and as
`BuildLocator` uses id-by-id): append the coordinate to the container and
insert the fresh id into the containing leaf.  A no-op when no root exists
(the protocol always initializes insertion first). -/
def Loc.insertNextPt (st : Loc) (p : P3) : Loc :=
  match st.octreeRootNode with
  | none => st
  | some r =>
    let P2 := st.locatorPoints ++ [p]
    let pid : Int := st.locatorPoints.length
    { st with
      locatorPoints := P2,
      octreeRootNode := some (r.insertPt P2 pid p st.maxPointsPerLeaf st.fudgeFactor) }

/-- A tree built by a sequence of insertions: configure the locator,
initialize insertion on an empty container with the given world bounds, then
insert the points one at a time. -/
def buildLoc (tol : ℚ) (maxPts : Nat) (cubic : Bool) (bLo bHi : P3)
    (inserts : List P3) : Loc :=
  inserts.foldl Loc.insertNextPt (initPointInsertion (Loc.mk0 tol maxPts cubic) [] bLo bHi)

/-- One axis of the outside-case nudge in `FindClosestPoint`: push the
projected point strictly inside the root box by `FudgeFactor` on each axis it
touches. -/
def nudgeAx (v lo hi fudge : ℚ) : ℚ :=
  if v ≤ lo then lo + fudge else if hi ≤ v then hi - fudge else v

/-- `FindClosestPoint(x, miniDist2)`: the returned id together with the final
`*miniDist2`.  Inside case: scan the containing leaf, then run the masked
sphere search only when the leaf's inner-boundary distance is closer than the
leaf minimum.  Outside case: project onto the root's data box, nudge inside,
scan that leaf, and always run the masked sphere search. -/
def findClosestPoint (st : Loc) (q : P3) : Int × ℚ :=
  let init := st.octreeMaxDimSize * st.octreeMaxDimSize * 4
  match st.octreeRootNode with
  | none => (-1, init)
  | some root =>
    if root.numPoints = 0 then (-1, init)
    else if root.containsPoint q then
      let lpath := leafContainerPath root q
      let leaf := root.descend lpath
      let s := findClosestPointInLeafNode st.locatorPoints q leaf
      if 0 < s.2 then
        if leaf.dist2ToInnerBoundary q root < s.2 then
          let e := findClosestPointInSphereWithoutTolerance st.locatorPoints root q
            s.2 (some lpath)
          if e.2 < s.2 then e else s
        else s
      else s
    else
      let proj := projToBox q root.dataLo root.dataHi
      let ip : P3 :=
        ⟨nudgeAx proj.x root.boxLo.x root.boxHi.x st.fudgeFactor,
         nudgeAx proj.y root.boxLo.y root.boxHi.y st.fudgeFactor,
         nudgeAx proj.z root.boxLo.z root.boxHi.z st.fudgeFactor⟩
      let lpath := leafContainerPath root ip
      let leaf := root.descend lpath
      let s := findClosestPointInLeafNode st.locatorPoints q leaf
      let e := findClosestPointInSphereWithoutTolerance st.locatorPoints root q
        s.2 (some lpath)
      if e.2 < s.2 then e else s

/-- `FindClosestInsertedPoint(x)`: `-1` when there is no root, no stored
point, or the query is outside the root box; otherwise leaf scan plus the
guarded masked sphere search, as in the inside case of `FindClosestPoint`. -/
def findClosestInsertedPoint (st : Loc) (x : P3) : Int :=
  match st.octreeRootNode with
  | none => -1
  | some root =>
    if root.numPoints = 0 ∨ root.containsPoint x = false then -1
    else
      let lpath := leafContainerPath root x
      let leaf := root.descend lpath
      let s := findClosestPointInLeafNode st.locatorPoints x leaf
      if 0 < s.2 then
        if leaf.dist2ToInnerBoundary x root < s.2 then
          let e := findClosestPointInSphereWithoutTolerance st.locatorPoints root x
            s.2 (some lpath)
          if e.2 < s.2 then e.1 else s.1
        else s.1
      else s.1

/-- One axis of the min/max squared distance computation at the top of the
recursive `FindPointsWithinSquaredRadius`: contribution to
`(outMinDst2, maximDist2)`. -/
def axMinMax (p lo hi : ℚ) : ℚ × ℚ :=
  let t0 := p - lo
  let t1 := hi - p
  if t0 < 0 then (t0 ^ 2, t1 ^ 2)
  else if t1 < 0 then (t1 ^ 2, t0 ^ 2)
  else if t0 < t1 then (0, t1 ^ 2)
  else (0, t0 ^ 2)

/-- `(outMinDst2, maximDist2)` of a node's box as computed by the recursive
`FindPointsWithinSquaredRadius`. -/
def nodeMinMax2 (q lo hi : P3) : ℚ × ℚ :=
  let ax := axMinMax q.x lo.x hi.x
  let ay := axMinMax q.y lo.y hi.y
  let az := axMinMax q.z lo.z hi.z
  (ax.1 + ay.1 + az.1, ax.2 + ay.2 + az.2)

/-- The recursive `FindPointsWithinSquaredRadius(node, radius2, point, idList)`:
prune when the node is entirely outside the sphere, dump all ids beneath when
entirely inside, scan a leaf, or recurse into the 8 children.  `acc` is the
id list accumulated so far. -/
def fpwsrNode (P : PtStore) (radius2 : ℚ) (q : P3) (n : Node) (acc : List Int) :
    List Int :=
  let mm := nodeMinMax2 q n.boxLo n.boxHi
  if radius2 < mm.1 then acc
  else if mm.2 ≤ radius2 then acc ++ n.allIds
  else
    match n with
    | .leaf _ _ _ _ ids =>
      acc ++ ids.filter (fun id => decide (dist2 (getPt P id) q ≤ radius2))
    | .internal _ _ _ _ a b c d e f g hc =>
      fpwsrNode P radius2 q hc (fpwsrNode P radius2 q g (fpwsrNode P radius2 q f
        (fpwsrNode P radius2 q e (fpwsrNode P radius2 q d (fpwsrNode P radius2 q c
          (fpwsrNode P radius2 q b (fpwsrNode P radius2 q a acc)))))))

/-- `FindPointsWithinSquaredRadius(R2, x, result)` entry: reset the result and
start the recursion at the root.  With no root the recursion dereferences the
null node (`node->GetBounds`), modelled as `none`. -/
def findPointsWithinSquaredRadiusEntry (st : Loc) (r2 : ℚ) (q : P3) :
    Option (List Int) :=
  match st.octreeRootNode with
  | none => none
  | some root => some (fpwsrNode st.locatorPoints r2 q root [])

/-- `FindPointsWithinRadius(R, x, result)` entry. -/
def findPointsWithinRadiusEntry (st : Loc) (r : ℚ) (q : P3) : Option (List Int) :=
  findPointsWithinSquaredRadiusEntry st (r * r) q

/-- `FindClosestPointWithinSquaredRadius(radius2, x, dist2)` entry: the pruned
sphere search with no mask.  With no root, the loop pops the null root and
dereferences it (`IsLeaf`) whenever the initial minimum `radius2 * 1.1` is
positive — modelled as `none`; with a non-positive initial minimum the loop is
skipped and `-1` is returned. -/
def findClosestPointWithinSquaredRadiusEntry (st : Loc) (r2 : ℚ) (q : P3) :
    Option (Int × ℚ) :=
  match st.octreeRootNode with
  | none =>
    if 0 < r2 * (11 / 10) then none else some (-1, r2 * (11 / 10))
  | some root =>
    some (findClosestPointInSphereWithoutTolerance st.locatorPoints root q r2 none)

/-- `FindClosestPointWithinRadius(radius, x, dist2)` entry. -/
def findClosestPointWithinRadiusEntry (st : Loc) (r : ℚ) (q : P3) :
    Option (Int × ℚ) :=
  findClosestPointWithinSquaredRadiusEntry st (r * r) q

/-- `IsInsertedPointForNonZeroTolerance(x)` on an initialized tree: scan the
containing leaf; on an exact hit return it; otherwise run the whole-tree
sphere search with radius² = `InsertTolerance2` masking the leaf exactly when
the leaf's inner-boundary distance is below the tolerance; finally return the
best id iff its squared distance is within the tolerance, else `-1`. -/
def isInsertedPointForNonZeroTolerance (st : Loc) (root : Node) (x : P3) : Int :=
  let lpath := leafContainerPath root x
  let leaf := root.descend lpath
  let s := findClosestPointInLeafNode st.locatorPoints x leaf
  if s.2 = 0 then s.1
  else
    let elseDst2 := leaf.dist2ToInnerBoundary x root
    let r :=
      if elseDst2 < st.insertTolerance2 then
        let e := findClosestPointInSphereWithTolerance st.locatorPoints root x
          st.octreeMaxDimSize st.insertTolerance2 (some lpath)
        if e.2 < s.2 then e else s
      else s
    if r.2 ≤ st.insertTolerance2 then r.1 else -1

/-- `GetBounds(bounds)`: write the root box into the caller's six-entry
array; with no root the array is left untouched. -/
def getBounds (st : Loc) (b : Fin 6 → ℚ) : Fin 6 → ℚ :=
  match st.octreeRootNode with
  | none => b
  | some root => fun i =>
    match i with
    | 0 => root.boxLo.x | 1 => root.boxHi.x
    | 2 => root.boxLo.y | 3 => root.boxHi.y
    | 4 => root.boxLo.z | 5 => root.boxHi.z

/-- `GetNumberOfPoints`: 0 with no root, else the root's point count. -/
def getNumberOfPoints (st : Loc) : Nat :=
  match st.octreeRootNode with
  | none => 0
  | some root => root.numPoints

/-- The `SortPoints` helper class state: requested capacity, current count,
current largest retained squared distance, and the `std::map` from squared
distance to the ids at that distance, modelled as an association list with
strictly ascending keys. -/
structure SortPoints where
  numRequested : Nat
  numberPoints : Nat
  largestDist2 : ℚ
  dist2ToIds : List (ℚ × List Int)
deriving DecidableEq, Repr

/-- The `SortPoints(N)` constructor: empty, `LargestDist2 = SVTK_DOUBLE_MAX`. -/
def mkSortPoints (N : Nat) : SortPoints := ⟨N, 0, svtkDoubleMax, []⟩

/-- Insertion into the sorted key map: append the id to the bucket of its key,
or create a new bucket in key order. -/
def mapAdd : List (ℚ × List Int) → ℚ → Int → List (ℚ × List Int)
  | [], d, pid => [(d, [pid])]
  | (k, l) :: rest, d, pid =>
    if d = k then (k, l ++ [pid]) :: rest
    else if d < k then (d, [pid]) :: (k, l) :: rest
    else (k, l) :: mapAdd rest d pid

/-- `SortPoints::InsertPoint(dist2, pntId)`: add the pair when the distance is
within the current largest or the count is below the request; then, when the
count exceeds the request, drop the whole largest-key bucket — but only when
doing so still leaves more than the requested number of points — and update
`LargestDist2` to the key before it. -/
def SortPoints.insertPt (s : SortPoints) (d2 : ℚ) (pid : Int) : SortPoints :=
  if d2 ≤ s.largestDist2 ∨ s.numberPoints < s.numRequested then
    let np := s.numberPoints + 1
    let m := mapAdd s.dist2ToIds d2 pid
    if s.numRequested < np then
      match m.getLast? with
      | some last =>
        if s.numRequested < np - last.2.length then
          let m' := m.dropLast
          let newLg :=
            match m'.getLast? with
            | some prev => prev.1
            | none => s.largestDist2
          ⟨s.numRequested, np - last.2.length, newLg, m'⟩
        else ⟨s.numRequested, np, s.largestDist2, m⟩
      | none => ⟨s.numRequested, np, s.largestDist2, m⟩
    else ⟨s.numRequested, np, s.largestDist2, m⟩
  else s

/-- `SortPoints::GetSortedIds(idList)`: the first `min(NumRequested,
NumberPoints)` ids in ascending key order, insertion order within a bucket. -/
def SortPoints.getSortedIds (s : SortPoints) : List Int :=
  ((s.dist2ToIds.map Prod.snd).flatten).take (min s.numRequested s.numberPoints)

/-- The inside-the-node descent regime of `FindClosestNPoints`: while the
node is internal and holds more points than requested, descend into the child
containing the query.  Returns (node, path, parent, parent path). -/
def descendInF (x : P3) (K : Nat) :
    Nat → Node → List (Fin 8) → Node → List (Fin 8) →
      Node × List (Fin 8) × Node × List (Fin 8)
  | 0, n, path, par, parPath => (n, path, par, parPath)
  | fuel + 1, n, path, par, parPath =>
    match n with
    | .leaf l h dl dh ids => (.leaf l h dl dh ids, path, par, parPath)
    | .internal l h dl dh a b c d e f g hc =>
      let N := Node.internal l h dl dh a b c d e f g hc
      if K < N.numPoints then
        let j := childIndexOf l h x
        descendInF x K fuel (N.child j) (path ++ [j]) N path
      else (N, path, par, parPath)

def descendIn (x : P3) (K : Nat) (n : Node) (path : List (Fin 8)) (par : Node)
    (parPath : List (Fin 8)) : Node × List (Fin 8) × Node × List (Fin 8) :=
  descendInF x K n.size n path par parPath

theorem descendInF_irrel (x : P3) (K : Nat) :
    ∀ fuel fuel' n path par parPath, n.size ≤ fuel → n.size ≤ fuel' →
      descendInF x K fuel n path par parPath =
        descendInF x K fuel' n path par parPath := by
  intro fuel
  induction fuel with
  | zero =>
    intro fuel' n path par parPath h _
    exact absurd h (by have := Node.size_pos n; omega)
  | succ fuel ih =>
    intro fuel' n path par parPath h h'
    match fuel', n with
    | 0, n => exact absurd h' (by have := Node.size_pos n; omega)
    | fuel' + 1, .leaf _ _ _ _ _ => rfl
    | fuel' + 1, .internal l hh dl dh a b c d e f g hc =>
      simp only [descendInF]
      split
      · have hlt := Node.child_size_lt l hh dl dh a b c d e f g hc (childIndexOf l hh x)
        simp only [Node.size] at h h' hlt
        exact ih fuel' _ _ _ _ (by omega) (by omega)
      · rfl

theorem descendIn_leaf (x : P3) (K : Nat) (l h dl dh : P3) (ids : List Int)
    (path : List (Fin 8)) (par : Node) (parPath : List (Fin 8)) :
    descendIn x K (.leaf l h dl dh ids) path par parPath =
      (.leaf l h dl dh ids, path, par, parPath) := rfl

theorem descendIn_internal (x : P3) (K : Nat) (l h dl dh : P3)
    (a b c d e f g hc : Node) (path : List (Fin 8)) (par : Node)
    (parPath : List (Fin 8)) :
    descendIn x K (.internal l h dl dh a b c d e f g hc) path par parPath =
      (if K < (Node.internal l h dl dh a b c d e f g hc).numPoints then
        descendIn x K
          ((Node.internal l h dl dh a b c d e f g hc).child (childIndexOf l h x))
          (path ++ [childIndexOf l h x])
          (Node.internal l h dl dh a b c d e f g hc) path
      else (Node.internal l h dl dh a b c d e f g hc, path, par, parPath)) := by
  show descendInF x K ((Node.internal l h dl dh a b c d e f g hc).size) _ _ _ _ = _
  have hsz : (Node.internal l h dl dh a b c d e f g hc).size =
      ((Node.internal l h dl dh a b c d e f g hc).size - 1) + 1 := by
    have := Node.size_pos (Node.internal l h dl dh a b c d e f g hc)
    omega
  rw [hsz]
  simp only [descendInF]
  split
  · unfold descendIn
    apply descendInF_irrel
    · have hlt := Node.child_size_lt l h dl dh a b c d e f g hc (childIndexOf l h x)
      omega
    · exact le_rfl
  · rfl

/-- The child of smallest data-box distance, as found by the 0..7 scan with a
strict comparison against the running minimum started at `SVTK_DOUBLE_MAX`;
`none` when no child beats the sentinel (then the C++ node variable is left
unchanged). -/
def minDataChildIdx (x : P3) (root n : Node) : Option (Fin 8) :=
  ((List.finRange 8).foldl (fun acc i =>
    let d := (n.child i).dist2ToBoundaryData x root
    if d < acc.2 then (some i, d) else acc) ((none : Option (Fin 8)), svtkDoubleMax)).1

/-- The outside-the-node descent regime of `FindClosestNPoints`: while the
node is internal and holds more points than requested, descend into the child
of minimum data-box distance.  When no child beats the `SVTK_DOUBLE_MAX`
sentinel the C++ loop would spin forever on the same node; that situation is
unreachable for trees built over bounded inputs, and the model stops there. -/
def descendOutF (x : P3) (K : Nat) (root : Node) :
    Nat → Node → List (Fin 8) → Node → List (Fin 8) →
      Node × List (Fin 8) × Node × List (Fin 8)
  | 0, n, path, par, parPath => (n, path, par, parPath)
  | fuel + 1, n, path, par, parPath =>
    match n with
    | .leaf l h dl dh ids => (.leaf l h dl dh ids, path, par, parPath)
    | .internal l h dl dh a b c d e f g hc =>
      let N := Node.internal l h dl dh a b c d e f g hc
      if K < N.numPoints then
        match minDataChildIdx x root N with
        | some j => descendOutF x K root fuel (N.child j) (path ++ [j]) N path
        | none => (N, path, N, path)
      else (N, path, par, parPath)

def descendOut (x : P3) (K : Nat) (root : Node) (n : Node) (path : List (Fin 8))
    (par : Node) (parPath : List (Fin 8)) :
    Node × List (Fin 8) × Node × List (Fin 8) :=
  descendOutF x K root n.size n path par parPath

theorem descendOutF_irrel (x : P3) (K : Nat) (root : Node) :
    ∀ fuel fuel' n path par parPath, n.size ≤ fuel → n.size ≤ fuel' →
      descendOutF x K root fuel n path par parPath =
        descendOutF x K root fuel' n path par parPath := by
  intro fuel
  induction fuel with
  | zero =>
    intro fuel' n path par parPath h _
    exact absurd h (by have := Node.size_pos n; omega)
  | succ fuel ih =>
    intro fuel' n path par parPath h h'
    match fuel', n with
    | 0, n => exact absurd h' (by have := Node.size_pos n; omega)
    | fuel' + 1, .leaf _ _ _ _ _ => rfl
    | fuel' + 1, .internal l hh dl dh a b c d e f g hc =>
      simp only [descendOutF]
      split
      · split
        · rename_i j hj
          have hlt := Node.child_size_lt l hh dl dh a b c d e f g hc j
          simp only [Node.size] at h h' hlt
          exact ih fuel' _ _ _ _ (by omega) (by omega)
        · rfl
      · rfl

theorem descendOut_leaf (x : P3) (K : Nat) (root : Node) (l h dl dh : P3)
    (ids : List Int) (path : List (Fin 8)) (par : Node) (parPath : List (Fin 8)) :
    descendOut x K root (.leaf l h dl dh ids) path par parPath =
      (.leaf l h dl dh ids, path, par, parPath) := rfl

theorem descendOut_internal (x : P3) (K : Nat) (root : Node) (l h dl dh : P3)
    (a b c d e f g hc : Node) (path : List (Fin 8)) (par : Node)
    (parPath : List (Fin 8)) :
    descendOut x K root (.internal l h dl dh a b c d e f g hc) path par parPath =
      (if K < (Node.internal l h dl dh a b c d e f g hc).numPoints then
        match minDataChildIdx x root (Node.internal l h dl dh a b c d e f g hc) with
        | some j => descendOut x K root
            ((Node.internal l h dl dh a b c d e f g hc).child j) (path ++ [j])
            (Node.internal l h dl dh a b c d e f g hc) path
        | none => (Node.internal l h dl dh a b c d e f g hc, path,
            Node.internal l h dl dh a b c d e f g hc, path)
      else (Node.internal l h dl dh a b c d e f g hc, path, par, parPath)) := by
  show descendOutF x K root ((Node.internal l h dl dh a b c d e f g hc).size) _ _ _ _ = _
  have hsz : (Node.internal l h dl dh a b c d e f g hc).size =
      ((Node.internal l h dl dh a b c d e f g hc).size - 1) + 1 := by
    have := Node.size_pos (Node.internal l h dl dh a b c d e f g hc)
    omega
  rw [hsz]
  simp only [descendOutF]
  split
  · split
    · rename_i j hj
      unfold descendOut
      apply descendOutF_irrel
      · have hlt := Node.child_size_lt l h dl dh a b c d e f g hc j
        omega
      · exact le_rfl
    · rfl
  · rfl

/-- The `beenFound` loop of `FindClosestNPoints`'s start-node selection,
alternating the two descent regimes; an empty node reached by the inside
regime is replaced by the sibling of minimum data-box distance and the loop
reenters.  The loop runs at most twice on well-formed trees; the fuel makes
the model total on arbitrary inputs (the C++ loop does not terminate on the
inputs that exhaust it). -/
def selectLoop (x : P3) (K : Nat) (root : Node) :
    Nat → Node → List (Fin 8) → Node → List (Fin 8) → Node × List (Fin 8)
  | 0, n, path, _, _ => (n, path)
  | fuel + 1, n, path, par, parPath =>
    if n.containsPoint x then
      let r := descendIn x K n path par parPath
      if r.1.numPoints ≠ 0 then
        if K ≤ r.1.numPoints then (r.1, r.2.1) else (r.2.2.1, r.2.2.2)
      else
        match minDataChildIdx x root r.2.2.1 with
        | some i =>
          selectLoop x K root fuel (r.2.2.1.child i) (r.2.2.2 ++ [i]) r.2.2.1 r.2.2.2
        | none => selectLoop x K root fuel r.1 r.2.1 r.2.2.1 r.2.2.2
    else
      let r := descendOut x K root n path par parPath
      if K ≤ r.1.numPoints then (r.1, r.2.1) else (r.2.2.1, r.2.2.2)

/-- The start-node selection of `FindClosestNPoints`, beginning at the root
with the root as its own parent. -/
def selectStartNode (x : P3) (K : Nat) (root : Node) : Node × List (Fin 8) :=
  selectLoop x K root (root.size + 2) root [] root []

theorem stackSize_enqueue_lt (path : List (Fin 8)) (keep : Fin 8 → Bool)
    (l h dl dh : P3) (a b c d e f g hc : Node) (rest : List PathNode) :
    stackSize (rest ++ pushChildren path (.internal l h dl dh a b c d e f g hc) keep)
      < stackSize ((path, Node.internal l h dl dh a b c d e f g hc) :: rest) := by
  have h1 := stackSize_pushChildren path keep l h dl dh a b c d e f g hc
  rw [stackSize_append, stackSize_cons]
  show _ + _ < (Node.internal l h dl dh a b c d e f g hc).size + stackSize rest
  omega

/-- The breadth-first pruned traversal of `FindClosestNPoints`: skip the start
node; enqueue the children whose data box contains the query or lies closer
than the sorter's current largest retained distance; insert every point of a
close-enough leaf and refresh the pruning radius. -/
def knnKeep (root : Node) (x : P3) (s : SortPoints) (n : Node) (i : Fin 8) : Bool :=
  let cn := n.child i
  cn.containsPointByData x || decide (cn.dist2ToBoundaryData x root < s.largestDist2)

def knnBfsF (P : PtStore) (root : Node) (x : P3) (startPath : List (Fin 8)) :
    Nat → List PathNode → SortPoints → SortPoints
  | 0, _, s => s
  | _ + 1, [], s => s
  | fuel + 1, (path, n) :: rest, s =>
    if path = startPath then knnBfsF P root x startPath fuel rest s
    else
      match n with
      | .internal l h dl dh a b c d e f g hc =>
        let N := Node.internal l h dl dh a b c d e f g hc
        knnBfsF P root x startPath fuel
          (rest ++ pushChildren path N (knnKeep root x s N)) s
      | .leaf l h dl dh ids =>
        if (Node.leaf l h dl dh ids).dist2ToBoundaryData x root < s.largestDist2 then
          let s2 := ids.foldl (fun acc pid => acc.insertPt (dist2 x (getPt P pid)) pid) s
          knnBfsF P root x startPath fuel rest s2
        else knnBfsF P root x startPath fuel rest s

theorem knnBfsF_irrel (P : PtStore) (root : Node) (x : P3) (startPath : List (Fin 8)) :
    ∀ fuel fuel' queue s, stackSize queue < fuel → stackSize queue < fuel' →
      knnBfsF P root x startPath fuel queue s =
        knnBfsF P root x startPath fuel' queue s := by
  intro fuel
  induction fuel with
  | zero => intro fuel' queue s h _; omega
  | succ fuel ih =>
    intro fuel' queue s h h'
    match fuel', queue with
    | 0, queue => omega
    | fuel' + 1, [] => rfl
    | fuel' + 1, (path, n) :: rest =>
      have htail : stackSize rest < stackSize ((path, n) :: rest) :=
        stackSize_tail_lt _ _
      cases n with
      | leaf l2 h2 dl2 dh2 ids =>
        simp only [knnBfsF]
        split
        · exact ih fuel' _ _ (by omega) (by omega)
        · split
          · exact ih fuel' _ _ (by omega) (by omega)
          · exact ih fuel' _ _ (by omega) (by omega)
      | internal l2 h2 dl2 dh2 a b c d e f g hc =>
        simp only [knnBfsF]
        split
        · exact ih fuel' _ _ (by omega) (by omega)
        · have hlt := stackSize_enqueue_lt path
            (knnKeep root x s (Node.internal l2 h2 dl2 dh2 a b c d e f g hc))
            l2 h2 dl2 dh2 a b c d e f g hc rest
          rw [stackSize_cons] at h h' hlt
          have hj : (path, Node.internal l2 h2 dl2 dh2 a b c d e f g hc).2.size =
              (Node.internal l2 h2 dl2 dh2 a b c d e f g hc).size := rfl
          exact ih fuel' _ _ (by omega) (by omega)

/-- The breadth-first pruned traversal of `FindClosestNPoints`: skip the start
node; enqueue the children whose data box contains the query or lies closer
than the sorter's current largest retained distance; insert every point of a
close-enough leaf and refresh the pruning radius. -/
def knnBfs (P : PtStore) (root : Node) (x : P3) (startPath : List (Fin 8))
    (queue : List PathNode) (s : SortPoints) : SortPoints :=
  knnBfsF P root x startPath (stackSize queue + 1) queue s

theorem knnBfs_nil (P : PtStore) (root : Node) (x : P3) (startPath : List (Fin 8))
    (s : SortPoints) : knnBfs P root x startPath [] s = s := rfl

theorem knnBfs_skip (P : PtStore) (root : Node) (x : P3) (startPath : List (Fin 8))
    (n : Node) (rest : List PathNode) (s : SortPoints) :
    knnBfs P root x startPath ((startPath, n) :: rest) s =
      knnBfs P root x startPath rest s := by
  have hstep : knnBfs P root x startPath ((startPath, n) :: rest) s
      = knnBfsF P root x startPath ((startPath, n).2.size + stackSize rest) rest s := by
    unfold knnBfs
    rw [stackSize_cons]
    simp only [knnBfsF]
    simp
  rw [hstep]
  unfold knnBfs
  apply knnBfsF_irrel
  · have := Node.size_pos (startPath, n).2
    omega
  · omega

theorem knnBfs_leaf (P : PtStore) (root : Node) (x : P3) (startPath : List (Fin 8))
    (path : List (Fin 8)) (l h dl dh : P3) (ids : List Int)
    (rest : List PathNode) (s : SortPoints) (hne : path ≠ startPath) :
    knnBfs P root x startPath ((path, Node.leaf l h dl dh ids) :: rest) s =
      knnBfs P root x startPath rest
        (if (Node.leaf l h dl dh ids).dist2ToBoundaryData x root < s.largestDist2
          then ids.foldl (fun acc pid => acc.insertPt (dist2 x (getPt P pid)) pid) s
          else s) := by
  have hstep : knnBfs P root x startPath ((path, Node.leaf l h dl dh ids) :: rest) s
      = knnBfsF P root x startPath
          ((path, Node.leaf l h dl dh ids).2.size + stackSize rest) rest
          (if (Node.leaf l h dl dh ids).dist2ToBoundaryData x root < s.largestDist2
            then ids.foldl (fun acc pid => acc.insertPt (dist2 x (getPt P pid)) pid) s
            else s) := by
    unfold knnBfs
    rw [stackSize_cons]
    simp only [knnBfsF, if_neg hne]
    split <;> rfl
  rw [hstep]
  unfold knnBfs
  apply knnBfsF_irrel
  · have hj : (path, Node.leaf l h dl dh ids).2.size = 1 := rfl
    omega
  · omega

theorem knnBfs_internal (P : PtStore) (root : Node) (x : P3)
    (startPath : List (Fin 8)) (path : List (Fin 8)) (l h dl dh : P3)
    (a b c d e f g hc : Node) (rest : List PathNode) (s : SortPoints)
    (hne : path ≠ startPath) :
    knnBfs P root x startPath ((path, Node.internal l h dl dh a b c d e f g hc) :: rest) s =
      knnBfs P root x startPath
        (rest ++ pushChildren path (Node.internal l h dl dh a b c d e f g hc)
          (knnKeep root x s (Node.internal l h dl dh a b c d e f g hc))) s := by
  have hstep : knnBfs P root x startPath
      ((path, Node.internal l h dl dh a b c d e f g hc) :: rest) s
      = knnBfsF P root x startPath
          ((path, Node.internal l h dl dh a b c d e f g hc).2.size + stackSize rest)
          (rest ++ pushChildren path (Node.internal l h dl dh a b c d e f g hc)
            (knnKeep root x s (Node.internal l h dl dh a b c d e f g hc))) s := by
    unfold knnBfs
    rw [stackSize_cons]
    simp only [knnBfsF, if_neg hne]
  rw [hstep]
  unfold knnBfs
  apply knnBfsF_irrel
  · have hlt := stackSize_enqueue_lt path
      (knnKeep root x s (Node.internal l h dl dh a b c d e f g hc))
      l h dl dh a b c d e f g hc rest
    rw [stackSize_cons] at hlt
    have hj : (path, Node.internal l h dl dh a b c d e f g hc).2.size =
        (Node.internal l h dl dh a b c d e f g hc).size := rfl
    omega
  · omega

/-- `FindClosestNPoints(N, x, result)`: reset the result; with no root the
code dereferences the null root for its point count, modelled as `none`.
Clip the request to the total count, return empty when nothing is requested,
seed the sorter with the start node's points, run the pruned traversal from
the root, and emit the sorted ids. -/
def findClosestNPoints (st : Loc) (N : Int) (x : P3) : Option (List Int) :=
  match st.octreeRootNode with
  | none => none
  | some root =>
    let total : Int := root.numPoints
    let n1 := if total < N then total else N
    if n1 ≤ 0 then some []
    else
      let K := n1.toNat
      let sel := selectStartNode x K root
      let s0 := sel.1.allIds.foldl
        (fun acc pid => acc.insertPt (dist2 x (getPt st.locatorPoints pid)) pid)
        (mkSortPoints K)
      let sF := knnBfs st.locatorPoints root x sel.2 [([], root)] s0
      some sF.getSortedIds

/-- Termination measure for the level queue of `GenerateRepresentation`. -/
def lvlQueueSize (l : List (Node × Int)) : Nat := (l.map (fun e => e.1.size)).sum

theorem lvlQueueSize_tail_lt (e : Node × Int) (l : List (Node × Int)) :
    lvlQueueSize l < lvlQueueSize (e :: l) := by
  have := Node.size_pos e.1
  simp only [lvlQueueSize, List.map_cons, List.sum_cons]
  omega

theorem lvlQueueSize_children_lt (lvl : Int) (l h dl dh : P3)
    (a b c d e f g hc : Node) (rest : List (Node × Int)) :
    lvlQueueSize (rest ++ (List.finRange 8).map
        (fun i => ((Node.internal l h dl dh a b c d e f g hc).child i, lvl)))
      < lvlQueueSize ((Node.internal l h dl dh a b c d e f g hc, lvl) :: rest) := by
  have h8 : List.finRange 8 = [0, 1, 2, 3, 4, 5, 6, 7] := rfl
  simp only [lvlQueueSize, List.map_append, List.sum_append, List.map_map,
    List.map_cons, List.sum_cons, h8, List.map_nil, List.sum_nil, Function.comp]
  simp only [Node.child_c0, Node.child_c1, Node.child_c2, Node.child_c3,
    Node.child_c4, Node.child_c5, Node.child_c6, Node.child_c7, Node.size]
  omega

/-- The node-collection loop of `GenerateRepresentation`: a queue of (node,
recorded level) pairs started at (root, 0); a node whose recorded level equals
the requested level is collected; otherwise a non-leaf node enqueues its
children with recorded level `nodeLevel + 1` — the requested level plus one,
exactly as the source writes it, not the node's own level plus one. -/
def genRepCollectF (nodeLevel : Int) :
    Nat → List (Node × Int) → List Node → List Node
  | 0, _, acc => acc
  | _ + 1, [], acc => acc
  | fuel + 1, (n, lvl) :: rest, acc =>
    if lvl = nodeLevel then genRepCollectF nodeLevel fuel rest (acc ++ [n])
    else
      match n with
      | .leaf _ _ _ _ _ => genRepCollectF nodeLevel fuel rest acc
      | .internal l h dl dh a b c d e f g hc =>
        genRepCollectF nodeLevel fuel
          (rest ++ (List.finRange 8).map
            (fun i => ((Node.internal l h dl dh a b c d e f g hc).child i,
              nodeLevel + 1)))
          acc

theorem genRepCollectF_irrel (nodeLevel : Int) :
    ∀ fuel fuel' queue acc, lvlQueueSize queue < fuel → lvlQueueSize queue < fuel' →
      genRepCollectF nodeLevel fuel queue acc =
        genRepCollectF nodeLevel fuel' queue acc := by
  intro fuel
  induction fuel with
  | zero => intro fuel' queue acc h _; omega
  | succ fuel ih =>
    intro fuel' queue acc h h'
    match fuel', queue with
    | 0, queue => omega
    | fuel' + 1, [] => rfl
    | fuel' + 1, (n, lvl) :: rest =>
      have htail : lvlQueueSize rest < lvlQueueSize ((n, lvl) :: rest) :=
        lvlQueueSize_tail_lt _ _
      cases n with
      | leaf l2 h2 dl2 dh2 ids =>
        simp only [genRepCollectF]
        split
        · exact ih fuel' _ _ (by omega) (by omega)
        · exact ih fuel' _ _ (by omega) (by omega)
      | internal l2 h2 dl2 dh2 a b c d e f g hc =>
        simp only [genRepCollectF]
        split
        · exact ih fuel' _ _ (by omega) (by omega)
        · have hlt := lvlQueueSize_children_lt (nodeLevel + 1) l2 h2 dl2 dh2
            a b c d e f g hc rest
          have hj : lvlQueueSize ((Node.internal l2 h2 dl2 dh2 a b c d e f g hc, lvl) :: rest)
              = (Node.internal l2 h2 dl2 dh2 a b c d e f g hc).size + lvlQueueSize rest := by
            simp [lvlQueueSize]
          have hj2 : lvlQueueSize ((Node.internal l2 h2 dl2 dh2 a b c d e f g hc, nodeLevel + 1) :: rest)
              = (Node.internal l2 h2 dl2 dh2 a b c d e f g hc).size + lvlQueueSize rest := by
            simp [lvlQueueSize]
          rw [hj] at h h'
          rw [hj2] at hlt
          exact ih fuel' _ _ (by omega) (by omega)

/-- The node-collection loop of `GenerateRepresentation`: a queue of (node,
recorded level) pairs started at (root, 0); a node whose recorded level equals
the requested level is collected; otherwise a non-leaf node enqueues its
children with recorded level `nodeLevel + 1` — the requested level plus one,
exactly as the source writes it, not the node's own level plus one. -/
def genRepCollect (nodeLevel : Int) (queue : List (Node × Int)) (acc : List Node) :
    List Node :=
  genRepCollectF nodeLevel (lvlQueueSize queue + 1) queue acc

theorem genRepCollect_nil (nodeLevel : Int) (acc : List Node) :
    genRepCollect nodeLevel [] acc = acc := rfl

theorem genRepCollect_hit (nodeLevel : Int) (n : Node) (rest : List (Node × Int))
    (acc : List Node) :
    genRepCollect nodeLevel ((n, nodeLevel) :: rest) acc =
      genRepCollect nodeLevel rest (acc ++ [n]) := by
  have hstep : genRepCollect nodeLevel ((n, nodeLevel) :: rest) acc
      = genRepCollectF nodeLevel (n.size + lvlQueueSize rest) rest (acc ++ [n]) := by
    unfold genRepCollect
    have hj : lvlQueueSize ((n, nodeLevel) :: rest) = n.size + lvlQueueSize rest := by
      simp [lvlQueueSize]
    rw [hj]
    simp only [genRepCollectF]
    simp
  rw [hstep]
  unfold genRepCollect
  apply genRepCollectF_irrel
  · have := Node.size_pos n
    omega
  · omega

theorem genRepCollect_miss_leaf (nodeLevel : Int) (l h dl dh : P3)
    (ids : List Int) (lvl : Int) (rest : List (Node × Int)) (acc : List Node)
    (hne : lvl ≠ nodeLevel) :
    genRepCollect nodeLevel ((Node.leaf l h dl dh ids, lvl) :: rest) acc =
      genRepCollect nodeLevel rest acc := by
  have hstep : genRepCollect nodeLevel ((Node.leaf l h dl dh ids, lvl) :: rest) acc
      = genRepCollectF nodeLevel
          ((Node.leaf l h dl dh ids).size + lvlQueueSize rest) rest acc := by
    unfold genRepCollect
    have hj : lvlQueueSize ((Node.leaf l h dl dh ids, lvl) :: rest)
        = (Node.leaf l h dl dh ids).size + lvlQueueSize rest := by
      simp [lvlQueueSize]
    rw [hj]
    simp only [genRepCollectF, if_neg hne]
  rw [hstep]
  unfold genRepCollect
  apply genRepCollectF_irrel
  · have hj : (Node.leaf l h dl dh ids).size = 1 := rfl
    omega
  · omega

theorem genRepCollect_miss_internal (nodeLevel : Int) (l h dl dh : P3)
    (a b c d e f g hc : Node) (lvl : Int) (rest : List (Node × Int))
    (acc : List Node) (hne : lvl ≠ nodeLevel) :
    genRepCollect nodeLevel
        ((Node.internal l h dl dh a b c d e f g hc, lvl) :: rest) acc =
      genRepCollect nodeLevel
        (rest ++ (List.finRange 8).map
          (fun i => ((Node.internal l h dl dh a b c d e f g hc).child i,
            nodeLevel + 1)))
        acc := by
  have hstep : genRepCollect nodeLevel
      ((Node.internal l h dl dh a b c d e f g hc, lvl) :: rest) acc
      = genRepCollectF nodeLevel
          ((Node.internal l h dl dh a b c d e f g hc).size + lvlQueueSize rest)
          (rest ++ (List.finRange 8).map
            (fun i => ((Node.internal l h dl dh a b c d e f g hc).child i,
              nodeLevel + 1)))
          acc := by
    unfold genRepCollect
    have hj : lvlQueueSize ((Node.internal l h dl dh a b c d e f g hc, lvl) :: rest)
        = (Node.internal l h dl dh a b c d e f g hc).size + lvlQueueSize rest := by
      simp [lvlQueueSize]
    rw [hj]
    simp only [genRepCollectF, if_neg hne]
  rw [hstep]
  unfold genRepCollect
  apply genRepCollectF_irrel
  · have hlt := lvlQueueSize_children_lt (nodeLevel + 1) l h dl dh
      a b c d e f g hc rest
    have hj2 : lvlQueueSize ((Node.internal l h dl dh a b c d e f g hc, nodeLevel + 1) :: rest)
        = (Node.internal l h dl dh a b c d e f g hc).size + lvlQueueSize rest := by
      simp [lvlQueueSize]
    rw [hj2] at hlt
    omega
  · omega

/-- `GenerateRepresentation(nodeLevel, polysData)` restricted to which nodes
get their boxes emitted: `none` models the error return when no root exists;
otherwise the list of collected nodes in queue order. -/
def generateRepNodes (st : Loc) (nodeLevel : Int) : Option (List Node) :=
  match st.octreeRootNode with
  | none => none
  | some root => some (genRepCollect nodeLevel [(root, 0)] [])

/-- The six-entry bounds array of a node (`GetBounds` layout). -/
def boundsArr (lo hi : P3) : Nat → ℚ
  | 0 => lo.x
  | 1 => hi.x
  | 2 => lo.y
  | 3 => hi.y
  | 4 => lo.z
  | 5 => hi.z
  | _ => 0

/-- `AddPolys`'s eight corner points of one node, exactly as indexed by the
source (`ptCord[0] = bounds[i & 1]`, `ptCord[1] = bounds[i & 2]`,
`ptCord[2] = bounds[i & 4]`). -/
def addPolysCorners (lo hi : P3) : List P3 :=
  (List.range 8).map (fun i =>
    ⟨boundsArr lo hi (i &&& 1), boundsArr lo hi (i &&& 2), boundsArr lo hi (i &&& 4)⟩)

/-- `OCTREE_NODE_FACES_LUT`. -/
def octreeNodeFacesLUT : List (List Nat) :=
  [[0, 1, 5, 4], [0, 4, 6, 2], [6, 7, 3, 2], [1, 3, 7, 5], [2, 3, 1, 0], [4, 5, 7, 6]]

/-- The six quads `AddPolys` emits for the node whose corners start at global
point index `base`. -/
def addPolysQuads (base : Nat) : List (List Nat) :=
  octreeNodeFacesLUT.map (fun face => face.map (fun v => base + v))

/-- The point list attached by `GenerateRepresentation` for a collected node
list. -/
def generateRepPoints (nodes : List Node) : List P3 :=
  (nodes.map (fun n => addPolysCorners n.boxLo n.boxHi)).flatten

/-- The quad list attached by `GenerateRepresentation` for a collected node
list. -/
def generateRepQuads (nodes : List Node) : List (List Nat) :=
  ((List.range nodes.length).map (fun k => addPolysQuads (8 * k))).flatten


/-- The tie-order property the K-NN claim asserts: among output ids at equal
squared distance from the query, the output preserves insertion order
(smaller id first). -/
def tieOrderOK (P : PtStore) (x : P3) (out : List Int) : Prop :=
  List.Pairwise (fun i j => dist2 (getPt P i) x = dist2 (getPt P j) x → i ≤ j) out

instance (P : PtStore) (x : P3) (out : List Int) : Decidable (tieOrderOK P x out) := by
  unfold tieOrderOK
  infer_instance

/-- The claim's reading of `SortPoints::InsertPoint`: when the add happens and
the count then exceeds the request, the largest-key bucket is removed if and
only if removing it still leaves at least the requested number of points. -/
def sortInsertClaim (s : SortPoints) (d2 : ℚ) (pid : Int) : Prop :=
  (d2 ≤ s.largestDist2 ∨ s.numberPoints < s.numRequested) →
  s.numRequested < s.numberPoints + 1 →
  ((s.numRequested ≤ s.numberPoints + 1 -
      (match (mapAdd s.dist2ToIds d2 pid).getLast? with
        | some last => last.2.length
        | none => 0)) ↔
    (s.insertPt d2 pid).dist2ToIds = (mapAdd s.dist2ToIds d2 pid).dropLast)

instance (s : SortPoints) (d2 : ℚ) (pid : Int) :
    Decidable (sortInsertClaim s d2 pid) := by
  unfold sortInsertClaim
  infer_instance

/-- One axis of the root-box fix-up as the spec's step 4 states it literally:
an axis whose cube-adjusted extent is below `minSide` ends with extent exactly
`minSide`, and every axis's final low side is its adjusted low side shifted
down by exactly the fudge factor. -/
def initAxisClaim (cubic : Bool) (maxDim fudge minSide lo hi : ℚ) : Prop :=
  let lo1 := if cubic ∧ hi - lo ≠ maxDim then lo - (maxDim - (hi - lo)) / 2 else lo
  let hi1 := if cubic ∧ hi - lo ≠ maxDim then hi + (maxDim - (hi - lo)) / 2 else hi
  let r := initAxis cubic maxDim fudge minSide lo hi
  (hi1 - lo1 < minSide → r.2 - r.1 = minSide) ∧
  (r.1 = (if hi1 - lo1 < minSide then hi1 - minSide else lo1) - fudge)

instance (cubic : Bool) (maxDim fudge minSide lo hi : ℚ) :
    Decidable (initAxisClaim cubic maxDim fudge minSide lo hi) := by
  unfold initAxisClaim
  infer_instance

/-- The locator state right after `InitPointInsertion` on the world box
`(0,0,0)..(8,8,8)` with `MaxPointsPerLeaf = 1` and zero tolerance. -/
def t2Init : Loc :=
  ⟨1 / 12500, 8, false, 1, 0, 0, [],
    some (.leaf ⟨-1 / 12500, -1 / 12500, -1 / 12500⟩ ⟨8, 8, 8⟩ ⟨8, 8, 8⟩
      ⟨-1 / 12500, -1 / 12500, -1 / 12500⟩ [])⟩

/-- The same locator after inserting the point (6,2,2) as id 0. -/
def t2One : Loc :=
  ⟨1 / 12500, 8, false, 1, 0, 0, [⟨6, 2, 2⟩],
    some (.leaf ⟨-1 / 12500, -1 / 12500, -1 / 12500⟩ ⟨8, 8, 8⟩ ⟨6, 2, 2⟩ ⟨6, 2, 2⟩ [0])⟩

/-- The same locator after also inserting (2,2,2) as id 1, which subdivides
the root: id 1 lands in child 0 and id 0 in child 1. -/
def t2State : Loc :=
  ⟨1 / 12500, 8, false, 1, 0, 0, [⟨6, 2, 2⟩, ⟨2, 2, 2⟩],
    some (.internal ⟨-1 / 12500, -1 / 12500, -1 / 12500⟩ ⟨8, 8, 8⟩
      ⟨2, 2, 2⟩ ⟨6, 2, 2⟩
      (.leaf ⟨-1 / 12500, -1 / 12500, -1 / 12500⟩
        ⟨99999 / 25000, 99999 / 25000, 99999 / 25000⟩ ⟨2, 2, 2⟩ ⟨2, 2, 2⟩ [1])
      (.leaf ⟨99999 / 25000, -1 / 12500, -1 / 12500⟩
        ⟨8, 99999 / 25000, 99999 / 25000⟩ ⟨6, 2, 2⟩ ⟨6, 2, 2⟩ [0])
      (.leaf ⟨-1 / 12500, 99999 / 25000, -1 / 12500⟩
        ⟨99999 / 25000, 8, 99999 / 25000⟩ ⟨99999 / 25000, 8, 99999 / 25000⟩
        ⟨-1 / 12500, 99999 / 25000, -1 / 12500⟩ [])
      (.leaf ⟨99999 / 25000, 99999 / 25000, -1 / 12500⟩
        ⟨8, 8, 99999 / 25000⟩ ⟨8, 8, 99999 / 25000⟩
        ⟨99999 / 25000, 99999 / 25000, -1 / 12500⟩ [])
      (.leaf ⟨-1 / 12500, -1 / 12500, 99999 / 25000⟩
        ⟨99999 / 25000, 99999 / 25000, 8⟩ ⟨99999 / 25000, 99999 / 25000, 8⟩
        ⟨-1 / 12500, -1 / 12500, 99999 / 25000⟩ [])
      (.leaf ⟨99999 / 25000, -1 / 12500, 99999 / 25000⟩
        ⟨8, 99999 / 25000, 8⟩ ⟨8, 99999 / 25000, 8⟩
        ⟨99999 / 25000, -1 / 12500, 99999 / 25000⟩ [])
      (.leaf ⟨-1 / 12500, 99999 / 25000, 99999 / 25000⟩
        ⟨99999 / 25000, 8, 8⟩ ⟨99999 / 25000, 8, 8⟩
        ⟨-1 / 12500, 99999 / 25000, 99999 / 25000⟩ [])
      (.leaf ⟨99999 / 25000, 99999 / 25000, 99999 / 25000⟩
        ⟨8, 8, 8⟩ ⟨8, 8, 8⟩ ⟨99999 / 25000, 99999 / 25000, 99999 / 25000⟩ []))⟩

/-! ## General lemmas -/

theorem dist2_nonneg (a b : P3) : 0 ≤ dist2 a b := by
  unfold dist2; positivity

theorem dist2_comm (a b : P3) : dist2 a b = dist2 b a := by
  unfold dist2; ring

/-! ## Claim C10: GetBounds with no root -/

/-- C10: when the octree root does not exist, `GetBounds` writes nothing to
the caller's 6-entry output array: all six entries retain their prior
values. -/
theorem getBounds_no_root_frame (st : Loc) (h : st.octreeRootNode = none)
    (b : Fin 6 → ℚ) : getBounds st b = b := by
  unfold getBounds
  rw [h]

theorem getBounds_no_root_frame_witness :
    (Loc.mk0 0 128 false).octreeRootNode = none ∧
      getBounds (Loc.mk0 0 128 false) (fun _ => 7) = (fun _ => 7) :=
  ⟨rfl, getBounds_no_root_frame (Loc.mk0 0 128 false) rfl (fun _ => 7)⟩

/-! ## Claim C5: queries before insertion is initialized -/

/-- C5: with no octree root (insertion never initialized), `FindClosestPoint`
is indeed a no-op returning `-1`, but `FindClosestNPoints`,
`FindPointsWithinRadius`, `FindPointsWithinSquaredRadius` and
`FindClosestPointWithinRadius` all dereference the null root pointer
(modelled as `none`), contradicting the claim that every query operation is a
no-op returning `-1` or an empty result. -/
theorem queries_null_root_dereference :
    (Loc.mk0 0 128 false).octreeRootNode = none ∧
    findClosestPoint (Loc.mk0 0 128 false) ⟨0, 0, 0⟩ = (-1, 0) ∧
    findClosestNPoints (Loc.mk0 0 128 false) 1 ⟨0, 0, 0⟩ = none ∧
    findPointsWithinRadiusEntry (Loc.mk0 0 128 false) 1 ⟨0, 0, 0⟩ = none ∧
    findPointsWithinSquaredRadiusEntry (Loc.mk0 0 128 false) 1 ⟨0, 0, 0⟩ = none ∧
    findClosestPointWithinRadiusEntry (Loc.mk0 0 128 false) 1 ⟨0, 0, 0⟩ = none := by
  refine ⟨rfl, ?_, rfl, rfl, rfl, ?_⟩
  · show (-1, (0 : ℚ) * 0 * 4) = (-1, 0)
    norm_num
  · show (if (0 : ℚ) < 1 * 1 * (11 / 10) then none else _) = none
    norm_num

/-! ## The concrete two-point tree -/

set_option maxRecDepth 4000

theorem t2_init_eq :
    initPointInsertion (Loc.mk0 0 1 false) [] ⟨0, 0, 0⟩ ⟨8, 8, 8⟩ = t2Init := by
  with_unfolding_all rfl

theorem t2_step1 : t2Init.insertNextPt ⟨6, 2, 2⟩ = t2One := by
  with_unfolding_all rfl

theorem t2_step2 : t2One.insertNextPt ⟨2, 2, 2⟩ = t2State := by
  with_unfolding_all rfl

theorem t2_build :
    buildLoc 0 1 false ⟨0, 0, 0⟩ ⟨8, 8, 8⟩ [⟨6, 2, 2⟩, ⟨2, 2, 2⟩] = t2State := by
  show List.foldl Loc.insertNextPt
    (initPointInsertion (Loc.mk0 0 1 false) [] ⟨0, 0, 0⟩ ⟨8, 8, 8⟩) _ = t2State
  rw [t2_init_eq, List.foldl_cons, t2_step1, List.foldl_cons, t2_step2, List.foldl_nil]

theorem t2_knn_eval : findClosestNPoints t2State 2 ⟨4, 2, 2⟩ = some [1, 0] := by
  with_unfolding_all rfl

theorem t2_genrep_eval : generateRepNodes t2State 1 = some [] := by
  with_unfolding_all rfl

theorem t2_root_internal : t2State.octreeRootNode.map Node.isLeaf = some false := rfl

/-! ## Claim C8: GenerateRepresentation level selection -/

/-- C8: `GenerateRepresentation` does not emit the octree nodes at depth L:
on a two-point tree whose root is internal (so its 8 depth-1 children exist),
requesting level 1 collects no node at all, because children are queued with
recorded level `nodeLevel + 1 = 2`, which never equals the requested level 1.
The claim holds only for L = 0. -/
theorem generateRep_misses_level_one :
    buildLoc 0 1 false ⟨0, 0, 0⟩ ⟨8, 8, 8⟩ [⟨6, 2, 2⟩, ⟨2, 2, 2⟩] = t2State ∧
    t2State.octreeRootNode.map Node.isLeaf = some false ∧
    generateRepNodes t2State 1 = some [] :=
  ⟨t2_build, t2_root_internal, t2_genrep_eval⟩

/-! ## Claim C3 counterexample: ties do not follow insertion order -/

theorem t2_tie_dists_eq :
    dist2 (getPt t2State.locatorPoints 0) ⟨4, 2, 2⟩ =
      dist2 (getPt t2State.locatorPoints 1) ⟨4, 2, 2⟩ := by
  with_unfolding_all rfl

/-- C3 (counterexample): on the two-point tree, the K-NN query at a point
equidistant from both stored points returns the ids as `[1, 0]` — the
traversal (seeding) order — not the insertion order `[0, 1]`, refuting the
claim's tie-order sentence at this input. -/
theorem knn_tie_breaks_insertion_order :
    buildLoc 0 1 false ⟨0, 0, 0⟩ ⟨8, 8, 8⟩ [⟨6, 2, 2⟩, ⟨2, 2, 2⟩] = t2State ∧
    findClosestNPoints t2State 2 ⟨4, 2, 2⟩ = some [1, 0] ∧
    dist2 (getPt t2State.locatorPoints 0) ⟨4, 2, 2⟩ =
      dist2 (getPt t2State.locatorPoints 1) ⟨4, 2, 2⟩ ∧
    ¬ tieOrderOK t2State.locatorPoints ⟨4, 2, 2⟩ [1, 0] :=
  ⟨t2_build, t2_knn_eval, t2_tie_dists_eq, by
    intro hord
    have h10 := List.rel_of_pairwise_cons hord (List.mem_singleton.mpr rfl)
    have := h10 t2_tie_dists_eq.symm
    omega⟩

/-! ## Claim C4: the sorter's boundary rule -/

/-- Well-formedness of a `SortPoints` map: strictly ascending keys, nonempty
buckets, and the count agreeing with the total bucket size. -/
def SortPoints.SWF (s : SortPoints) : Prop :=
  List.Pairwise (fun p q => p.1 < q.1) s.dist2ToIds ∧
  (∀ p ∈ s.dist2ToIds, p.2 ≠ []) ∧
  s.numberPoints = (s.dist2ToIds.map (fun p => p.2.length)).sum

theorem mapAdd_ne_nil (m : List (ℚ × List Int)) (d2 : ℚ) (pid : Int) :
    mapAdd m d2 pid ≠ [] := by
  cases m with
  | nil => simp [mapAdd]
  | cons kl rest =>
    obtain ⟨k, l⟩ := kl
    simp only [mapAdd]
    split
    · simp
    · split <;> simp

theorem mapAdd_keys (m : List (ℚ × List Int)) (d2 : ℚ) (pid : Int) :
    ∀ p ∈ mapAdd m d2 pid, p.1 = d2 ∨ ∃ q ∈ m, p.1 = q.1 := by
  induction m with
  | nil =>
    intro p hp
    rw [List.mem_singleton.mp hp]
    exact Or.inl rfl
  | cons kl rest ih =>
    obtain ⟨k, l⟩ := kl
    intro p hp
    simp only [mapAdd] at hp
    split at hp
    · rename_i heq
      rcases List.mem_cons.mp hp with h1 | h2
      · exact Or.inr ⟨(k, l), List.mem_cons_self _ _, by rw [h1]⟩
      · exact Or.inr (by
          obtain ⟨q, hq, he⟩ : ∃ q ∈ rest, p.1 = q.1 := ⟨p, h2, rfl⟩
          exact ⟨q, List.mem_cons_of_mem _ hq, he⟩)
    · split at hp
      · rcases List.mem_cons.mp hp with h1 | h2
        · exact Or.inl (by rw [h1])
        · rcases List.mem_cons.mp h2 with h3 | h4
          · exact Or.inr ⟨(k, l), List.mem_cons_self _ _, by rw [h3]⟩
          · exact Or.inr ⟨p, List.mem_cons_of_mem _ h4, rfl⟩
      · rcases List.mem_cons.mp hp with h1 | h2
        · exact Or.inr ⟨(k, l), List.mem_cons_self _ _, by rw [h1]⟩
        · rcases ih p h2 with h3 | ⟨q, hq, he⟩
          · exact Or.inl h3
          · exact Or.inr ⟨q, List.mem_cons_of_mem _ hq, he⟩

theorem mapAdd_pairwise (m : List (ℚ × List Int)) (d2 : ℚ) (pid : Int)
    (hm : List.Pairwise (fun p q => p.1 < q.1) m) :
    List.Pairwise (fun p q => p.1 < q.1) (mapAdd m d2 pid) := by
  induction m with
  | nil => simp [mapAdd]
  | cons kl rest ih =>
    obtain ⟨k, l⟩ := kl
    rw [List.pairwise_cons] at hm
    simp only [mapAdd]
    split
    · rename_i heq
      rw [List.pairwise_cons]
      exact hm
    · split
      · rename_i hne hlt
        rw [List.pairwise_cons]
        constructor
        · intro q hq
          rcases List.mem_cons.mp hq with h1 | h2
          · rw [h1]; exact hlt
          · exact lt_trans hlt (hm.1 q h2)
        · rw [List.pairwise_cons]
          exact hm
      · rename_i hne hge
        have hkd : k < d2 := by
          rcases lt_trichotomy d2 k with h | h | h
          · exact absurd h hge
          · exact absurd h hne
          · exact h
        rw [List.pairwise_cons]
        constructor
        · intro q hq
          rcases mapAdd_keys rest d2 pid q hq with h1 | ⟨r, hr, he⟩
          · rw [h1]; exact hkd
          · rw [he]; exact hm.1 r hr
        · exact ih hm.2

theorem mapAdd_total (m : List (ℚ × List Int)) (d2 : ℚ) (pid : Int) :
    ((mapAdd m d2 pid).map (fun p => p.2.length)).sum =
      (m.map (fun p => p.2.length)).sum + 1 := by
  induction m with
  | nil => simp [mapAdd]
  | cons kl rest ih =>
    obtain ⟨k, l⟩ := kl
    simp only [mapAdd]
    split
    · simp
      omega
    · split
      · simp
        omega
      · simp only [List.map_cons, List.sum_cons, ih]
        omega

theorem mapAdd_buckets (m : List (ℚ × List Int)) (d2 : ℚ) (pid : Int)
    (hm : ∀ p ∈ m, p.2 ≠ []) : ∀ p ∈ mapAdd m d2 pid, p.2 ≠ [] := by
  induction m with
  | nil =>
    intro p hp
    rw [List.mem_singleton.mp hp]
    simp
  | cons kl rest ih =>
    obtain ⟨k, l⟩ := kl
    intro p hp
    simp only [mapAdd] at hp
    split at hp
    · rcases List.mem_cons.mp hp with h1 | h2
      · rw [h1]; simp
      · exact hm p (List.mem_cons_of_mem _ h2)
    · split at hp
      · rcases List.mem_cons.mp hp with h1 | h2
        · rw [h1]; simp
        · exact hm p h2
      · rcases List.mem_cons.mp hp with h1 | h2
        · rw [h1]
          exact hm (k, l) (List.mem_cons_self _ _)
        · exact ih (fun q hq => hm q (List.mem_cons_of_mem _ hq)) p h2

theorem pairwise_getLast_max (m : List (ℚ × List Int))
    (hm : List.Pairwise (fun p q => p.1 < q.1) m) :
    ∀ last, m.getLast? = some last → ∀ p ∈ m, p.1 ≤ last.1 := by
  induction m with
  | nil => intro last h; simp at h
  | cons kl rest ih =>
    rw [List.pairwise_cons] at hm
    intro last hlast p hp
    cases rest with
    | nil =>
      rw [List.getLast?_singleton, Option.some.injEq] at hlast
      rw [List.mem_singleton.mp hp, ← hlast]
    | cons r rs =>
      rw [List.getLast?_cons_cons] at hlast
      rcases List.mem_cons.mp hp with h1 | h2
      · rw [h1]
        exact le_of_lt (hm.1 last (List.mem_of_getLast?_eq_some hlast))
      · exact ih hm.2 last hlast p h2

/-- The sorter holding one point at key 1, capacity 1
(`(mkSortPoints 1).insertPt 1 10`). -/
def c4Sorter : SortPoints := ⟨1, 1, svtkDoubleMax, [(1, [10])]⟩

theorem c4Sorter_reached : (mkSortPoints 1).insertPt 1 10 = c4Sorter := by
  with_unfolding_all rfl

/-- C4 (counterexample): inserting a closer point into a full capacity-1
sorter leaves the remaining count equal to the request when the largest
bucket is removed, so the claim demands removal; the code keeps the bucket
(its test is strict), refuting the claim at this input. -/
theorem sorter_keeps_bucket_at_exact_capacity :
    (mkSortPoints 1).insertPt 1 10 = c4Sorter ∧
      ¬ sortInsertClaim c4Sorter (1 / 2) 20 :=
  ⟨c4Sorter_reached, of_decide_eq_true (by with_unfolding_all rfl)⟩

/-- C4 (amended): in `SortPoints::InsertPoint`, when the pair is added and the
count then exceeds the request, the bucket at the largest key is removed —
with `LargestDist2` updated to the new maximum key — if and only if removing
the whole bucket leaves the count still strictly greater than the request;
otherwise the bucket is kept and the count stays above the request. -/
theorem sortInsert_boundary (s : SortPoints) (hWF : s.SWF) (d2 : ℚ) (pid : Int)
    (hadd : d2 ≤ s.largestDist2 ∨ s.numberPoints < s.numRequested)
    (hover : s.numRequested < s.numberPoints + 1) :
    ((s.insertPt d2 pid).dist2ToIds = (mapAdd s.dist2ToIds d2 pid).dropLast ↔
      s.numRequested < s.numberPoints + 1 -
        (match (mapAdd s.dist2ToIds d2 pid).getLast? with
          | some last => last.2.length
          | none => 0)) ∧
    (s.numRequested < s.numberPoints + 1 -
        (match (mapAdd s.dist2ToIds d2 pid).getLast? with
          | some last => last.2.length
          | none => 0) →
      (s.insertPt d2 pid).numberPoints = s.numberPoints + 1 -
        (match (mapAdd s.dist2ToIds d2 pid).getLast? with
          | some last => last.2.length
          | none => 0) ∧
      (∀ k ∈ ((mapAdd s.dist2ToIds d2 pid).dropLast).map Prod.fst,
        k ≤ (s.insertPt d2 pid).largestDist2) ∧
      (s.insertPt d2 pid).largestDist2 ∈
        ((mapAdd s.dist2ToIds d2 pid).dropLast).map Prod.fst) ∧
    (s.numberPoints + 1 -
        (match (mapAdd s.dist2ToIds d2 pid).getLast? with
          | some last => last.2.length
          | none => 0) ≤ s.numRequested →
      (s.insertPt d2 pid).dist2ToIds = mapAdd s.dist2ToIds d2 pid ∧
      (s.insertPt d2 pid).numberPoints = s.numberPoints + 1 ∧
      s.numRequested < (s.insertPt d2 pid).numberPoints) := by
  obtain ⟨hpw, hbk, hcount⟩ := hWF
  have hmne : mapAdd s.dist2ToIds d2 pid ≠ [] := mapAdd_ne_nil _ _ _
  cases hg : (mapAdd s.dist2ToIds d2 pid).getLast? with
  | none => exact absurd (List.getLast?_eq_none_iff.mp hg) hmne
  | some last =>
    have hpwm := mapAdd_pairwise s.dist2ToIds d2 pid hpw
    have htot := mapAdd_total s.dist2ToIds d2 pid
    have hlen : (mapAdd s.dist2ToIds d2 pid).dropLast.length + 1 =
        (mapAdd s.dist2ToIds d2 pid).length := by
      rw [List.length_dropLast]
      have := List.length_pos.mpr hmne
      omega
    have hsplit : (mapAdd s.dist2ToIds d2 pid).dropLast ++ [last] =
        mapAdd s.dist2ToIds d2 pid := by
      have hgl : (mapAdd s.dist2ToIds d2 pid).getLast hmne = last :=
        (List.getLast_eq_iff_getLast?_eq_some hmne).mpr hg
      have hdg := List.dropLast_append_getLast hmne
      rwa [hgl] at hdg
    have hdroptot : ((mapAdd s.dist2ToIds d2 pid).dropLast.map
        (fun p => p.2.length)).sum + last.2.length =
        s.numberPoints + 1 := by
      have h2 : (((mapAdd s.dist2ToIds d2 pid).dropLast ++ [last]).map
          (fun p => p.2.length)).sum =
          ((mapAdd s.dist2ToIds d2 pid).map (fun p => p.2.length)).sum := by
        rw [hsplit]
      simp only [List.map_append, List.sum_append, List.map_cons, List.sum_cons,
        List.map_nil, List.sum_nil] at h2
      omega
    have hstep : s.insertPt d2 pid =
        (if s.numRequested < s.numberPoints + 1 - last.2.length then
          (⟨s.numRequested, s.numberPoints + 1 - last.2.length,
            (match (mapAdd s.dist2ToIds d2 pid).dropLast.getLast? with
              | some prev => prev.1
              | none => s.largestDist2),
            (mapAdd s.dist2ToIds d2 pid).dropLast⟩ : SortPoints)
        else ⟨s.numRequested, s.numberPoints + 1, s.largestDist2,
          mapAdd s.dist2ToIds d2 pid⟩) := by
      simp only [SortPoints.insertPt]
      rw [if_pos hadd, if_pos hover, hg]
    have hne_drop : mapAdd s.dist2ToIds d2 pid ≠
        (mapAdd s.dist2ToIds d2 pid).dropLast := by
      intro hcontra
      have := congrArg List.length hcontra
      omega
    by_cases hrem : s.numRequested < s.numberPoints + 1 - last.2.length
    · rw [hstep, if_pos hrem]
      have hdropne : (mapAdd s.dist2ToIds d2 pid).dropLast ≠ [] := by
        intro hnil
        rw [hnil] at hdroptot
        simp at hdroptot
        omega
      cases hg2 : (mapAdd s.dist2ToIds d2 pid).dropLast.getLast? with
      | none => exact absurd (List.getLast?_eq_none_iff.mp hg2) hdropne
      | some prev =>
        have hpwd : List.Pairwise (fun p q => p.1 < q.1)
            (mapAdd s.dist2ToIds d2 pid).dropLast :=
          hpwm.sublist (List.dropLast_sublist _)
        refine ⟨⟨fun _ => hrem, fun _ => rfl⟩, fun _ => ⟨rfl, ?_, ?_⟩,
          fun hc => absurd hrem (not_lt.mpr hc)⟩
        · intro k hk
          obtain ⟨p, hp, hpe⟩ := List.mem_map.mp hk
          rw [← hpe]
          exact pairwise_getLast_max _ hpwd prev hg2 p hp
        · exact List.mem_map.mpr ⟨prev, List.mem_of_getLast?_eq_some hg2, rfl⟩
    · rw [hstep, if_neg hrem]
      refine ⟨⟨fun hc => absurd hc hne_drop, fun hc => absurd hc hrem⟩,
        fun hc => absurd hc hrem, fun _ => ⟨rfl, rfl, hover⟩⟩

theorem sortInsert_boundary_witness :
    (c4Sorter.insertPt (1 / 2) 20).dist2ToIds = mapAdd c4Sorter.dist2ToIds (1 / 2) 20 ∧
    (c4Sorter.insertPt (1 / 2) 20).numberPoints = c4Sorter.numberPoints + 1 ∧
    c4Sorter.numRequested < (c4Sorter.insertPt (1 / 2) 20).numberPoints :=
  (sortInsert_boundary c4Sorter
      ⟨List.pairwise_singleton _ _,
        by intro p hp; rw [List.mem_singleton.mp hp]; simp, rfl⟩
      (1 / 2) 20
      (Or.inl (by rw [show c4Sorter.largestDist2 = svtkDoubleMax from rfl,
        svtkDoubleMax_eq_pow]; norm_num))
      (by decide)).2.2
    (of_decide_eq_true (by with_unfolding_all rfl))

/-! ## Claim C7: the root-box fix-up in InitPointInsertion -/

/-- C7 (counterexample): on the slab bounds `[0,1] x [0,1] x [0,0]` the
z-axis has extent 0 below `0.1 * maxDim`, yet after `InitPointInsertion` the
root box's z extent is `0.2` (the axis is re-centered, not inflated to
`0.1 * maxDim`), and its low side `-0.1` is not any adjusted low side shifted
by the fudge factor: the spec's step-4 wording fails at this input. -/
theorem initBounds_antislab_not_literal :
    (initPointInsertion (Loc.mk0 0 128 false) [] ⟨0, 0, 0⟩ ⟨1, 1, 0⟩).octreeMaxDimSize
        = 1 ∧
    (initPointInsertion (Loc.mk0 0 128 false) [] ⟨0, 0, 0⟩ ⟨1, 1, 0⟩).fudgeFactor
        = 1 / 100000 ∧
    ((initPointInsertion (Loc.mk0 0 128 false) [] ⟨0, 0, 0⟩ ⟨1, 1, 0⟩).octreeRootNode.map
        (fun r => (r.boxLo.z, r.boxHi.z))) = some (-(1 / 10), 1 / 10) ∧
    ¬ initAxisClaim false 1 (1 / 100000) (1 / 10) 0 0 := by
  refine ⟨?_, ?_, ?_, ?_⟩
  · with_unfolding_all rfl
  · with_unfolding_all rfl
  · with_unfolding_all rfl
  · exact of_decide_eq_true (by with_unfolding_all rfl)

/-- C7 (amended): after the optional cube expansion, an axis whose extent is
below `0.1 * maxDim` is re-centered to `(hi - minSide, lo + minSide)` — its
final extent is `2 * minSide` minus the old extent, at least `minSide` but
not equal to it — and receives no fudge shift; only an axis of extent at
least `minSide` keeps its high side and has its low side shifted down by the
fudge factor. -/
theorem initAxis_characterization (cubic : Bool) (maxDim fudge minSide lo hi : ℚ) :
    (let lo1 := if cubic ∧ hi - lo ≠ maxDim then lo - (maxDim - (hi - lo)) / 2 else lo
     let hi1 := if cubic ∧ hi - lo ≠ maxDim then hi + (maxDim - (hi - lo)) / 2 else hi
     (hi1 - lo1 < minSide →
       initAxis cubic maxDim fudge minSide lo hi = (hi1 - minSide, lo1 + minSide) ∧
       (initAxis cubic maxDim fudge minSide lo hi).2 -
           (initAxis cubic maxDim fudge minSide lo hi).1 =
         2 * minSide - (hi1 - lo1)) ∧
     (minSide ≤ hi1 - lo1 →
       initAxis cubic maxDim fudge minSide lo hi = (lo1 - fudge, hi1))) := by
  unfold initAxis
  by_cases hc : cubic ∧ hi - lo ≠ maxDim
  · simp only [if_pos hc]
    constructor
    · intro hslab
      rw [if_pos hslab]
      exact ⟨rfl, by ring⟩
    · intro hge
      rw [if_neg (not_lt.mpr hge)]
  · simp only [if_neg hc]
    constructor
    · intro hslab
      rw [if_pos hslab]
      exact ⟨rfl, by ring⟩
    · intro hge
      rw [if_neg (not_lt.mpr hge)]

theorem initAxis_characterization_witness :
    initAxis false 1 (1 / 100000) (1 / 10) 0 0 = (0 - 1 / 10, 0 + 1 / 10) ∧
    initAxis false 1 (1 / 100000) (1 / 10) 0 1 = (0 - 1 / 100000, 1) :=
  ⟨((initAxis_characterization false 1 (1 / 100000) (1 / 10) 0 0).1
      (by norm_num)).1,
    (initAxis_characterization false 1 (1 / 100000) (1 / 10) 0 1).2
      (by norm_num)⟩

/-! ## Well-formedness of built trees -/

/-- Coordinate bound under which the model's `SVTK_DOUBLE_MAX` sentinel
behaves as an unreachable infinity: every geometric quantity computed from
inputs within the bound stays strictly below the sentinel (the no-overflow
regime of the C doubles). -/
def coordBound : ℚ := 2 ^ 502

/-- All three coordinates within `coordBound`. -/
def ptSmall (p : P3) : Prop :=
  |p.x| ≤ coordBound ∧ |p.y| ≤ coordBound ∧ |p.z| ≤ coordBound

/-- A nondegenerate box with bounded coordinates. -/
def boxOK (lo hi : P3) : Prop :=
  lo.x < hi.x ∧ lo.y < hi.y ∧ lo.z < hi.z ∧ ptSmall lo ∧ ptSmall hi

/-- A valid point id for the container. -/
def idOK (P : PtStore) (id : Int) : Prop := 0 ≤ id ∧ id.toNat < P.length

/-- Well-formedness of a node over the point container: nondegenerate bounded
box; every id beneath is valid, lies inside the node's box (half-open) and
inside its data box (closed); data bounds of nonempty nodes are bounded;
an internal node is nonempty, its children sit on the octants of its box, and
they are recursively well-formed. -/
def Node.WF (P : PtStore) : Node → Prop
  | .leaf lo hi dLo dHi ids =>
      boxOK lo hi ∧
      (∀ id ∈ ids, idOK P id ∧ inBoxHO lo hi (getPt P id) = true ∧
        inBoxC dLo dHi (getPt P id)) ∧
      (ids ≠ [] → ptSmall dLo ∧ ptSmall dHi)
  | .internal lo hi dLo dHi a b c d e f g hc =>
      boxOK lo hi ∧
      (∀ id ∈ (Node.internal lo hi dLo dHi a b c d e f g hc).allIds,
        idOK P id ∧ inBoxHO lo hi (getPt P id) = true ∧
          inBoxC dLo dHi (getPt P id)) ∧
      (ptSmall dLo ∧ ptSmall dHi) ∧
      0 < (Node.internal lo hi dLo dHi a b c d e f g hc).numPoints ∧
      (∀ i : Fin 8,
        ((Node.internal lo hi dLo dHi a b c d e f g hc).child i).boxLo =
            octantLo lo hi i ∧
          ((Node.internal lo hi dLo dHi a b c d e f g hc).child i).boxHi =
            octantHi lo hi i) ∧
      a.WF P ∧ b.WF P ∧ c.WF P ∧ d.WF P ∧ e.WF P ∧ f.WF P ∧ g.WF P ∧ hc.WF P

theorem Node.WF.box {P : PtStore} {n : Node} (h : n.WF P) :
    boxOK n.boxLo n.boxHi := by
  cases n with
  | leaf l hh dl dh ids => exact h.1
  | internal l hh dl dh a b c d e f g hc => exact h.1

theorem Node.WF.ids {P : PtStore} {n : Node} (h : n.WF P) :
    ∀ id ∈ n.allIds, idOK P id ∧ inBoxHO n.boxLo n.boxHi (getPt P id) = true ∧
      inBoxC n.dataLo n.dataHi (getPt P id) := by
  cases n with
  | leaf l hh dl dh ids => exact h.2.1
  | internal l hh dl dh a b c d e f g hc => exact h.2.1

theorem Node.WF.child {P : PtStore} {n : Node} (h : n.WF P) (i : Fin 8) :
    (n.child i).WF P := by
  cases n with
  | leaf l hh dl dh ids => exact h
  | internal l hh dl dh a b c d e f g hc =>
    obtain ⟨-, -, -, -, -, ha, hb, hcw, hd, he, hf, hg, hhc⟩ := h
    fin_cases i
    · exact ha
    · exact hb
    · exact hcw
    · exact hd
    · exact he
    · exact hf
    · exact hg
    · exact hhc

theorem Node.WF.descend {P : PtStore} {n : Node} (h : n.WF P) :
    ∀ path : List (Fin 8), (n.descend path).WF P := by
  intro path
  induction path generalizing n with
  | nil => exact h
  | cons i rest ih => exact ih (h.child i)

theorem Node.child_allIds_subset (n : Node) (i : Fin 8) :
    ∀ id ∈ (n.child i).allIds, id ∈ n.allIds := by
  cases n with
  | leaf l hh dl dh ids => intro id hid; exact hid
  | internal l hh dl dh a b c d e f g hc =>
    intro id hid
    simp only [Node.allIds, List.mem_append]
    fin_cases i
    · exact Or.inl (Or.inl (Or.inl (Or.inl (Or.inl (Or.inl (Or.inl hid))))))
    · exact Or.inl (Or.inl (Or.inl (Or.inl (Or.inl (Or.inl (Or.inr hid))))))
    · exact Or.inl (Or.inl (Or.inl (Or.inl (Or.inl (Or.inr hid)))))
    · exact Or.inl (Or.inl (Or.inl (Or.inl (Or.inr hid))))
    · exact Or.inl (Or.inl (Or.inl (Or.inr hid)))
    · exact Or.inl (Or.inl (Or.inr hid))
    · exact Or.inl (Or.inr hid)
    · exact Or.inr hid

theorem Node.descend_allIds_subset (n : Node) (path : List (Fin 8)) :
    ∀ id ∈ (n.descend path).allIds, id ∈ n.allIds := by
  induction path generalizing n with
  | nil => intro id hid; exact hid
  | cons i rest ih =>
    intro id hid
    exact Node.child_allIds_subset n i id (ih (n.child i) id hid)

theorem Node.descend_append (n : Node) (p : List (Fin 8)) (i : Fin 8) :
    n.descend (p ++ [i]) = (n.descend p).child i := by
  induction p generalizing n with
  | nil => rfl
  | cons j rest ih =>
    show (n.child j).descend (rest ++ [i]) = _
    exact ih (n.child j)

theorem Node.numPoints_eq_length (n : Node) : n.numPoints = n.allIds.length := by
  induction n with
  | leaf l hh dl dh ids => rfl
  | internal l hh dl dh a b c d e f g hc iha ihb ihc ihd ihe ihf ihg ihhc =>
    simp only [Node.numPoints, Node.allIds, List.length_append]
    omega

theorem Node.numPoints_zero_iff (n : Node) : n.numPoints = 0 ↔ n.allIds = [] := by
  rw [Node.numPoints_eq_length, List.length_eq_zero]

/-! ## Geometry of boxes and octants -/

theorem inBoxHO_iff (lo hi p : P3) :
    inBoxHO lo hi p = true ↔
      lo.x < p.x ∧ p.x ≤ hi.x ∧ lo.y < p.y ∧ p.y ≤ hi.y ∧ lo.z < p.z ∧ p.z ≤ hi.z := by
  simp [inBoxHO, and_assoc]

theorem inBoxC_of_HO {lo hi p : P3} (h : inBoxHO lo hi p = true) : inBoxC lo hi p := by
  rw [inBoxHO_iff] at h
  exact ⟨h.1.le, h.2.1, h.2.2.1.le, h.2.2.2.1, h.2.2.2.2.1.le, h.2.2.2.2.2⟩

theorem min_abs_le_bound {a b B : ℚ} (ha : |a| ≤ B) (hb : |b| ≤ B) : |min a b| ≤ B := by
  rw [abs_le] at *
  exact ⟨le_min ha.1 hb.1, (min_le_left a b).trans ha.2⟩

theorem max_abs_le_bound {a b B : ℚ} (ha : |a| ≤ B) (hb : |b| ≤ B) : |max a b| ≤ B := by
  rw [abs_le] at *
  exact ⟨ha.1.trans (le_max_left a b), max_le ha.2 hb.2⟩

theorem ptSmall_extendLo {d p : P3} (hd : ptSmall d) (hp : ptSmall p) :
    ptSmall (extendLoP d p) :=
  ⟨min_abs_le_bound hd.1 hp.1, min_abs_le_bound hd.2.1 hp.2.1,
    min_abs_le_bound hd.2.2 hp.2.2⟩

theorem ptSmall_extendHi {d p : P3} (hd : ptSmall d) (hp : ptSmall p) :
    ptSmall (extendHiP d p) :=
  ⟨max_abs_le_bound hd.1 hp.1, max_abs_le_bound hd.2.1 hp.2.1,
    max_abs_le_bound hd.2.2 hp.2.2⟩

theorem ptSmall_of_inBoxHO {lo hi p : P3} (hlo : ptSmall lo) (hhi : ptSmall hi)
    (h : inBoxHO lo hi p = true) : ptSmall p := by
  rw [inBoxHO_iff] at h
  obtain ⟨hlx, hly, hlz⟩ := hlo
  obtain ⟨hhx, hhy, hhz⟩ := hhi
  rw [abs_le] at hlx hly hlz hhx hhy hhz
  exact ⟨abs_le.mpr ⟨by linarith [h.1], by linarith [h.2.1]⟩,
    abs_le.mpr ⟨by linarith [h.2.2.1], by linarith [h.2.2.2.1]⟩,
    abs_le.mpr ⟨by linarith [h.2.2.2.2.1], by linarith [h.2.2.2.2.2]⟩⟩

theorem ptSmall_midPt {lo hi : P3} (hlo : ptSmall lo) (hhi : ptSmall hi) :
    ptSmall (midPt lo hi) := by
  obtain ⟨hlx, hly, hlz⟩ := hlo
  obtain ⟨hhx, hhy, hhz⟩ := hhi
  rw [abs_le] at hlx hly hlz hhx hhy hhz
  refine ⟨abs_le.mpr ⟨?_, ?_⟩, abs_le.mpr ⟨?_, ?_⟩, abs_le.mpr ⟨?_, ?_⟩⟩ <;>
    simp only [midPt] <;> linarith

theorem dist2_lt_dblMax {a b : P3} (ha : ptSmall a) (hb : ptSmall b) :
    dist2 a b < svtkDoubleMax := by
  obtain ⟨hax, hay, haz⟩ := ha
  obtain ⟨hbx, hby, hbz⟩ := hb
  rw [abs_le] at hax hay haz hbx hby hbz
  have hbig : 12 * coordBound ^ 2 < svtkDoubleMax := by
    rw [svtkDoubleMax_eq_pow]
    unfold coordBound
    norm_num
  have hx : (a.x - b.x) ^ 2 ≤ (2 * coordBound) ^ 2 :=
    sq_le_sq' (by linarith) (by linarith)
  have hy : (a.y - b.y) ^ 2 ≤ (2 * coordBound) ^ 2 :=
    sq_le_sq' (by linarith) (by linarith)
  have hz : (a.z - b.z) ^ 2 ≤ (2 * coordBound) ^ 2 :=
    sq_le_sq' (by linarith) (by linarith)
  unfold dist2
  nlinarith [sq_nonneg coordBound]

theorem dblMax_pos : 0 < svtkDoubleMax := by
  rw [svtkDoubleMax_eq_pow]; norm_num

theorem mem_octant_childIndexOf (lo hi p : P3) (h : inBoxHO lo hi p = true) :
    inBoxHO (octantLo lo hi (childIndexOf lo hi p))
      (octantHi lo hi (childIndexOf lo hi p)) p = true := by
  rw [inBoxHO_iff] at h
  obtain ⟨h1, h2, h3, h4, h5, h6⟩ := h
  by_cases hx : (midPt lo hi).x < p.x <;> by_cases hy : (midPt lo hi).y < p.y <;>
    by_cases hz : (midPt lo hi).z < p.z
  · have hidx : childIndexOf lo hi p = (7 : Fin 8) := by
      apply Fin.ext
      show ((if (midPt lo hi).x < p.x then 1 else 0) +
          (if (midPt lo hi).y < p.y then 2 else 0) +
          (if (midPt lo hi).z < p.z then 4 else 0)) = (7 : Fin 8).val
      rw [if_pos hx, if_pos hy, if_pos hz]
      decide
    rw [hidx, inBoxHO_iff]
    exact ⟨hx, h2, hy, h4, hz, h6⟩
  · have hidx : childIndexOf lo hi p = (3 : Fin 8) := by
      apply Fin.ext
      show ((if (midPt lo hi).x < p.x then 1 else 0) +
          (if (midPt lo hi).y < p.y then 2 else 0) +
          (if (midPt lo hi).z < p.z then 4 else 0)) = (3 : Fin 8).val
      rw [if_pos hx, if_pos hy, if_neg hz]
      decide
    rw [hidx, inBoxHO_iff]
    exact ⟨hx, h2, hy, h4, h5, le_of_not_lt hz⟩
  · have hidx : childIndexOf lo hi p = (5 : Fin 8) := by
      apply Fin.ext
      show ((if (midPt lo hi).x < p.x then 1 else 0) +
          (if (midPt lo hi).y < p.y then 2 else 0) +
          (if (midPt lo hi).z < p.z then 4 else 0)) = (5 : Fin 8).val
      rw [if_pos hx, if_neg hy, if_pos hz]
      decide
    rw [hidx, inBoxHO_iff]
    exact ⟨hx, h2, h3, le_of_not_lt hy, hz, h6⟩
  · have hidx : childIndexOf lo hi p = (1 : Fin 8) := by
      apply Fin.ext
      show ((if (midPt lo hi).x < p.x then 1 else 0) +
          (if (midPt lo hi).y < p.y then 2 else 0) +
          (if (midPt lo hi).z < p.z then 4 else 0)) = (1 : Fin 8).val
      rw [if_pos hx, if_neg hy, if_neg hz]
      decide
    rw [hidx, inBoxHO_iff]
    exact ⟨hx, h2, h3, le_of_not_lt hy, h5, le_of_not_lt hz⟩
  · have hidx : childIndexOf lo hi p = (6 : Fin 8) := by
      apply Fin.ext
      show ((if (midPt lo hi).x < p.x then 1 else 0) +
          (if (midPt lo hi).y < p.y then 2 else 0) +
          (if (midPt lo hi).z < p.z then 4 else 0)) = (6 : Fin 8).val
      rw [if_neg hx, if_pos hy, if_pos hz]
      decide
    rw [hidx, inBoxHO_iff]
    exact ⟨h1, le_of_not_lt hx, hy, h4, hz, h6⟩
  · have hidx : childIndexOf lo hi p = (2 : Fin 8) := by
      apply Fin.ext
      show ((if (midPt lo hi).x < p.x then 1 else 0) +
          (if (midPt lo hi).y < p.y then 2 else 0) +
          (if (midPt lo hi).z < p.z then 4 else 0)) = (2 : Fin 8).val
      rw [if_neg hx, if_pos hy, if_neg hz]
      decide
    rw [hidx, inBoxHO_iff]
    exact ⟨h1, le_of_not_lt hx, hy, h4, h5, le_of_not_lt hz⟩
  · have hidx : childIndexOf lo hi p = (4 : Fin 8) := by
      apply Fin.ext
      show ((if (midPt lo hi).x < p.x then 1 else 0) +
          (if (midPt lo hi).y < p.y then 2 else 0) +
          (if (midPt lo hi).z < p.z then 4 else 0)) = (4 : Fin 8).val
      rw [if_neg hx, if_neg hy, if_pos hz]
      decide
    rw [hidx, inBoxHO_iff]
    exact ⟨h1, le_of_not_lt hx, h3, le_of_not_lt hy, hz, h6⟩
  · have hidx : childIndexOf lo hi p = (0 : Fin 8) := by
      apply Fin.ext
      show ((if (midPt lo hi).x < p.x then 1 else 0) +
          (if (midPt lo hi).y < p.y then 2 else 0) +
          (if (midPt lo hi).z < p.z then 4 else 0)) = (0 : Fin 8).val
      rw [if_neg hx, if_neg hy, if_neg hz]
      decide
    rw [hidx, inBoxHO_iff]
    exact ⟨h1, le_of_not_lt hx, h3, le_of_not_lt hy, h5, le_of_not_lt hz⟩

theorem childIndexOf_of_mem_octant (lo hi p : P3) (i : Fin 8)
    (h : inBoxHO (octantLo lo hi i) (octantHi lo hi i) p = true) :
    i = childIndexOf lo hi p := by
  rw [inBoxHO_iff] at h
  fin_cases i <;> obtain ⟨a1, a2, a3, a4, a5, a6⟩ := h
  · have b1 : p.x ≤ (midPt lo hi).x := a2
    have b2 : p.y ≤ (midPt lo hi).y := a4
    have b3 : p.z ≤ (midPt lo hi).z := a6
    apply Fin.ext
    show (0 : Fin 8).val = ((if (midPt lo hi).x < p.x then 1 else 0) +
        (if (midPt lo hi).y < p.y then 2 else 0) +
        (if (midPt lo hi).z < p.z then 4 else 0))
    rw [if_neg (not_lt.mpr b1), if_neg (not_lt.mpr b2), if_neg (not_lt.mpr b3)]
    decide
  · have b1 : (midPt lo hi).x < p.x := a1
    have b2 : p.y ≤ (midPt lo hi).y := a4
    have b3 : p.z ≤ (midPt lo hi).z := a6
    apply Fin.ext
    show (1 : Fin 8).val = ((if (midPt lo hi).x < p.x then 1 else 0) +
        (if (midPt lo hi).y < p.y then 2 else 0) +
        (if (midPt lo hi).z < p.z then 4 else 0))
    rw [if_pos b1, if_neg (not_lt.mpr b2), if_neg (not_lt.mpr b3)]
    decide
  · have b1 : p.x ≤ (midPt lo hi).x := a2
    have b2 : (midPt lo hi).y < p.y := a3
    have b3 : p.z ≤ (midPt lo hi).z := a6
    apply Fin.ext
    show (2 : Fin 8).val = ((if (midPt lo hi).x < p.x then 1 else 0) +
        (if (midPt lo hi).y < p.y then 2 else 0) +
        (if (midPt lo hi).z < p.z then 4 else 0))
    rw [if_neg (not_lt.mpr b1), if_pos b2, if_neg (not_lt.mpr b3)]
    decide
  · have b1 : (midPt lo hi).x < p.x := a1
    have b2 : (midPt lo hi).y < p.y := a3
    have b3 : p.z ≤ (midPt lo hi).z := a6
    apply Fin.ext
    show (3 : Fin 8).val = ((if (midPt lo hi).x < p.x then 1 else 0) +
        (if (midPt lo hi).y < p.y then 2 else 0) +
        (if (midPt lo hi).z < p.z then 4 else 0))
    rw [if_pos b1, if_pos b2, if_neg (not_lt.mpr b3)]
    decide
  · have b1 : p.x ≤ (midPt lo hi).x := a2
    have b2 : p.y ≤ (midPt lo hi).y := a4
    have b3 : (midPt lo hi).z < p.z := a5
    apply Fin.ext
    show (4 : Fin 8).val = ((if (midPt lo hi).x < p.x then 1 else 0) +
        (if (midPt lo hi).y < p.y then 2 else 0) +
        (if (midPt lo hi).z < p.z then 4 else 0))
    rw [if_neg (not_lt.mpr b1), if_neg (not_lt.mpr b2), if_pos b3]
    decide
  · have b1 : (midPt lo hi).x < p.x := a1
    have b2 : p.y ≤ (midPt lo hi).y := a4
    have b3 : (midPt lo hi).z < p.z := a5
    apply Fin.ext
    show (5 : Fin 8).val = ((if (midPt lo hi).x < p.x then 1 else 0) +
        (if (midPt lo hi).y < p.y then 2 else 0) +
        (if (midPt lo hi).z < p.z then 4 else 0))
    rw [if_pos b1, if_neg (not_lt.mpr b2), if_pos b3]
    decide
  · have b1 : p.x ≤ (midPt lo hi).x := a2
    have b2 : (midPt lo hi).y < p.y := a3
    have b3 : (midPt lo hi).z < p.z := a5
    apply Fin.ext
    show (6 : Fin 8).val = ((if (midPt lo hi).x < p.x then 1 else 0) +
        (if (midPt lo hi).y < p.y then 2 else 0) +
        (if (midPt lo hi).z < p.z then 4 else 0))
    rw [if_neg (not_lt.mpr b1), if_pos b2, if_pos b3]
    decide
  · have b1 : (midPt lo hi).x < p.x := a1
    have b2 : (midPt lo hi).y < p.y := a3
    have b3 : (midPt lo hi).z < p.z := a5
    apply Fin.ext
    show (7 : Fin 8).val = ((if (midPt lo hi).x < p.x then 1 else 0) +
        (if (midPt lo hi).y < p.y then 2 else 0) +
        (if (midPt lo hi).z < p.z then 4 else 0))
    rw [if_pos b1, if_pos b2, if_pos b3]
    decide

theorem midPt_between_x {lo hi : P3} (h : lo.x < hi.x) :
    lo.x < (midPt lo hi).x ∧ (midPt lo hi).x < hi.x := by
  constructor <;> simp only [midPt] <;> linarith

theorem midPt_between_y {lo hi : P3} (h : lo.y < hi.y) :
    lo.y < (midPt lo hi).y ∧ (midPt lo hi).y < hi.y := by
  constructor <;> simp only [midPt] <;> linarith

theorem midPt_between_z {lo hi : P3} (h : lo.z < hi.z) :
    lo.z < (midPt lo hi).z ∧ (midPt lo hi).z < hi.z := by
  constructor <;> simp only [midPt] <;> linarith

theorem inBoxHO_of_octant {lo hi p : P3} (hx : lo.x < hi.x) (hy : lo.y < hi.y)
    (hz : lo.z < hi.z) (i : Fin 8)
    (h : inBoxHO (octantLo lo hi i) (octantHi lo hi i) p = true) :
    inBoxHO lo hi p = true := by
  obtain ⟨mx1, mx2⟩ := midPt_between_x hx
  obtain ⟨my1, my2⟩ := midPt_between_y hy
  obtain ⟨mz1, mz2⟩ := midPt_between_z hz
  rw [inBoxHO_iff] at h ⊢
  fin_cases i <;> obtain ⟨a1, a2, a3, a4, a5, a6⟩ := h
  · exact ⟨a1, le_trans a2 mx2.le, a3, le_trans a4 my2.le, a5, le_trans a6 mz2.le⟩
  · exact ⟨lt_trans mx1 a1, a2, a3, le_trans a4 my2.le, a5, le_trans a6 mz2.le⟩
  · exact ⟨a1, le_trans a2 mx2.le, lt_trans my1 a3, a4, a5, le_trans a6 mz2.le⟩
  · exact ⟨lt_trans mx1 a1, a2, lt_trans my1 a3, a4, a5, le_trans a6 mz2.le⟩
  · exact ⟨a1, le_trans a2 mx2.le, a3, le_trans a4 my2.le, lt_trans mz1 a5, a6⟩
  · exact ⟨lt_trans mx1 a1, a2, a3, le_trans a4 my2.le, lt_trans mz1 a5, a6⟩
  · exact ⟨a1, le_trans a2 mx2.le, lt_trans my1 a3, a4, lt_trans mz1 a5, a6⟩
  · exact ⟨lt_trans mx1 a1, a2, lt_trans my1 a3, a4, lt_trans mz1 a5, a6⟩

theorem boxOK_octant {lo hi : P3} (h : boxOK lo hi) (i : Fin 8) :
    boxOK (octantLo lo hi i) (octantHi lo hi i) := by
  obtain ⟨hx, hy, hz, hslo, hshi⟩ := h
  obtain ⟨mx1, mx2⟩ := midPt_between_x hx
  obtain ⟨my1, my2⟩ := midPt_between_y hy
  obtain ⟨mz1, mz2⟩ := midPt_between_z hz
  have hm := ptSmall_midPt hslo hshi
  fin_cases i
  · exact ⟨mx1, my1, mz1, ⟨hslo.1, hslo.2.1, hslo.2.2⟩, ⟨hm.1, hm.2.1, hm.2.2⟩⟩
  · exact ⟨mx2, my1, mz1, ⟨hm.1, hslo.2.1, hslo.2.2⟩, ⟨hshi.1, hm.2.1, hm.2.2⟩⟩
  · exact ⟨mx1, my2, mz1, ⟨hslo.1, hm.2.1, hslo.2.2⟩, ⟨hm.1, hshi.2.1, hm.2.2⟩⟩
  · exact ⟨mx2, my2, mz1, ⟨hm.1, hm.2.1, hslo.2.2⟩, ⟨hshi.1, hshi.2.1, hm.2.2⟩⟩
  · exact ⟨mx1, my1, mz2, ⟨hslo.1, hslo.2.1, hm.2.2⟩, ⟨hm.1, hm.2.1, hshi.2.2⟩⟩
  · exact ⟨mx2, my1, mz2, ⟨hm.1, hslo.2.1, hm.2.2⟩, ⟨hshi.1, hm.2.1, hshi.2.2⟩⟩
  · exact ⟨mx1, my2, mz2, ⟨hslo.1, hm.2.1, hm.2.2⟩, ⟨hm.1, hshi.2.1, hshi.2.2⟩⟩
  · exact ⟨mx2, my2, mz2, ⟨hm.1, hm.2.1, hm.2.2⟩, ⟨hshi.1, hshi.2.1, hshi.2.2⟩⟩

theorem octant_nested {lo hi : P3} (hx : lo.x < hi.x) (hy : lo.y < hi.y)
    (hz : lo.z < hi.z) (i : Fin 8) :
    lo.x ≤ (octantLo lo hi i).x ∧ lo.y ≤ (octantLo lo hi i).y ∧
      lo.z ≤ (octantLo lo hi i).z ∧ (octantHi lo hi i).x ≤ hi.x ∧
      (octantHi lo hi i).y ≤ hi.y ∧ (octantHi lo hi i).z ≤ hi.z := by
  obtain ⟨mx1, mx2⟩ := midPt_between_x hx
  obtain ⟨my1, my2⟩ := midPt_between_y hy
  obtain ⟨mz1, mz2⟩ := midPt_between_z hz
  fin_cases i
  · exact ⟨le_refl _, le_refl _, le_refl _, mx2.le, my2.le, mz2.le⟩
  · exact ⟨mx1.le, le_refl _, le_refl _, le_refl _, my2.le, mz2.le⟩
  · exact ⟨le_refl _, my1.le, le_refl _, mx2.le, le_refl _, mz2.le⟩
  · exact ⟨mx1.le, my1.le, le_refl _, le_refl _, le_refl _, mz2.le⟩
  · exact ⟨le_refl _, le_refl _, mz1.le, mx2.le, my2.le, le_refl _⟩
  · exact ⟨mx1.le, le_refl _, mz1.le, le_refl _, my2.le, le_refl _⟩
  · exact ⟨le_refl _, my1.le, mz1.le, mx2.le, le_refl _, le_refl _⟩
  · exact ⟨mx1.le, my1.le, mz1.le, le_refl _, le_refl _, le_refl _⟩

/-! ## Distance bounds -/

theorem axMinMax_bounds {p lo hi y : ℚ} (h1 : lo ≤ y) (h2 : y ≤ hi) :
    (axMinMax p lo hi).1 ≤ (p - y) ^ 2 ∧ (p - y) ^ 2 ≤ (axMinMax p lo hi).2 := by
  unfold axMinMax
  dsimp only
  split_ifs with ha hb hc <;> constructor <;> dsimp only <;> nlinarith

theorem nodeMinMax2_bounds {q lo hi y : P3} (h : inBoxC lo hi y) :
    (nodeMinMax2 q lo hi).1 ≤ dist2 q y ∧ dist2 q y ≤ (nodeMinMax2 q lo hi).2 := by
  obtain ⟨h1, h2, h3, h4, h5, h6⟩ := h
  have hx := axMinMax_bounds (p := q.x) h1 h2
  have hy := axMinMax_bounds (p := q.y) h3 h4
  have hz := axMinMax_bounds (p := q.z) h5 h6
  unfold nodeMinMax2 dist2
  constructor <;> simp only [] <;> linarith [hx.1, hx.2, hy.1, hy.2, hz.1, hz.2]

theorem axisBoundaryContrib_le {q lo hi rLo rHi y : ℚ} (h1 : lo ≤ y) (h2 : y ≤ hi) :
    axisBoundaryContrib q lo hi rLo rHi ≤ (q - y) ^ 2 := by
  unfold axisBoundaryContrib
  split_ifs <;> nlinarith

theorem dist2PtBox_le {q bLo bHi rLo rHi y : P3} (h : inBoxC bLo bHi y) :
    dist2PtBox q bLo bHi rLo rHi ≤ dist2 q y := by
  obtain ⟨h1, h2, h3, h4, h5, h6⟩ := h
  have hx := @axisBoundaryContrib_le q.x bLo.x bHi.x rLo.x rHi.x y.x h1 h2
  have hy := @axisBoundaryContrib_le q.y bLo.y bHi.y rLo.y rHi.y y.y h3 h4
  have hz := @axisBoundaryContrib_le q.z bLo.z bHi.z rLo.z rHi.z y.z h5 h6
  unfold dist2PtBox dist2
  linarith

theorem innerFaceMin_le_acc (q a b ra rb acc : ℚ) :
    innerFaceMin q a b ra rb acc ≤ acc := by
  unfold innerFaceMin
  split_ifs <;>
    simp only [] <;>
    first
      | exact le_refl _
      | exact min_le_left _ _
      | exact le_trans (min_le_left _ _) (min_le_left _ _)

theorem innerFaceMin_le_lo {q a b ra rb acc : ℚ} (h : a ≠ ra) :
    innerFaceMin q a b ra rb acc ≤ (q - a) ^ 2 := by
  unfold innerFaceMin
  rw [if_neg h]
  split_ifs
  · exact min_le_right _ _
  · exact le_trans (min_le_left _ _) (min_le_right _ _)

theorem innerFaceMin_le_hi {q a b ra rb acc : ℚ} (h : b ≠ rb) :
    innerFaceMin q a b ra rb acc ≤ (q - b) ^ 2 := by
  unfold innerFaceMin
  rw [if_neg h]
  exact min_le_right _ _

/-! ## Descend paths, containment, and container extension -/

theorem fin8_cases (m : Fin 8) :
    m = 0 ∨ m = 1 ∨ m = 2 ∨ m = 3 ∨ m = 4 ∨ m = 5 ∨ m = 6 ∨ m = 7 := by
  fin_cases m <;> decide

theorem Node.descend_leaf (l h dl dh : P3) (ids : List Int) (path : List (Fin 8)) :
    (Node.leaf l h dl dh ids).descend path = Node.leaf l h dl dh ids := by
  induction path with
  | nil => rfl
  | cons i rest ih => exact ih

theorem Node.mem_allIds_cases {l h dl dh : P3} {a b c d e f g hc : Node} {id : Int}
    (hid : id ∈ (Node.internal l h dl dh a b c d e f g hc).allIds) :
    ∃ j : Fin 8, id ∈ ((Node.internal l h dl dh a b c d e f g hc).child j).allIds := by
  simp only [Node.allIds, List.mem_append] at hid
  rcases hid with ((((((h1 | h2) | h3) | h4) | h5) | h6) | h7) | h8
  · exact ⟨0, h1⟩
  · exact ⟨1, h2⟩
  · exact ⟨2, h3⟩
  · exact ⟨3, h4⟩
  · exact ⟨4, h5⟩
  · exact ⟨5, h6⟩
  · exact ⟨6, h7⟩
  · exact ⟨7, h8⟩

theorem Node.WF.child_box {P : PtStore} {l h dl dh : P3} {a b c d e f g hc : Node}
    (hwf : (Node.internal l h dl dh a b c d e f g hc).WF P) (i : Fin 8) :
    ((Node.internal l h dl dh a b c d e f g hc).child i).boxLo = octantLo l h i ∧
      ((Node.internal l h dl dh a b c d e f g hc).child i).boxHi = octantHi l h i :=
  hwf.2.2.2.2.1 i

theorem Node.WF.descend_box_subset {P : PtStore} {root : Node} (hwf : root.WF P)
    (path : List (Fin 8)) {p : P3}
    (h : inBoxHO (root.descend path).boxLo (root.descend path).boxHi p = true) :
    inBoxHO root.boxLo root.boxHi p = true := by
  induction path generalizing root with
  | nil => exact h
  | cons i rest ih =>
    have hchild : inBoxHO (root.child i).boxLo (root.child i).boxHi p = true :=
      ih (hwf.child i) h
    cases root with
    | leaf l hh dl dh ids => exact hchild
    | internal l hh dl dh a b c d e f g hc =>
      obtain ⟨hbl, hbh⟩ := hwf.child_box i
      rw [hbl, hbh] at hchild
      exact inBoxHO_of_octant hwf.1.1 hwf.1.2.1 hwf.1.2.2.1 i hchild

theorem Node.WF.descend_box_nested {P : PtStore} {root : Node} (hwf : root.WF P)
    (path : List (Fin 8)) :
    root.boxLo.x ≤ (root.descend path).boxLo.x ∧
      root.boxLo.y ≤ (root.descend path).boxLo.y ∧
      root.boxLo.z ≤ (root.descend path).boxLo.z ∧
      (root.descend path).boxHi.x ≤ root.boxHi.x ∧
      (root.descend path).boxHi.y ≤ root.boxHi.y ∧
      (root.descend path).boxHi.z ≤ root.boxHi.z := by
  induction path generalizing root with
  | nil => exact ⟨le_refl _, le_refl _, le_refl _, le_refl _, le_refl _, le_refl _⟩
  | cons i rest ih =>
    have hrec := ih (hwf.child i)
    cases root with
    | leaf l hh dl dh ids => exact hrec
    | internal l hh dl dh a b c d e f g hc =>
      obtain ⟨hbl, hbh⟩ := hwf.child_box i
      have hoct := octant_nested hwf.1.1 hwf.1.2.1 hwf.1.2.2.1 i
      show l.x ≤ _ ∧ l.y ≤ _ ∧ l.z ≤ _ ∧ _ ≤ hh.x ∧ _ ≤ hh.y ∧ _ ≤ hh.z
      rw [hbl, hbh] at hrec
      exact ⟨le_trans hoct.1 hrec.1, le_trans hoct.2.1 hrec.2.1,
        le_trans hoct.2.2.1 hrec.2.2.1, le_trans hrec.2.2.2.1 hoct.2.2.2.1,
        le_trans hrec.2.2.2.2.1 hoct.2.2.2.2.1,
        le_trans hrec.2.2.2.2.2 hoct.2.2.2.2.2⟩

theorem Node.WF.not_mem_descend_box {P : PtStore} {n : Node} (hwf : n.WF P)
    (path : List (Fin 8)) (id : Int) (hid : id ∈ n.allIds)
    (hnot : id ∉ (n.descend path).allIds) :
    ¬ inBoxHO (n.descend path).boxLo (n.descend path).boxHi (getPt P id) = true := by
  induction path generalizing n with
  | nil => exact absurd hid hnot
  | cons i rest ih =>
    cases n with
    | leaf l hh dl dh ids =>
      rw [show (Node.leaf l hh dl dh ids).descend (i :: rest) =
        Node.leaf l hh dl dh ids from Node.descend_leaf l hh dl dh ids (i :: rest)] at hnot ⊢
      exact absurd hid hnot
    | internal l hh dl dh a b c d e f g hc =>
      obtain ⟨j, hj⟩ := Node.mem_allIds_cases hid
      by_cases hij : j = i
      · subst hij
        exact ih (hwf.child j) hj hnot
      · intro hmem
        have hsub : inBoxHO ((Node.internal l hh dl dh a b c d e f g hc).child i).boxLo
            ((Node.internal l hh dl dh a b c d e f g hc).child i).boxHi (getPt P id) = true :=
          (hwf.child i).descend_box_subset rest hmem
        have hjbox : inBoxHO ((Node.internal l hh dl dh a b c d e f g hc).child j).boxLo
            ((Node.internal l hh dl dh a b c d e f g hc).child j).boxHi (getPt P id) = true :=
          ((hwf.child j).ids id hj).2.1
        obtain ⟨hbl, hbh⟩ := hwf.child_box i
        obtain ⟨hbl', hbh'⟩ := hwf.child_box j
        rw [hbl, hbh] at hsub
        rw [hbl', hbh'] at hjbox
        exact hij (childIndexOf_of_mem_octant l hh _ j hjbox ▸
          childIndexOf_of_mem_octant l hh _ i hsub ▸ rfl)

theorem leafContainerPath_spec {P : PtStore} {root : Node} (hwf : root.WF P)
    {q : P3} (h : inBoxHO root.boxLo root.boxHi q = true) :
    inBoxHO (root.descend (leafContainerPath root q)).boxLo
        (root.descend (leafContainerPath root q)).boxHi q = true ∧
      (root.descend (leafContainerPath root q)).isLeaf = true := by
  induction root with
  | leaf l hh dl dh ids =>
    rw [leafContainerPath_leaf]
    exact ⟨h, rfl⟩
  | internal l hh dl dh a b c d e f g hc iha ihb ihc ihd ihe ihf ihg ihh =>
    rw [leafContainerPath_internal]
    have hoct := mem_octant_childIndexOf l hh q h
    obtain ⟨hbl, hbh⟩ := hwf.child_box (childIndexOf l hh q)
    have hin : inBoxHO ((Node.internal l hh dl dh a b c d e f g hc).child
        (childIndexOf l hh q)).boxLo
        ((Node.internal l hh dl dh a b c d e f g hc).child (childIndexOf l hh q)).boxHi
        q = true := by rw [hbl, hbh]; exact hoct
    show inBoxHO (((Node.internal l hh dl dh a b c d e f g hc).child
        (childIndexOf l hh q)).descend _).boxLo _ _ = true ∧ _
    rcases fin8_cases (childIndexOf l hh q) with hk | hk | hk | hk | hk | hk | hk | hk <;>
      rw [hk] at hin ⊢
    · exact iha (hwf.child 0) hin
    · exact ihb (hwf.child 1) hin
    · exact ihc (hwf.child 2) hin
    · exact ihd (hwf.child 3) hin
    · exact ihe (hwf.child 4) hin
    · exact ihf (hwf.child 5) hin
    · exact ihg (hwf.child 6) hin
    · exact ihh (hwf.child 7) hin

theorem getPt_append_lt {P : PtStore} (l : List P3) {id : Int}
    (h : id.toNat < P.length) : getPt (P ++ l) id = getPt P id := by
  unfold getPt
  rw [List.getD_append _ _ _ _ h]

theorem getPt_append_self (P : PtStore) (p : P3) :
    getPt (P ++ [p]) (P.length : Int) = p := by
  unfold getPt
  rw [Int.toNat_natCast, List.getD_append_right _ _ _ _ (le_refl _)]
  simp

theorem idOK_append {P : PtStore} (l : List P3) {id : Int} (h : idOK P id) :
    idOK (P ++ l) id :=
  ⟨h.1, lt_of_lt_of_le h.2 (by rw [List.length_append]; omega)⟩

theorem Node.WF.append {P : PtStore} {n : Node} (l : List P3) (h : n.WF P) :
    n.WF (P ++ l) := by
  induction n with
  | leaf lo hi dl dh ids =>
    refine ⟨h.1, fun id hid => ?_, h.2.2⟩
    obtain ⟨hok, hbox, hdata⟩ := h.2.1 id hid
    rw [getPt_append_lt l hok.2]
    exact ⟨idOK_append l hok, hbox, hdata⟩
  | internal lo hi dl dh a b c d e f g hc iha ihb ihc ihd ihe ihf ihg ihh =>
    obtain ⟨h1, h2, h3, h4, h5, ha, hb, hcw, hd, he, hf, hg, hhc⟩ := h
    refine ⟨h1, fun id hid => ?_, h3, h4, h5, iha ha, ihb hb, ihc hcw, ihd hd,
      ihe he, ihf hf, ihg hg, ihh hhc⟩
    obtain ⟨hok, hbox, hdata⟩ := h2 id hid
    rw [getPt_append_lt l hok.2]
    exact ⟨idOK_append l hok, hbox, hdata⟩

/-! ## Radius query: exact filter characterization -/

theorem fpwsrNode_eq_filter {P : PtStore} {r2 : ℚ} {q : P3} :
    ∀ n : Node, n.WF P → ∀ acc : List Int,
      fpwsrNode P r2 q n acc =
        acc ++ n.allIds.filter (fun id => decide (dist2 (getPt P id) q ≤ r2)) := by
  intro n
  induction n with
  | leaf l h dl dh ids =>
    intro hwf acc
    simp only [fpwsrNode]
    by_cases h1 : r2 < (nodeMinMax2 q (Node.leaf l h dl dh ids).boxLo
        (Node.leaf l h dl dh ids).boxHi).1
    · rw [if_pos h1]
      have hnil : ids.filter (fun id => decide (dist2 (getPt P id) q ≤ r2)) = [] := by
        rw [List.filter_eq_nil_iff]
        intro id hid
        have hbox := inBoxC_of_HO (hwf.2.1 id hid).2.1
        have hlb := (nodeMinMax2_bounds (q := q) hbox).1
        rw [dist2_comm] at hlb
        simp only [decide_eq_true_eq]
        intro hle
        exact absurd (lt_of_le_of_lt hle h1) (not_lt.mpr hlb)
      show acc = acc ++ ids.filter _
      rw [hnil, List.append_nil]
    · rw [if_neg h1]
      by_cases h2 : (nodeMinMax2 q (Node.leaf l h dl dh ids).boxLo
          (Node.leaf l h dl dh ids).boxHi).2 ≤ r2
      · rw [if_pos h2]
        have hall : ids.filter (fun id => decide (dist2 (getPt P id) q ≤ r2)) = ids := by
          rw [List.filter_eq_self]
          intro id hid
          have hbox := inBoxC_of_HO (hwf.2.1 id hid).2.1
          have hub := (nodeMinMax2_bounds (q := q) hbox).2
          rw [dist2_comm] at hub
          simp only [decide_eq_true_eq]
          exact le_trans hub h2
        show acc ++ ids = acc ++ ids.filter _
        rw [hall]
      · rw [if_neg h2]
        rfl
  | internal l h dl dh a b c d e f g hc iha ihb ihc ihd ihe ihf ihg ihh =>
    intro hwf acc
    simp only [fpwsrNode]
    by_cases h1 : r2 < (nodeMinMax2 q (Node.internal l h dl dh a b c d e f g hc).boxLo
        (Node.internal l h dl dh a b c d e f g hc).boxHi).1
    · rw [if_pos h1]
      have hnil : (Node.internal l h dl dh a b c d e f g hc).allIds.filter
          (fun id => decide (dist2 (getPt P id) q ≤ r2)) = [] := by
        rw [List.filter_eq_nil_iff]
        intro id hid
        have hbox := inBoxC_of_HO ((hwf.ids id hid)).2.1
        have hlb := (nodeMinMax2_bounds (q := q) hbox).1
        rw [dist2_comm] at hlb
        simp only [decide_eq_true_eq]
        intro hle
        exact absurd (lt_of_le_of_lt hle h1) (not_lt.mpr hlb)
      show acc = acc ++ _
      rw [hnil, List.append_nil]
    · rw [if_neg h1]
      by_cases h2 : (nodeMinMax2 q (Node.internal l h dl dh a b c d e f g hc).boxLo
          (Node.internal l h dl dh a b c d e f g hc).boxHi).2 ≤ r2
      · rw [if_pos h2]
        have hall : (Node.internal l h dl dh a b c d e f g hc).allIds.filter
            (fun id => decide (dist2 (getPt P id) q ≤ r2)) =
              (Node.internal l h dl dh a b c d e f g hc).allIds := by
          rw [List.filter_eq_self]
          intro id hid
          have hbox := inBoxC_of_HO ((hwf.ids id hid)).2.1
          have hub := (nodeMinMax2_bounds (q := q) hbox).2
          rw [dist2_comm] at hub
          simp only [decide_eq_true_eq]
          exact le_trans hub h2
        rw [hall]
      · rw [if_neg h2]
        obtain ⟨-, -, -, -, -, ha, hb, hcw, hd, he, hf, hg, hhc⟩ := hwf
        rw [iha ha, ihb hb, ihc hcw, ihd hd, ihe he, ihf hf, ihg hg, ihh hhc]
        simp only [Node.allIds, List.filter_append, List.append_assoc]

/-! ## Insertion preserves well-formedness -/

theorem dataBoundsOf_cons (P : PtStore) (invLo invHi : P3) (id : Int)
    (rest : List Int) :
    dataBoundsOf P invLo invHi (id :: rest) =
      dataBoundsOf P (extendLoP invLo (getPt P id)) (extendHiP invHi (getPt P id))
        rest := rfl

theorem dataBoundsOf_shrink (P : PtStore) (ids : List Int) :
    ∀ invLo invHi : P3,
      (dataBoundsOf P invLo invHi ids).1.x ≤ invLo.x ∧
      (dataBoundsOf P invLo invHi ids).1.y ≤ invLo.y ∧
      (dataBoundsOf P invLo invHi ids).1.z ≤ invLo.z ∧
      invHi.x ≤ (dataBoundsOf P invLo invHi ids).2.x ∧
      invHi.y ≤ (dataBoundsOf P invLo invHi ids).2.y ∧
      invHi.z ≤ (dataBoundsOf P invLo invHi ids).2.z := by
  induction ids with
  | nil => exact fun invLo invHi => ⟨le_refl _, le_refl _, le_refl _, le_refl _,
      le_refl _, le_refl _⟩
  | cons id rest ih =>
    intro invLo invHi
    rw [dataBoundsOf_cons]
    have h := ih (extendLoP invLo (getPt P id)) (extendHiP invHi (getPt P id))
    exact ⟨le_trans h.1 (min_le_left _ _), le_trans h.2.1 (min_le_left _ _),
      le_trans h.2.2.1 (min_le_left _ _), le_trans (le_max_left _ _) h.2.2.2.1,
      le_trans (le_max_left _ _) h.2.2.2.2.1, le_trans (le_max_left _ _) h.2.2.2.2.2⟩

theorem dataBoundsOf_mem (P : PtStore) (ids : List Int) :
    ∀ invLo invHi : P3, ∀ id ∈ ids,
      inBoxC (dataBoundsOf P invLo invHi ids).1 (dataBoundsOf P invLo invHi ids).2
        (getPt P id) := by
  induction ids with
  | nil => intro _ _ id hid; exact absurd hid (List.not_mem_nil id)
  | cons hd rest ih =>
    intro invLo invHi id hid
    rw [dataBoundsOf_cons]
    rcases List.mem_cons.mp hid with heq | hmem
    · subst heq
      have h := dataBoundsOf_shrink P rest (extendLoP invLo (getPt P id))
        (extendHiP invHi (getPt P id))
      exact ⟨le_trans h.1 (min_le_right _ _), le_trans (le_max_right _ _) h.2.2.2.1,
        le_trans h.2.1 (min_le_right _ _), le_trans (le_max_right _ _) h.2.2.2.2.1,
        le_trans h.2.2.1 (min_le_right _ _), le_trans (le_max_right _ _) h.2.2.2.2.2⟩
    · exact ih _ _ id hmem

theorem dataBoundsOf_small (P : PtStore) (ids : List Int) :
    ∀ invLo invHi : P3, ptSmall invLo → ptSmall invHi →
      (∀ id ∈ ids, ptSmall (getPt P id)) →
      ptSmall (dataBoundsOf P invLo invHi ids).1 ∧
        ptSmall (dataBoundsOf P invLo invHi ids).2 := by
  induction ids with
  | nil => exact fun _ _ hlo hhi _ => ⟨hlo, hhi⟩
  | cons hd rest ih =>
    intro invLo invHi hlo hhi hall
    rw [dataBoundsOf_cons]
    exact ih _ _ (ptSmall_extendLo hlo (hall hd (List.mem_cons_self hd rest)))
      (ptSmall_extendHi hhi (hall hd (List.mem_cons_self hd rest)))
      (fun id hid => hall id (List.mem_cons_of_mem hd hid))

theorem filter_fin8_perm (g : Int → Fin 8) (ids : List Int) :
    (ids.filter (fun i => decide (g i = 0)) ++ ids.filter (fun i => decide (g i = 1)) ++
     ids.filter (fun i => decide (g i = 2)) ++ ids.filter (fun i => decide (g i = 3)) ++
     ids.filter (fun i => decide (g i = 4)) ++ ids.filter (fun i => decide (g i = 5)) ++
     ids.filter (fun i => decide (g i = 6)) ++
       ids.filter (fun i => decide (g i = 7))).Perm ids := by
  rw [List.perm_iff_count]
  intro b
  simp only [List.count_append]
  have key : ∀ j : Fin 8, List.count b (ids.filter (fun i => decide (g i = j))) =
      if g b = j then List.count b ids else 0 := by
    intro j
    by_cases hj : g b = j
    · rw [if_pos hj]
      exact List.count_filter (by simp [hj])
    · rw [if_neg hj, List.count_eq_zero]
      intro hmem
      rw [List.mem_filter] at hmem
      exact hj (of_decide_eq_true hmem.2)
  rw [key 0, key 1, key 2, key 3, key 4, key 5, key 6, key 7]
  rcases fin8_cases (g b) with hk | hk | hk | hk | hk | hk | hk | hk <;> simp [hk]

theorem Node.insertPt_boxLo (P : PtStore) (pid : Int) (p : P3) (maxPts : Nat)
    (fudge : ℚ) (n : Node) :
    (n.insertPt P pid p maxPts fudge).boxLo = n.boxLo := by
  cases n with
  | leaf lo hi dl dh ids =>
    simp only [Node.insertPt]
    split_ifs <;> rfl
  | internal lo hi dl dh a b c d e f g hc =>
    simp only [Node.insertPt]
    rcases fin8_cases (childIndexOf lo hi p) with hk | hk | hk | hk | hk | hk | hk | hk <;>
      rw [hk] <;> rfl

theorem Node.insertPt_boxHi (P : PtStore) (pid : Int) (p : P3) (maxPts : Nat)
    (fudge : ℚ) (n : Node) :
    (n.insertPt P pid p maxPts fudge).boxHi = n.boxHi := by
  cases n with
  | leaf lo hi dl dh ids =>
    simp only [Node.insertPt]
    split_ifs <;> rfl
  | internal lo hi dl dh a b c d e f g hc =>
    simp only [Node.insertPt]
    rcases fin8_cases (childIndexOf lo hi p) with hk | hk | hk | hk | hk | hk | hk | hk <;>
      rw [hk] <;> rfl

theorem splitNode_allIds (P : PtStore) (lo hi dl dh : P3) (ids : List Int) :
    (Node.internal lo hi dl dh (mkSubChild P lo hi ids 0) (mkSubChild P lo hi ids 1)
      (mkSubChild P lo hi ids 2) (mkSubChild P lo hi ids 3) (mkSubChild P lo hi ids 4)
      (mkSubChild P lo hi ids 5) (mkSubChild P lo hi ids 6)
      (mkSubChild P lo hi ids 7)).allIds =
    (ids.filter (fun i => decide (childIndexOf lo hi (getPt P i) = 0)) ++
     ids.filter (fun i => decide (childIndexOf lo hi (getPt P i) = 1)) ++
     ids.filter (fun i => decide (childIndexOf lo hi (getPt P i) = 2)) ++
     ids.filter (fun i => decide (childIndexOf lo hi (getPt P i) = 3)) ++
     ids.filter (fun i => decide (childIndexOf lo hi (getPt P i) = 4)) ++
     ids.filter (fun i => decide (childIndexOf lo hi (getPt P i) = 5)) ++
     ids.filter (fun i => decide (childIndexOf lo hi (getPt P i) = 6)) ++
     ids.filter (fun i => decide (childIndexOf lo hi (getPt P i) = 7))) := rfl

theorem Node.insertPt_allIds_perm (P : PtStore) (pid : Int) (p : P3) (maxPts : Nat)
    (fudge : ℚ) : ∀ n : Node,
    ((n.insertPt P pid p maxPts fudge).allIds).Perm (n.allIds ++ [pid]) := by
  intro n
  induction n with
  | leaf lo hi dl dh ids =>
    simp only [Node.insertPt]
    by_cases hcond : maxPts < (ids ++ [pid]).length ∧ bigEnough lo hi fudge = true
    · rw [if_pos hcond, splitNode_allIds]
      exact filter_fin8_perm (fun id => childIndexOf lo hi (getPt P id)) (ids ++ [pid])
    · rw [if_neg hcond]
      show (ids ++ [pid]).Perm (ids ++ [pid])
      exact List.Perm.refl _
  | internal lo hi dl dh a b c d e f g hc iha ihb ihc ihd ihe ihf ihg ihh =>
    simp only [Node.insertPt]
    rcases fin8_cases (childIndexOf lo hi p) with hk | hk | hk | hk | hk | hk | hk | hk <;>
      rw [hk]
    · show ((Node.internal lo hi (extendLoP dl p) (extendHiP dh p) (Node.insertPt P pid p maxPts fudge a) b c d e f g hc).allIds).Perm _
      rw [List.perm_iff_count]
      intro x
      have hx := List.perm_iff_count.mp iha x
      simp only [Node.allIds, List.count_append] at hx ⊢
      omega
    · show ((Node.internal lo hi (extendLoP dl p) (extendHiP dh p) a (Node.insertPt P pid p maxPts fudge b) c d e f g hc).allIds).Perm _
      rw [List.perm_iff_count]
      intro x
      have hx := List.perm_iff_count.mp ihb x
      simp only [Node.allIds, List.count_append] at hx ⊢
      omega
    · show ((Node.internal lo hi (extendLoP dl p) (extendHiP dh p) a b (Node.insertPt P pid p maxPts fudge c) d e f g hc).allIds).Perm _
      rw [List.perm_iff_count]
      intro x
      have hx := List.perm_iff_count.mp ihc x
      simp only [Node.allIds, List.count_append] at hx ⊢
      omega
    · show ((Node.internal lo hi (extendLoP dl p) (extendHiP dh p) a b c (Node.insertPt P pid p maxPts fudge d) e f g hc).allIds).Perm _
      rw [List.perm_iff_count]
      intro x
      have hx := List.perm_iff_count.mp ihd x
      simp only [Node.allIds, List.count_append] at hx ⊢
      omega
    · show ((Node.internal lo hi (extendLoP dl p) (extendHiP dh p) a b c d (Node.insertPt P pid p maxPts fudge e) f g hc).allIds).Perm _
      rw [List.perm_iff_count]
      intro x
      have hx := List.perm_iff_count.mp ihe x
      simp only [Node.allIds, List.count_append] at hx ⊢
      omega
    · show ((Node.internal lo hi (extendLoP dl p) (extendHiP dh p) a b c d e (Node.insertPt P pid p maxPts fudge f) g hc).allIds).Perm _
      rw [List.perm_iff_count]
      intro x
      have hx := List.perm_iff_count.mp ihf x
      simp only [Node.allIds, List.count_append] at hx ⊢
      omega
    · show ((Node.internal lo hi (extendLoP dl p) (extendHiP dh p) a b c d e f (Node.insertPt P pid p maxPts fudge g) hc).allIds).Perm _
      rw [List.perm_iff_count]
      intro x
      have hx := List.perm_iff_count.mp ihg x
      simp only [Node.allIds, List.count_append] at hx ⊢
      omega
    · show ((Node.internal lo hi (extendLoP dl p) (extendHiP dh p) a b c d e f g (Node.insertPt P pid p maxPts fudge hc)).allIds).Perm _
      rw [List.perm_iff_count]
      intro x
      have hx := List.perm_iff_count.mp ihh x
      simp only [Node.allIds, List.count_append] at hx ⊢
      omega

theorem mkSubChild_allIds (P : PtStore) (lo hi : P3) (ids : List Int) (k : Fin 8) :
    (mkSubChild P lo hi ids k).allIds =
      ids.filter (fun id => decide (childIndexOf lo hi (getPt P id) = k)) := rfl

theorem mkSubChild_WF {P : PtStore} {lo hi : P3} {ids : List Int}
    (hbox : boxOK lo hi)
    (hids : ∀ id ∈ ids, idOK P id ∧ inBoxHO lo hi (getPt P id) = true)
    (k : Fin 8) : (mkSubChild P lo hi ids k).WF P := by
  have hob := boxOK_octant hbox k
  refine ⟨hob, ?_, ?_⟩
  · intro id hid
    have hid' := hid
    rw [List.mem_filter] at hid'
    have hk : childIndexOf lo hi (getPt P id) = k := of_decide_eq_true hid'.2
    have hmem := mem_octant_childIndexOf lo hi (getPt P id) (hids id hid'.1).2
    rw [hk] at hmem
    exact ⟨(hids id hid'.1).1, hmem,
      dataBoundsOf_mem P _ (octantHi lo hi k) (octantLo lo hi k) id hid⟩
  · intro hne
    refine dataBoundsOf_small P _ (octantHi lo hi k) (octantLo lo hi k)
      hob.2.2.2.2 hob.2.2.2.1 ?_
    intro id hid
    rw [List.mem_filter] at hid
    exact ptSmall_of_inBoxHO hbox.2.2.2.1 hbox.2.2.2.2 (hids id hid.1).2


theorem insertLeaf_WF {P : PtStore} {pid : Int} {p : P3} (maxPts : Nat) (fudge : ℚ)
    (hpid : idOK P pid) (hp : getPt P pid = p) (lo hi dl dh : P3) (ids : List Int)
    (hwf : (Node.leaf lo hi dl dh ids).WF P) (hin : inBoxHO lo hi p = true) :
    ((Node.leaf lo hi dl dh ids).insertPt P pid p maxPts fudge).WF P := by
  have hb := hwf.1
  have hids := hwf.2.1
  have hsm := hwf.2.2
  have hpsmall : ptSmall p := ptSmall_of_inBoxHO hb.2.2.2.1 hb.2.2.2.2 hin
  have hids2 : ∀ id ∈ ids ++ [pid], idOK P id ∧ inBoxHO lo hi (getPt P id) = true := by
    intro id hid
    rcases List.mem_append.mp hid with hmem | hmem
    · exact ⟨(hids id hmem).1, (hids id hmem).2.1⟩
    · have he : id = pid := List.mem_singleton.mp hmem
      subst he
      rw [hp]
      exact ⟨hpid, hin⟩
  have hdata2 : ∀ id ∈ ids ++ [pid],
      inBoxC (if ids.isEmpty then p else extendLoP dl p)
        (if ids.isEmpty then p else extendHiP dh p) (getPt P id) := by
    by_cases hemp : ids.isEmpty
    · rw [if_pos hemp, if_pos hemp]
      have hnil : ids = [] := List.isEmpty_iff.mp hemp
      subst hnil
      intro id hid
      have he : id = pid := List.mem_singleton.mp (by simpa using hid)
      subst he
      rw [hp]
      exact ⟨le_refl _, le_refl _, le_refl _, le_refl _, le_refl _, le_refl _⟩
    · rw [if_neg hemp, if_neg hemp]
      intro id hid
      rcases List.mem_append.mp hid with hmem | hmem
      · have hcc := (hids id hmem).2.2
        exact ⟨le_trans (min_le_left _ _) hcc.1, le_trans hcc.2.1 (le_max_left _ _),
          le_trans (min_le_left _ _) hcc.2.2.1,
          le_trans hcc.2.2.2.1 (le_max_left _ _),
          le_trans (min_le_left _ _) hcc.2.2.2.2.1,
          le_trans hcc.2.2.2.2.2 (le_max_left _ _)⟩
      · have he : id = pid := List.mem_singleton.mp hmem
        subst he
        rw [hp]
        exact ⟨min_le_right _ _, le_max_right _ _, min_le_right _ _, le_max_right _ _,
          min_le_right _ _, le_max_right _ _⟩
  have hsmall2 : ptSmall (if ids.isEmpty then p else extendLoP dl p) ∧
      ptSmall (if ids.isEmpty then p else extendHiP dh p) := by
    by_cases hemp : ids.isEmpty
    · rw [if_pos hemp, if_pos hemp]
      exact ⟨hpsmall, hpsmall⟩
    · rw [if_neg hemp, if_neg hemp]
      have hne : ids ≠ [] := fun hnil => hemp (by simp [hnil])
      obtain ⟨hslo, hshi⟩ := hsm hne
      exact ⟨ptSmall_extendLo hslo hpsmall, ptSmall_extendHi hshi hpsmall⟩
  simp only [Node.insertPt]
  by_cases hcond : maxPts < (ids ++ [pid]).length ∧ bigEnough lo hi fudge = true
  · rw [if_pos hcond]
    have hperm := filter_fin8_perm (fun id => childIndexOf lo hi (getPt P id)) (ids ++ [pid])
    refine ⟨hb, ?_, hsmall2, ?_, ?_,
      mkSubChild_WF hb hids2 0, mkSubChild_WF hb hids2 1, mkSubChild_WF hb hids2 2,
      mkSubChild_WF hb hids2 3, mkSubChild_WF hb hids2 4, mkSubChild_WF hb hids2 5,
      mkSubChild_WF hb hids2 6, mkSubChild_WF hb hids2 7⟩
    · intro id hid
      rw [splitNode_allIds] at hid
      have hmem : id ∈ ids ++ [pid] := hperm.mem_iff.mp hid
      exact ⟨(hids2 id hmem).1, (hids2 id hmem).2, hdata2 id hmem⟩
    · rw [Node.numPoints_eq_length, splitNode_allIds, hperm.length_eq]
      simp
    · intro i
      fin_cases i <;> exact ⟨rfl, rfl⟩
  · rw [if_neg hcond]
    exact ⟨hb, fun id hid => ⟨(hids2 id hid).1, (hids2 id hid).2, hdata2 id hid⟩,
      fun hne => hsmall2⟩

theorem insertInternal_WF_0 {P : PtStore} {pid : Int} {p : P3} (maxPts : Nat) (fudge : ℚ)
    (hpid : idOK P pid) (hp : getPt P pid = p) (lo hi dl dh : P3) (a b c d e f g hc : Node)
    (hwf : (Node.internal lo hi dl dh a b c d e f g hc).WF P)
    (hin : inBoxHO lo hi p = true) (hk : childIndexOf lo hi p = 0)
    (hwfk : (Node.insertPt P pid p maxPts fudge a).WF P) :
    ((Node.internal lo hi dl dh a b c d e f g hc).insertPt P pid p maxPts fudge).WF P := by
  have hb := hwf.1
  have hids := hwf.2.1
  have hdsm := hwf.2.2.1
  have hpsmall : ptSmall p := ptSmall_of_inBoxHO hb.2.2.2.1 hb.2.2.2.2 hin
  simp only [Node.insertPt]
  rw [hk]
  show Node.WF P (Node.internal lo hi (extendLoP dl p) (extendHiP dh p)
    (Node.insertPt P pid p maxPts fudge a) b c d e f g hc)
  have hperm := Node.insertPt_allIds_perm P pid p maxPts fudge a
  have hmm : ∀ x : Int, x ∈ (Node.internal lo hi (extendLoP dl p) (extendHiP dh p)
      (Node.insertPt P pid p maxPts fudge a) b c d e f g hc).allIds ↔
      x ∈ (Node.internal lo hi dl dh a b c d e f g hc).allIds ∨ x = pid := by
    intro x
    have hx := hperm.mem_iff (a := x)
    simp only [List.mem_append, List.mem_singleton] at hx
    simp only [Node.allIds, List.mem_append]
    rw [hx]
    tauto
  refine ⟨hb, ?_, ⟨ptSmall_extendLo hdsm.1 hpsmall, ptSmall_extendHi hdsm.2 hpsmall⟩,
    ?_, ?_, hwfk, (hwf.child 1), (hwf.child 2), (hwf.child 3), (hwf.child 4), (hwf.child 5), (hwf.child 6), (hwf.child 7)⟩
  · intro id hid
    rcases (hmm id).mp hid with hold | hpe
    · have ho := hids id hold
      have hcc := ho.2.2
      exact ⟨ho.1, ho.2.1,
        le_trans (min_le_left _ _) hcc.1, le_trans hcc.2.1 (le_max_left _ _),
        le_trans (min_le_left _ _) hcc.2.2.1,
        le_trans hcc.2.2.2.1 (le_max_left _ _),
        le_trans (min_le_left _ _) hcc.2.2.2.2.1,
        le_trans hcc.2.2.2.2.2 (le_max_left _ _)⟩
    · subst hpe
      rw [hp]
      exact ⟨hpid, hin, min_le_right _ _, le_max_right _ _, min_le_right _ _,
        le_max_right _ _, min_le_right _ _, le_max_right _ _⟩
  · rw [Node.numPoints_eq_length]
    exact List.length_pos.mpr (List.ne_nil_of_mem ((hmm pid).mpr (Or.inr rfl)))
  · intro i
    rcases fin8_cases i with hi | hi | hi | hi | hi | hi | hi | hi <;> subst hi
    · exact ⟨by rw [show ((Node.internal lo hi (extendLoP dl p) (extendHiP dh p)
          (Node.insertPt P pid p maxPts fudge a) b c d e f g hc).child 0).boxLo =
          (Node.insertPt P pid p maxPts fudge a).boxLo from rfl,
          Node.insertPt_boxLo]; exact (hwf.child_box 0).1,
        by rw [show ((Node.internal lo hi (extendLoP dl p) (extendHiP dh p)
          (Node.insertPt P pid p maxPts fudge a) b c d e f g hc).child 0).boxHi =
          (Node.insertPt P pid p maxPts fudge a).boxHi from rfl,
          Node.insertPt_boxHi]; exact (hwf.child_box 0).2⟩
    · exact hwf.child_box 1
    · exact hwf.child_box 2
    · exact hwf.child_box 3
    · exact hwf.child_box 4
    · exact hwf.child_box 5
    · exact hwf.child_box 6
    · exact hwf.child_box 7

theorem insertInternal_WF_1 {P : PtStore} {pid : Int} {p : P3} (maxPts : Nat) (fudge : ℚ)
    (hpid : idOK P pid) (hp : getPt P pid = p) (lo hi dl dh : P3) (a b c d e f g hc : Node)
    (hwf : (Node.internal lo hi dl dh a b c d e f g hc).WF P)
    (hin : inBoxHO lo hi p = true) (hk : childIndexOf lo hi p = 1)
    (hwfk : (Node.insertPt P pid p maxPts fudge b).WF P) :
    ((Node.internal lo hi dl dh a b c d e f g hc).insertPt P pid p maxPts fudge).WF P := by
  have hb := hwf.1
  have hids := hwf.2.1
  have hdsm := hwf.2.2.1
  have hpsmall : ptSmall p := ptSmall_of_inBoxHO hb.2.2.2.1 hb.2.2.2.2 hin
  simp only [Node.insertPt]
  rw [hk]
  show Node.WF P (Node.internal lo hi (extendLoP dl p) (extendHiP dh p)
    a (Node.insertPt P pid p maxPts fudge b) c d e f g hc)
  have hperm := Node.insertPt_allIds_perm P pid p maxPts fudge b
  have hmm : ∀ x : Int, x ∈ (Node.internal lo hi (extendLoP dl p) (extendHiP dh p)
      a (Node.insertPt P pid p maxPts fudge b) c d e f g hc).allIds ↔
      x ∈ (Node.internal lo hi dl dh a b c d e f g hc).allIds ∨ x = pid := by
    intro x
    have hx := hperm.mem_iff (a := x)
    simp only [List.mem_append, List.mem_singleton] at hx
    simp only [Node.allIds, List.mem_append]
    rw [hx]
    tauto
  refine ⟨hb, ?_, ⟨ptSmall_extendLo hdsm.1 hpsmall, ptSmall_extendHi hdsm.2 hpsmall⟩,
    ?_, ?_, (hwf.child 0), hwfk, (hwf.child 2), (hwf.child 3), (hwf.child 4), (hwf.child 5), (hwf.child 6), (hwf.child 7)⟩
  · intro id hid
    rcases (hmm id).mp hid with hold | hpe
    · have ho := hids id hold
      have hcc := ho.2.2
      exact ⟨ho.1, ho.2.1,
        le_trans (min_le_left _ _) hcc.1, le_trans hcc.2.1 (le_max_left _ _),
        le_trans (min_le_left _ _) hcc.2.2.1,
        le_trans hcc.2.2.2.1 (le_max_left _ _),
        le_trans (min_le_left _ _) hcc.2.2.2.2.1,
        le_trans hcc.2.2.2.2.2 (le_max_left _ _)⟩
    · subst hpe
      rw [hp]
      exact ⟨hpid, hin, min_le_right _ _, le_max_right _ _, min_le_right _ _,
        le_max_right _ _, min_le_right _ _, le_max_right _ _⟩
  · rw [Node.numPoints_eq_length]
    exact List.length_pos.mpr (List.ne_nil_of_mem ((hmm pid).mpr (Or.inr rfl)))
  · intro i
    rcases fin8_cases i with hi | hi | hi | hi | hi | hi | hi | hi <;> subst hi
    · exact hwf.child_box 0
    · exact ⟨by rw [show ((Node.internal lo hi (extendLoP dl p) (extendHiP dh p)
          a (Node.insertPt P pid p maxPts fudge b) c d e f g hc).child 1).boxLo =
          (Node.insertPt P pid p maxPts fudge b).boxLo from rfl,
          Node.insertPt_boxLo]; exact (hwf.child_box 1).1,
        by rw [show ((Node.internal lo hi (extendLoP dl p) (extendHiP dh p)
          a (Node.insertPt P pid p maxPts fudge b) c d e f g hc).child 1).boxHi =
          (Node.insertPt P pid p maxPts fudge b).boxHi from rfl,
          Node.insertPt_boxHi]; exact (hwf.child_box 1).2⟩
    · exact hwf.child_box 2
    · exact hwf.child_box 3
    · exact hwf.child_box 4
    · exact hwf.child_box 5
    · exact hwf.child_box 6
    · exact hwf.child_box 7

theorem insertInternal_WF_2 {P : PtStore} {pid : Int} {p : P3} (maxPts : Nat) (fudge : ℚ)
    (hpid : idOK P pid) (hp : getPt P pid = p) (lo hi dl dh : P3) (a b c d e f g hc : Node)
    (hwf : (Node.internal lo hi dl dh a b c d e f g hc).WF P)
    (hin : inBoxHO lo hi p = true) (hk : childIndexOf lo hi p = 2)
    (hwfk : (Node.insertPt P pid p maxPts fudge c).WF P) :
    ((Node.internal lo hi dl dh a b c d e f g hc).insertPt P pid p maxPts fudge).WF P := by
  have hb := hwf.1
  have hids := hwf.2.1
  have hdsm := hwf.2.2.1
  have hpsmall : ptSmall p := ptSmall_of_inBoxHO hb.2.2.2.1 hb.2.2.2.2 hin
  simp only [Node.insertPt]
  rw [hk]
  show Node.WF P (Node.internal lo hi (extendLoP dl p) (extendHiP dh p)
    a b (Node.insertPt P pid p maxPts fudge c) d e f g hc)
  have hperm := Node.insertPt_allIds_perm P pid p maxPts fudge c
  have hmm : ∀ x : Int, x ∈ (Node.internal lo hi (extendLoP dl p) (extendHiP dh p)
      a b (Node.insertPt P pid p maxPts fudge c) d e f g hc).allIds ↔
      x ∈ (Node.internal lo hi dl dh a b c d e f g hc).allIds ∨ x = pid := by
    intro x
    have hx := hperm.mem_iff (a := x)
    simp only [List.mem_append, List.mem_singleton] at hx
    simp only [Node.allIds, List.mem_append]
    rw [hx]
    tauto
  refine ⟨hb, ?_, ⟨ptSmall_extendLo hdsm.1 hpsmall, ptSmall_extendHi hdsm.2 hpsmall⟩,
    ?_, ?_, (hwf.child 0), (hwf.child 1), hwfk, (hwf.child 3), (hwf.child 4), (hwf.child 5), (hwf.child 6), (hwf.child 7)⟩
  · intro id hid
    rcases (hmm id).mp hid with hold | hpe
    · have ho := hids id hold
      have hcc := ho.2.2
      exact ⟨ho.1, ho.2.1,
        le_trans (min_le_left _ _) hcc.1, le_trans hcc.2.1 (le_max_left _ _),
        le_trans (min_le_left _ _) hcc.2.2.1,
        le_trans hcc.2.2.2.1 (le_max_left _ _),
        le_trans (min_le_left _ _) hcc.2.2.2.2.1,
        le_trans hcc.2.2.2.2.2 (le_max_left _ _)⟩
    · subst hpe
      rw [hp]
      exact ⟨hpid, hin, min_le_right _ _, le_max_right _ _, min_le_right _ _,
        le_max_right _ _, min_le_right _ _, le_max_right _ _⟩
  · rw [Node.numPoints_eq_length]
    exact List.length_pos.mpr (List.ne_nil_of_mem ((hmm pid).mpr (Or.inr rfl)))
  · intro i
    rcases fin8_cases i with hi | hi | hi | hi | hi | hi | hi | hi <;> subst hi
    · exact hwf.child_box 0
    · exact hwf.child_box 1
    · exact ⟨by rw [show ((Node.internal lo hi (extendLoP dl p) (extendHiP dh p)
          a b (Node.insertPt P pid p maxPts fudge c) d e f g hc).child 2).boxLo =
          (Node.insertPt P pid p maxPts fudge c).boxLo from rfl,
          Node.insertPt_boxLo]; exact (hwf.child_box 2).1,
        by rw [show ((Node.internal lo hi (extendLoP dl p) (extendHiP dh p)
          a b (Node.insertPt P pid p maxPts fudge c) d e f g hc).child 2).boxHi =
          (Node.insertPt P pid p maxPts fudge c).boxHi from rfl,
          Node.insertPt_boxHi]; exact (hwf.child_box 2).2⟩
    · exact hwf.child_box 3
    · exact hwf.child_box 4
    · exact hwf.child_box 5
    · exact hwf.child_box 6
    · exact hwf.child_box 7

theorem insertInternal_WF_3 {P : PtStore} {pid : Int} {p : P3} (maxPts : Nat) (fudge : ℚ)
    (hpid : idOK P pid) (hp : getPt P pid = p) (lo hi dl dh : P3) (a b c d e f g hc : Node)
    (hwf : (Node.internal lo hi dl dh a b c d e f g hc).WF P)
    (hin : inBoxHO lo hi p = true) (hk : childIndexOf lo hi p = 3)
    (hwfk : (Node.insertPt P pid p maxPts fudge d).WF P) :
    ((Node.internal lo hi dl dh a b c d e f g hc).insertPt P pid p maxPts fudge).WF P := by
  have hb := hwf.1
  have hids := hwf.2.1
  have hdsm := hwf.2.2.1
  have hpsmall : ptSmall p := ptSmall_of_inBoxHO hb.2.2.2.1 hb.2.2.2.2 hin
  simp only [Node.insertPt]
  rw [hk]
  show Node.WF P (Node.internal lo hi (extendLoP dl p) (extendHiP dh p)
    a b c (Node.insertPt P pid p maxPts fudge d) e f g hc)
  have hperm := Node.insertPt_allIds_perm P pid p maxPts fudge d
  have hmm : ∀ x : Int, x ∈ (Node.internal lo hi (extendLoP dl p) (extendHiP dh p)
      a b c (Node.insertPt P pid p maxPts fudge d) e f g hc).allIds ↔
      x ∈ (Node.internal lo hi dl dh a b c d e f g hc).allIds ∨ x = pid := by
    intro x
    have hx := hperm.mem_iff (a := x)
    simp only [List.mem_append, List.mem_singleton] at hx
    simp only [Node.allIds, List.mem_append]
    rw [hx]
    tauto
  refine ⟨hb, ?_, ⟨ptSmall_extendLo hdsm.1 hpsmall, ptSmall_extendHi hdsm.2 hpsmall⟩,
    ?_, ?_, (hwf.child 0), (hwf.child 1), (hwf.child 2), hwfk, (hwf.child 4), (hwf.child 5), (hwf.child 6), (hwf.child 7)⟩
  · intro id hid
    rcases (hmm id).mp hid with hold | hpe
    · have ho := hids id hold
      have hcc := ho.2.2
      exact ⟨ho.1, ho.2.1,
        le_trans (min_le_left _ _) hcc.1, le_trans hcc.2.1 (le_max_left _ _),
        le_trans (min_le_left _ _) hcc.2.2.1,
        le_trans hcc.2.2.2.1 (le_max_left _ _),
        le_trans (min_le_left _ _) hcc.2.2.2.2.1,
        le_trans hcc.2.2.2.2.2 (le_max_left _ _)⟩
    · subst hpe
      rw [hp]
      exact ⟨hpid, hin, min_le_right _ _, le_max_right _ _, min_le_right _ _,
        le_max_right _ _, min_le_right _ _, le_max_right _ _⟩
  · rw [Node.numPoints_eq_length]
    exact List.length_pos.mpr (List.ne_nil_of_mem ((hmm pid).mpr (Or.inr rfl)))
  · intro i
    rcases fin8_cases i with hi | hi | hi | hi | hi | hi | hi | hi <;> subst hi
    · exact hwf.child_box 0
    · exact hwf.child_box 1
    · exact hwf.child_box 2
    · exact ⟨by rw [show ((Node.internal lo hi (extendLoP dl p) (extendHiP dh p)
          a b c (Node.insertPt P pid p maxPts fudge d) e f g hc).child 3).boxLo =
          (Node.insertPt P pid p maxPts fudge d).boxLo from rfl,
          Node.insertPt_boxLo]; exact (hwf.child_box 3).1,
        by rw [show ((Node.internal lo hi (extendLoP dl p) (extendHiP dh p)
          a b c (Node.insertPt P pid p maxPts fudge d) e f g hc).child 3).boxHi =
          (Node.insertPt P pid p maxPts fudge d).boxHi from rfl,
          Node.insertPt_boxHi]; exact (hwf.child_box 3).2⟩
    · exact hwf.child_box 4
    · exact hwf.child_box 5
    · exact hwf.child_box 6
    · exact hwf.child_box 7

theorem insertInternal_WF_4 {P : PtStore} {pid : Int} {p : P3} (maxPts : Nat) (fudge : ℚ)
    (hpid : idOK P pid) (hp : getPt P pid = p) (lo hi dl dh : P3) (a b c d e f g hc : Node)
    (hwf : (Node.internal lo hi dl dh a b c d e f g hc).WF P)
    (hin : inBoxHO lo hi p = true) (hk : childIndexOf lo hi p = 4)
    (hwfk : (Node.insertPt P pid p maxPts fudge e).WF P) :
    ((Node.internal lo hi dl dh a b c d e f g hc).insertPt P pid p maxPts fudge).WF P := by
  have hb := hwf.1
  have hids := hwf.2.1
  have hdsm := hwf.2.2.1
  have hpsmall : ptSmall p := ptSmall_of_inBoxHO hb.2.2.2.1 hb.2.2.2.2 hin
  simp only [Node.insertPt]
  rw [hk]
  show Node.WF P (Node.internal lo hi (extendLoP dl p) (extendHiP dh p)
    a b c d (Node.insertPt P pid p maxPts fudge e) f g hc)
  have hperm := Node.insertPt_allIds_perm P pid p maxPts fudge e
  have hmm : ∀ x : Int, x ∈ (Node.internal lo hi (extendLoP dl p) (extendHiP dh p)
      a b c d (Node.insertPt P pid p maxPts fudge e) f g hc).allIds ↔
      x ∈ (Node.internal lo hi dl dh a b c d e f g hc).allIds ∨ x = pid := by
    intro x
    have hx := hperm.mem_iff (a := x)
    simp only [List.mem_append, List.mem_singleton] at hx
    simp only [Node.allIds, List.mem_append]
    rw [hx]
    tauto
  refine ⟨hb, ?_, ⟨ptSmall_extendLo hdsm.1 hpsmall, ptSmall_extendHi hdsm.2 hpsmall⟩,
    ?_, ?_, (hwf.child 0), (hwf.child 1), (hwf.child 2), (hwf.child 3), hwfk, (hwf.child 5), (hwf.child 6), (hwf.child 7)⟩
  · intro id hid
    rcases (hmm id).mp hid with hold | hpe
    · have ho := hids id hold
      have hcc := ho.2.2
      exact ⟨ho.1, ho.2.1,
        le_trans (min_le_left _ _) hcc.1, le_trans hcc.2.1 (le_max_left _ _),
        le_trans (min_le_left _ _) hcc.2.2.1,
        le_trans hcc.2.2.2.1 (le_max_left _ _),
        le_trans (min_le_left _ _) hcc.2.2.2.2.1,
        le_trans hcc.2.2.2.2.2 (le_max_left _ _)⟩
    · subst hpe
      rw [hp]
      exact ⟨hpid, hin, min_le_right _ _, le_max_right _ _, min_le_right _ _,
        le_max_right _ _, min_le_right _ _, le_max_right _ _⟩
  · rw [Node.numPoints_eq_length]
    exact List.length_pos.mpr (List.ne_nil_of_mem ((hmm pid).mpr (Or.inr rfl)))
  · intro i
    rcases fin8_cases i with hi | hi | hi | hi | hi | hi | hi | hi <;> subst hi
    · exact hwf.child_box 0
    · exact hwf.child_box 1
    · exact hwf.child_box 2
    · exact hwf.child_box 3
    · exact ⟨by rw [show ((Node.internal lo hi (extendLoP dl p) (extendHiP dh p)
          a b c d (Node.insertPt P pid p maxPts fudge e) f g hc).child 4).boxLo =
          (Node.insertPt P pid p maxPts fudge e).boxLo from rfl,
          Node.insertPt_boxLo]; exact (hwf.child_box 4).1,
        by rw [show ((Node.internal lo hi (extendLoP dl p) (extendHiP dh p)
          a b c d (Node.insertPt P pid p maxPts fudge e) f g hc).child 4).boxHi =
          (Node.insertPt P pid p maxPts fudge e).boxHi from rfl,
          Node.insertPt_boxHi]; exact (hwf.child_box 4).2⟩
    · exact hwf.child_box 5
    · exact hwf.child_box 6
    · exact hwf.child_box 7

theorem insertInternal_WF_5 {P : PtStore} {pid : Int} {p : P3} (maxPts : Nat) (fudge : ℚ)
    (hpid : idOK P pid) (hp : getPt P pid = p) (lo hi dl dh : P3) (a b c d e f g hc : Node)
    (hwf : (Node.internal lo hi dl dh a b c d e f g hc).WF P)
    (hin : inBoxHO lo hi p = true) (hk : childIndexOf lo hi p = 5)
    (hwfk : (Node.insertPt P pid p maxPts fudge f).WF P) :
    ((Node.internal lo hi dl dh a b c d e f g hc).insertPt P pid p maxPts fudge).WF P := by
  have hb := hwf.1
  have hids := hwf.2.1
  have hdsm := hwf.2.2.1
  have hpsmall : ptSmall p := ptSmall_of_inBoxHO hb.2.2.2.1 hb.2.2.2.2 hin
  simp only [Node.insertPt]
  rw [hk]
  show Node.WF P (Node.internal lo hi (extendLoP dl p) (extendHiP dh p)
    a b c d e (Node.insertPt P pid p maxPts fudge f) g hc)
  have hperm := Node.insertPt_allIds_perm P pid p maxPts fudge f
  have hmm : ∀ x : Int, x ∈ (Node.internal lo hi (extendLoP dl p) (extendHiP dh p)
      a b c d e (Node.insertPt P pid p maxPts fudge f) g hc).allIds ↔
      x ∈ (Node.internal lo hi dl dh a b c d e f g hc).allIds ∨ x = pid := by
    intro x
    have hx := hperm.mem_iff (a := x)
    simp only [List.mem_append, List.mem_singleton] at hx
    simp only [Node.allIds, List.mem_append]
    rw [hx]
    tauto
  refine ⟨hb, ?_, ⟨ptSmall_extendLo hdsm.1 hpsmall, ptSmall_extendHi hdsm.2 hpsmall⟩,
    ?_, ?_, (hwf.child 0), (hwf.child 1), (hwf.child 2), (hwf.child 3), (hwf.child 4), hwfk, (hwf.child 6), (hwf.child 7)⟩
  · intro id hid
    rcases (hmm id).mp hid with hold | hpe
    · have ho := hids id hold
      have hcc := ho.2.2
      exact ⟨ho.1, ho.2.1,
        le_trans (min_le_left _ _) hcc.1, le_trans hcc.2.1 (le_max_left _ _),
        le_trans (min_le_left _ _) hcc.2.2.1,
        le_trans hcc.2.2.2.1 (le_max_left _ _),
        le_trans (min_le_left _ _) hcc.2.2.2.2.1,
        le_trans hcc.2.2.2.2.2 (le_max_left _ _)⟩
    · subst hpe
      rw [hp]
      exact ⟨hpid, hin, min_le_right _ _, le_max_right _ _, min_le_right _ _,
        le_max_right _ _, min_le_right _ _, le_max_right _ _⟩
  · rw [Node.numPoints_eq_length]
    exact List.length_pos.mpr (List.ne_nil_of_mem ((hmm pid).mpr (Or.inr rfl)))
  · intro i
    rcases fin8_cases i with hi | hi | hi | hi | hi | hi | hi | hi <;> subst hi
    · exact hwf.child_box 0
    · exact hwf.child_box 1
    · exact hwf.child_box 2
    · exact hwf.child_box 3
    · exact hwf.child_box 4
    · exact ⟨by rw [show ((Node.internal lo hi (extendLoP dl p) (extendHiP dh p)
          a b c d e (Node.insertPt P pid p maxPts fudge f) g hc).child 5).boxLo =
          (Node.insertPt P pid p maxPts fudge f).boxLo from rfl,
          Node.insertPt_boxLo]; exact (hwf.child_box 5).1,
        by rw [show ((Node.internal lo hi (extendLoP dl p) (extendHiP dh p)
          a b c d e (Node.insertPt P pid p maxPts fudge f) g hc).child 5).boxHi =
          (Node.insertPt P pid p maxPts fudge f).boxHi from rfl,
          Node.insertPt_boxHi]; exact (hwf.child_box 5).2⟩
    · exact hwf.child_box 6
    · exact hwf.child_box 7

theorem insertInternal_WF_6 {P : PtStore} {pid : Int} {p : P3} (maxPts : Nat) (fudge : ℚ)
    (hpid : idOK P pid) (hp : getPt P pid = p) (lo hi dl dh : P3) (a b c d e f g hc : Node)
    (hwf : (Node.internal lo hi dl dh a b c d e f g hc).WF P)
    (hin : inBoxHO lo hi p = true) (hk : childIndexOf lo hi p = 6)
    (hwfk : (Node.insertPt P pid p maxPts fudge g).WF P) :
    ((Node.internal lo hi dl dh a b c d e f g hc).insertPt P pid p maxPts fudge).WF P := by
  have hb := hwf.1
  have hids := hwf.2.1
  have hdsm := hwf.2.2.1
  have hpsmall : ptSmall p := ptSmall_of_inBoxHO hb.2.2.2.1 hb.2.2.2.2 hin
  simp only [Node.insertPt]
  rw [hk]
  show Node.WF P (Node.internal lo hi (extendLoP dl p) (extendHiP dh p)
    a b c d e f (Node.insertPt P pid p maxPts fudge g) hc)
  have hperm := Node.insertPt_allIds_perm P pid p maxPts fudge g
  have hmm : ∀ x : Int, x ∈ (Node.internal lo hi (extendLoP dl p) (extendHiP dh p)
      a b c d e f (Node.insertPt P pid p maxPts fudge g) hc).allIds ↔
      x ∈ (Node.internal lo hi dl dh a b c d e f g hc).allIds ∨ x = pid := by
    intro x
    have hx := hperm.mem_iff (a := x)
    simp only [List.mem_append, List.mem_singleton] at hx
    simp only [Node.allIds, List.mem_append]
    rw [hx]
    tauto
  refine ⟨hb, ?_, ⟨ptSmall_extendLo hdsm.1 hpsmall, ptSmall_extendHi hdsm.2 hpsmall⟩,
    ?_, ?_, (hwf.child 0), (hwf.child 1), (hwf.child 2), (hwf.child 3), (hwf.child 4), (hwf.child 5), hwfk, (hwf.child 7)⟩
  · intro id hid
    rcases (hmm id).mp hid with hold | hpe
    · have ho := hids id hold
      have hcc := ho.2.2
      exact ⟨ho.1, ho.2.1,
        le_trans (min_le_left _ _) hcc.1, le_trans hcc.2.1 (le_max_left _ _),
        le_trans (min_le_left _ _) hcc.2.2.1,
        le_trans hcc.2.2.2.1 (le_max_left _ _),
        le_trans (min_le_left _ _) hcc.2.2.2.2.1,
        le_trans hcc.2.2.2.2.2 (le_max_left _ _)⟩
    · subst hpe
      rw [hp]
      exact ⟨hpid, hin, min_le_right _ _, le_max_right _ _, min_le_right _ _,
        le_max_right _ _, min_le_right _ _, le_max_right _ _⟩
  · rw [Node.numPoints_eq_length]
    exact List.length_pos.mpr (List.ne_nil_of_mem ((hmm pid).mpr (Or.inr rfl)))
  · intro i
    rcases fin8_cases i with hi | hi | hi | hi | hi | hi | hi | hi <;> subst hi
    · exact hwf.child_box 0
    · exact hwf.child_box 1
    · exact hwf.child_box 2
    · exact hwf.child_box 3
    · exact hwf.child_box 4
    · exact hwf.child_box 5
    · exact ⟨by rw [show ((Node.internal lo hi (extendLoP dl p) (extendHiP dh p)
          a b c d e f (Node.insertPt P pid p maxPts fudge g) hc).child 6).boxLo =
          (Node.insertPt P pid p maxPts fudge g).boxLo from rfl,
          Node.insertPt_boxLo]; exact (hwf.child_box 6).1,
        by rw [show ((Node.internal lo hi (extendLoP dl p) (extendHiP dh p)
          a b c d e f (Node.insertPt P pid p maxPts fudge g) hc).child 6).boxHi =
          (Node.insertPt P pid p maxPts fudge g).boxHi from rfl,
          Node.insertPt_boxHi]; exact (hwf.child_box 6).2⟩
    · exact hwf.child_box 7

theorem insertInternal_WF_7 {P : PtStore} {pid : Int} {p : P3} (maxPts : Nat) (fudge : ℚ)
    (hpid : idOK P pid) (hp : getPt P pid = p) (lo hi dl dh : P3) (a b c d e f g hc : Node)
    (hwf : (Node.internal lo hi dl dh a b c d e f g hc).WF P)
    (hin : inBoxHO lo hi p = true) (hk : childIndexOf lo hi p = 7)
    (hwfk : (Node.insertPt P pid p maxPts fudge hc).WF P) :
    ((Node.internal lo hi dl dh a b c d e f g hc).insertPt P pid p maxPts fudge).WF P := by
  have hb := hwf.1
  have hids := hwf.2.1
  have hdsm := hwf.2.2.1
  have hpsmall : ptSmall p := ptSmall_of_inBoxHO hb.2.2.2.1 hb.2.2.2.2 hin
  simp only [Node.insertPt]
  rw [hk]
  show Node.WF P (Node.internal lo hi (extendLoP dl p) (extendHiP dh p)
    a b c d e f g (Node.insertPt P pid p maxPts fudge hc))
  have hperm := Node.insertPt_allIds_perm P pid p maxPts fudge hc
  have hmm : ∀ x : Int, x ∈ (Node.internal lo hi (extendLoP dl p) (extendHiP dh p)
      a b c d e f g (Node.insertPt P pid p maxPts fudge hc)).allIds ↔
      x ∈ (Node.internal lo hi dl dh a b c d e f g hc).allIds ∨ x = pid := by
    intro x
    have hx := hperm.mem_iff (a := x)
    simp only [List.mem_append, List.mem_singleton] at hx
    simp only [Node.allIds, List.mem_append]
    rw [hx]
    tauto
  refine ⟨hb, ?_, ⟨ptSmall_extendLo hdsm.1 hpsmall, ptSmall_extendHi hdsm.2 hpsmall⟩,
    ?_, ?_, (hwf.child 0), (hwf.child 1), (hwf.child 2), (hwf.child 3), (hwf.child 4), (hwf.child 5), (hwf.child 6), hwfk⟩
  · intro id hid
    rcases (hmm id).mp hid with hold | hpe
    · have ho := hids id hold
      have hcc := ho.2.2
      exact ⟨ho.1, ho.2.1,
        le_trans (min_le_left _ _) hcc.1, le_trans hcc.2.1 (le_max_left _ _),
        le_trans (min_le_left _ _) hcc.2.2.1,
        le_trans hcc.2.2.2.1 (le_max_left _ _),
        le_trans (min_le_left _ _) hcc.2.2.2.2.1,
        le_trans hcc.2.2.2.2.2 (le_max_left _ _)⟩
    · subst hpe
      rw [hp]
      exact ⟨hpid, hin, min_le_right _ _, le_max_right _ _, min_le_right _ _,
        le_max_right _ _, min_le_right _ _, le_max_right _ _⟩
  · rw [Node.numPoints_eq_length]
    exact List.length_pos.mpr (List.ne_nil_of_mem ((hmm pid).mpr (Or.inr rfl)))
  · intro i
    rcases fin8_cases i with hi | hi | hi | hi | hi | hi | hi | hi <;> subst hi
    · exact hwf.child_box 0
    · exact hwf.child_box 1
    · exact hwf.child_box 2
    · exact hwf.child_box 3
    · exact hwf.child_box 4
    · exact hwf.child_box 5
    · exact hwf.child_box 6
    · exact ⟨by rw [show ((Node.internal lo hi (extendLoP dl p) (extendHiP dh p)
          a b c d e f g (Node.insertPt P pid p maxPts fudge hc)).child 7).boxLo =
          (Node.insertPt P pid p maxPts fudge hc).boxLo from rfl,
          Node.insertPt_boxLo]; exact (hwf.child_box 7).1,
        by rw [show ((Node.internal lo hi (extendLoP dl p) (extendHiP dh p)
          a b c d e f g (Node.insertPt P pid p maxPts fudge hc)).child 7).boxHi =
          (Node.insertPt P pid p maxPts fudge hc).boxHi from rfl,
          Node.insertPt_boxHi]; exact (hwf.child_box 7).2⟩

theorem Node.insertPt_WF {P : PtStore} {pid : Int} {p : P3} (maxPts : Nat) (fudge : ℚ)
    (hpid : idOK P pid) (hp : getPt P pid = p) :
    ∀ n : Node, n.WF P → inBoxHO n.boxLo n.boxHi p = true →
      (n.insertPt P pid p maxPts fudge).WF P := by
  intro n
  induction n with
  | leaf lo hi dl dh ids =>
    intro hwf hin
    exact insertLeaf_WF maxPts fudge hpid hp lo hi dl dh ids hwf hin
  | internal lo hi dl dh a b c d e f g hc iha ihb ihc2 ihd ihe ihf ihg ihh =>
    intro hwf hin
    have hkin : ∀ k : Fin 8, childIndexOf lo hi p = k →
        inBoxHO ((Node.internal lo hi dl dh a b c d e f g hc).child k).boxLo
          ((Node.internal lo hi dl dh a b c d e f g hc).child k).boxHi p = true := by
      intro k hk
      rw [(hwf.child_box k).1, (hwf.child_box k).2]
      have hmo := mem_octant_childIndexOf lo hi p hin
      rwa [hk] at hmo
    rcases fin8_cases (childIndexOf lo hi p) with hk | hk | hk | hk | hk | hk | hk | hk
    · exact insertInternal_WF_0 maxPts fudge hpid hp lo hi dl dh a b c d e f g hc hwf
        hin hk (iha (hwf.child 0) (hkin 0 hk))
    · exact insertInternal_WF_1 maxPts fudge hpid hp lo hi dl dh a b c d e f g hc hwf
        hin hk (ihb (hwf.child 1) (hkin 1 hk))
    · exact insertInternal_WF_2 maxPts fudge hpid hp lo hi dl dh a b c d e f g hc hwf
        hin hk (ihc2 (hwf.child 2) (hkin 2 hk))
    · exact insertInternal_WF_3 maxPts fudge hpid hp lo hi dl dh a b c d e f g hc hwf
        hin hk (ihd (hwf.child 3) (hkin 3 hk))
    · exact insertInternal_WF_4 maxPts fudge hpid hp lo hi dl dh a b c d e f g hc hwf
        hin hk (ihe (hwf.child 4) (hkin 4 hk))
    · exact insertInternal_WF_5 maxPts fudge hpid hp lo hi dl dh a b c d e f g hc hwf
        hin hk (ihf (hwf.child 5) (hkin 5 hk))
    · exact insertInternal_WF_6 maxPts fudge hpid hp lo hi dl dh a b c d e f g hc hwf
        hin hk (ihg (hwf.child 6) (hkin 6 hk))
    · exact insertInternal_WF_7 maxPts fudge hpid hp lo hi dl dh a b c d e f g hc hwf
        hin hk (ihh (hwf.child 7) (hkin 7 hk))

/-! ## The built locator is well-formed -/

/-- The root box computed by `InitPointInsertion` from the supplied bounds
(the same `initAxis` fix-up per axis), exposed as a function of the inputs. -/
def rootBoxOf (cubic : Bool) (bLo bHi : P3) : P3 × P3 :=
  let maxDim := max (max (max 0 (bHi.x - bLo.x)) (bHi.y - bLo.y)) (bHi.z - bLo.z)
  let fudge := maxDim * (1 / 100000)
  let minSide := maxDim * (1 / 10)
  let ax := initAxis cubic maxDim fudge minSide bLo.x bHi.x
  let ay := initAxis cubic maxDim fudge minSide bLo.y bHi.y
  let az := initAxis cubic maxDim fudge minSide bLo.z bHi.z
  (⟨ax.1, ay.1, az.1⟩, ⟨ax.2, ay.2, az.2⟩)

theorem initPointInsertion_root (st : Loc) (pts : PtStore) (bLo bHi : P3) :
    (initPointInsertion st pts bLo bHi).octreeRootNode =
      some (Node.leaf (rootBoxOf st.buildCubicOctree bLo bHi).1
        (rootBoxOf st.buildCubicOctree bLo bHi).2
        (rootBoxOf st.buildCubicOctree bLo bHi).2
        (rootBoxOf st.buildCubicOctree bLo bHi).1 []) := rfl

theorem initPointInsertion_points (st : Loc) (pts : PtStore) (bLo bHi : P3) :
    (initPointInsertion st pts bLo bHi).locatorPoints = pts := rfl

/-- The id list `[0, 1, ..., n-1]` as stored ids. -/
def rangeIds (n : Nat) : List Int := (List.range n).map Int.ofNat

theorem rangeIds_succ (n : Nat) : rangeIds (n + 1) = rangeIds n ++ [Int.ofNat n] := by
  unfold rangeIds
  rw [List.range_succ, List.map_append]
  rfl

theorem insertNextPt_inv {st : Loc} {root : Node} (hroot : st.octreeRootNode = some root)
    (hwf : root.WF st.locatorPoints)
    (hperm : root.allIds.Perm (rangeIds st.locatorPoints.length))
    {p : P3} (hin : inBoxHO root.boxLo root.boxHi p = true) :
    ∃ root' : Node, (st.insertNextPt p).octreeRootNode = some root' ∧
      root'.boxLo = root.boxLo ∧ root'.boxHi = root.boxHi ∧
      root'.WF (st.insertNextPt p).locatorPoints ∧
      root'.allIds.Perm (rangeIds (st.insertNextPt p).locatorPoints.length) ∧
      (st.insertNextPt p).locatorPoints = st.locatorPoints ++ [p] := by
  have hpts : (st.insertNextPt p).locatorPoints = st.locatorPoints ++ [p] := by
    unfold Loc.insertNextPt
    rw [hroot]
  have hrootnode : (st.insertNextPt p).octreeRootNode =
      some (root.insertPt (st.locatorPoints ++ [p]) (st.locatorPoints.length : Int) p
        st.maxPointsPerLeaf st.fudgeFactor) := by
    unfold Loc.insertNextPt
    rw [hroot]
  refine ⟨_, hrootnode, Node.insertPt_boxLo _ _ _ _ _ _, Node.insertPt_boxHi _ _ _ _ _ _,
    ?_, ?_, hpts⟩
  · rw [hpts]
    refine Node.insertPt_WF st.maxPointsPerLeaf st.fudgeFactor ?_ ?_ root
      (hwf.append [p]) hin
    · exact ⟨Int.natCast_nonneg _, by simp⟩
    · exact getPt_append_self _ _
  · rw [hpts]
    have h1 := Node.insertPt_allIds_perm (st.locatorPoints ++ [p])
      (st.locatorPoints.length : Int) p st.maxPointsPerLeaf st.fudgeFactor root
    refine h1.trans ?_
    rw [List.length_append]
    simp only [List.length_singleton]
    rw [rangeIds_succ]
    exact hperm.append_right _

theorem foldl_insertNextPt_inv (pts : List P3) :
    ∀ (st : Loc) (root : Node), st.octreeRootNode = some root →
      root.WF st.locatorPoints →
      root.allIds.Perm (rangeIds st.locatorPoints.length) →
      (∀ p ∈ pts, inBoxHO root.boxLo root.boxHi p = true) →
      ∃ root' : Node, (pts.foldl Loc.insertNextPt st).octreeRootNode = some root' ∧
        root'.boxLo = root.boxLo ∧ root'.boxHi = root.boxHi ∧
        root'.WF (pts.foldl Loc.insertNextPt st).locatorPoints ∧
        root'.allIds.Perm
          (rangeIds (pts.foldl Loc.insertNextPt st).locatorPoints.length) ∧
        (pts.foldl Loc.insertNextPt st).locatorPoints = st.locatorPoints ++ pts := by
  induction pts with
  | nil =>
    intro st root hroot hwf hperm hin
    exact ⟨root, hroot, rfl, rfl, hwf, hperm, by simp⟩
  | cons p rest ih =>
    intro st root hroot hwf hperm hin
    rw [List.foldl_cons]
    obtain ⟨root1, hr1, hbl1, hbh1, hwf1, hperm1, hpts1⟩ :=
      insertNextPt_inv hroot hwf hperm (hin p (List.mem_cons_self p rest))
    have hin1 : ∀ q ∈ rest, inBoxHO root1.boxLo root1.boxHi q = true := by
      intro q hq
      rw [hbl1, hbh1]
      exact hin q (List.mem_cons_of_mem p hq)
    obtain ⟨root2, hr2, hbl2, hbh2, hwf2, hperm2, hpts2⟩ :=
      ih (st.insertNextPt p) root1 hr1 hwf1 hperm1 hin1
    refine ⟨root2, hr2, by rw [hbl2, hbl1], by rw [hbh2, hbh1], hwf2, hperm2, ?_⟩
    rw [hpts2, hpts1, List.append_assoc]
    rfl

theorem buildLoc_WF (tol : ℚ) (maxPts : Nat) (cubic : Bool) (bLo bHi : P3)
    (pts : List P3)
    (hbox : boxOK (rootBoxOf cubic bLo bHi).1 (rootBoxOf cubic bLo bHi).2)
    (hin : ∀ p ∈ pts,
      inBoxHO (rootBoxOf cubic bLo bHi).1 (rootBoxOf cubic bLo bHi).2 p = true) :
    ∃ root : Node, (buildLoc tol maxPts cubic bLo bHi pts).octreeRootNode = some root ∧
      root.boxLo = (rootBoxOf cubic bLo bHi).1 ∧
      root.boxHi = (rootBoxOf cubic bLo bHi).2 ∧
      root.WF (buildLoc tol maxPts cubic bLo bHi pts).locatorPoints ∧
      root.allIds.Perm (rangeIds pts.length) ∧
      (buildLoc tol maxPts cubic bLo bHi pts).locatorPoints = pts := by
  unfold buildLoc
  have hroot := initPointInsertion_root (Loc.mk0 tol maxPts cubic) [] bLo bHi
  have hcu : (Loc.mk0 tol maxPts cubic).buildCubicOctree = cubic := rfl
  rw [hcu] at hroot
  have hwf0 : (Node.leaf (rootBoxOf cubic bLo bHi).1 (rootBoxOf cubic bLo bHi).2
      (rootBoxOf cubic bLo bHi).2 (rootBoxOf cubic bLo bHi).1 []).WF
      (initPointInsertion (Loc.mk0 tol maxPts cubic) [] bLo bHi).locatorPoints := by
    exact ⟨hbox, fun id hid => absurd hid (List.not_mem_nil id), fun hne => absurd rfl hne⟩
  obtain ⟨root, hr, hbl, hbh, hwf, hperm, hpts⟩ :=
    foldl_insertNextPt_inv pts _ _ hroot hwf0 (by exact List.Perm.refl []) hin
  rw [initPointInsertion_points] at hpts
  simp only [List.nil_append] at hpts
  refine ⟨root, hr, hbl, hbh, hwf, ?_, hpts⟩
  rw [hpts] at hperm
  exact hperm

instance (p : P3) : Decidable (ptSmall p) := by
  unfold ptSmall; infer_instance

instance (lo hi : P3) : Decidable (boxOK lo hi) := by
  unfold boxOK; infer_instance

theorem rangeIds_nodup (n : Nat) : (rangeIds n).Nodup := by
  unfold rangeIds
  exact (List.nodup_range n).map (fun a b hab => Int.ofNat.inj hab)

theorem mem_rangeIds {n : Nat} {x : Int} :
    x ∈ rangeIds n ↔ ∃ i : Nat, i < n ∧ x = Int.ofNat i := by
  unfold rangeIds
  simp only [List.mem_map, List.mem_range]
  constructor
  · rintro ⟨i, hi, rfl⟩
    exact ⟨i, hi, rfl⟩
  · rintro ⟨i, hi, rfl⟩
    exact ⟨i, hi, rfl⟩

/-- C2: on a tree built by insertions into the supplied world bounds,
`FindPointsWithinSquaredRadius(R2, q)` outputs exactly the set of stored ids
whose squared distance to the query is at most `R2`: the output exists (the
root is non-null), has no duplicate, contains a natural id iff it is a stored
id within reach, and contains only natural ids. -/
theorem findPointsWithinSquaredRadius_exact (tol : ℚ) (maxPts : Nat) (cubic : Bool)
    (bLo bHi : P3) (pts : List P3) (r2 : ℚ) (q : P3)
    (hbox : boxOK (rootBoxOf cubic bLo bHi).1 (rootBoxOf cubic bLo bHi).2)
    (hin : ∀ p ∈ pts,
      inBoxHO (rootBoxOf cubic bLo bHi).1 (rootBoxOf cubic bLo bHi).2 p = true) :
    ∃ out : List Int,
      findPointsWithinSquaredRadiusEntry (buildLoc tol maxPts cubic bLo bHi pts) r2 q =
        some out ∧
      out.Nodup ∧
      (∀ i : Nat, Int.ofNat i ∈ out ↔ i < pts.length ∧ dist2 (pts.getD i default) q ≤ r2) ∧
      (∀ x ∈ out, 0 ≤ x) := by
  obtain ⟨root, hr, hbl, hbh, hwf, hperm, hpts⟩ :=
    buildLoc_WF tol maxPts cubic bLo bHi pts hbox hin
  have hnodup : root.allIds.Nodup := hperm.nodup_iff.mpr (rangeIds_nodup pts.length)
  refine ⟨root.allIds.filter
      (fun id => decide (dist2 (getPt (buildLoc tol maxPts cubic bLo bHi pts).locatorPoints id) q ≤ r2)),
    ?_, hnodup.filter _, ?_, ?_⟩
  · unfold findPointsWithinSquaredRadiusEntry
    rw [hr]
    show some (fpwsrNode (buildLoc tol maxPts cubic bLo bHi pts).locatorPoints r2 q
      root []) = _
    rw [fpwsrNode_eq_filter root hwf []]
    rfl
  · intro i
    rw [List.mem_filter]
    constructor
    · rintro ⟨hmem, hdec⟩
      have hml := hperm.mem_iff.mp hmem
      obtain ⟨j, hj, hji⟩ := mem_rangeIds.mp hml
      have hij : i = j := Int.ofNat.inj hji
      subst hij
      refine ⟨hj, ?_⟩
      have := of_decide_eq_true hdec
      rw [hpts] at this
      unfold getPt at this
      simpa using this
    · rintro ⟨hi, hd⟩
      refine ⟨hperm.mem_iff.mpr (mem_rangeIds.mpr ⟨i, hi, rfl⟩), ?_⟩
      rw [decide_eq_true_eq, hpts]
      unfold getPt
      simpa using hd
  · intro x hx
    rw [List.mem_filter] at hx
    obtain ⟨j, hj, hji⟩ := mem_rangeIds.mp (hperm.mem_iff.mp hx.1)
    subst hji
    exact Int.natCast_nonneg j

theorem findPointsWithinSquaredRadius_exact_witness :
    ∃ out : List Int,
      findPointsWithinSquaredRadiusEntry
        (buildLoc 0 128 false ⟨0, 0, 0⟩ ⟨1, 1, 1⟩ [⟨1, 1, 1⟩]) 3 ⟨0, 0, 0⟩ = some out ∧
      out.Nodup ∧
      (∀ i : Nat, Int.ofNat i ∈ out ↔ i < [(⟨1, 1, 1⟩ : P3)].length ∧
        dist2 ([(⟨1, 1, 1⟩ : P3)].getD i default) ⟨0, 0, 0⟩ ≤ 3) ∧
      (∀ x ∈ out, 0 ≤ x) :=
  findPointsWithinSquaredRadius_exact 0 128 false ⟨0, 0, 0⟩ ⟨1, 1, 1⟩ [⟨1, 1, 1⟩] 3
    ⟨0, 0, 0⟩ (of_decide_eq_true (by with_unfolding_all rfl))
    (by
      intro p hp
      rw [List.mem_singleton] at hp
      subst hp
      with_unfolding_all rfl)

/-! ## Leaf scan characterization -/

theorem leafScanGo_cons (P : PtStore) (q : P3) (a : Int) (rest : List Int)
    (best : Int) (bd : ℚ) :
    leafScanGo P q (a :: rest) best bd =
      (if (if dist2 (getPt P a) q < bd then dist2 (getPt P a) q else bd) = 0
        then (if dist2 (getPt P a) q < bd then a else best,
              if dist2 (getPt P a) q < bd then dist2 (getPt P a) q else bd)
        else leafScanGo P q rest (if dist2 (getPt P a) q < bd then a else best)
          (if dist2 (getPt P a) q < bd then dist2 (getPt P a) q else bd)) := rfl

theorem leafScanGo_le_init (P : PtStore) (q : P3) (ids : List Int) :
    ∀ best bd, (leafScanGo P q ids best bd).2 ≤ bd := by
  induction ids with
  | nil => exact fun best bd => le_refl bd
  | cons a rest ih =>
    intro best bd
    rw [leafScanGo_cons]
    by_cases hlt : dist2 (getPt P a) q < bd
    · simp only [if_pos hlt]
      by_cases h0 : dist2 (getPt P a) q = 0
      · rw [if_pos h0]
        exact le_of_lt hlt
      · rw [if_neg h0]
        exact le_trans (ih a (dist2 (getPt P a) q)) (le_of_lt hlt)
    · simp only [if_neg hlt]
      by_cases h0 : bd = 0
      · rw [if_pos h0]
      · rw [if_neg h0]
        exact ih best bd

theorem leafScanGo_lb (P : PtStore) (q : P3) (ids : List Int) :
    ∀ best bd, ∀ id ∈ ids, (leafScanGo P q ids best bd).2 ≤ dist2 (getPt P id) q := by
  induction ids with
  | nil => intro best bd id hid; exact absurd hid (List.not_mem_nil id)
  | cons a rest ih =>
    intro best bd id hid
    rw [leafScanGo_cons]
    by_cases hlt : dist2 (getPt P a) q < bd
    · simp only [if_pos hlt]
      by_cases h0 : dist2 (getPt P a) q = 0
      · rw [if_pos h0, h0]
        exact dist2_nonneg _ _
      · rw [if_neg h0]
        rcases List.mem_cons.mp hid with he | hmem
        · subst he
          exact leafScanGo_le_init P q rest _ _
        · exact ih a (dist2 (getPt P a) q) id hmem
    · simp only [if_neg hlt]
      by_cases h0 : bd = 0
      · rw [if_pos h0]
        rw [h0]
        exact dist2_nonneg _ _
      · rw [if_neg h0]
        rcases List.mem_cons.mp hid with he | hmem
        · subst he
          exact le_trans (leafScanGo_le_init P q rest best bd) (le_of_not_lt hlt)
        · exact ih best bd id hmem

theorem leafScanGo_achieve (P : PtStore) (q : P3) (ids : List Int) :
    ∀ best bd, leafScanGo P q ids best bd = (best, bd) ∨
      ((leafScanGo P q ids best bd).1 ∈ ids ∧
        (leafScanGo P q ids best bd).2 =
          dist2 (getPt P (leafScanGo P q ids best bd).1) q) := by
  induction ids with
  | nil => exact fun best bd => Or.inl rfl
  | cons a rest ih =>
    intro best bd
    rw [leafScanGo_cons]
    by_cases hlt : dist2 (getPt P a) q < bd
    · simp only [if_pos hlt]
      by_cases h0 : dist2 (getPt P a) q = 0
      · rw [if_pos h0]
        exact Or.inr ⟨List.mem_cons_self a rest, rfl⟩
      · rw [if_neg h0]
        rcases ih a (dist2 (getPt P a) q) with he | hr
        · rw [he]
          exact Or.inr ⟨List.mem_cons_self a rest, rfl⟩
        · exact Or.inr ⟨List.mem_cons_of_mem a hr.1, hr.2⟩
    · simp only [if_neg hlt]
      by_cases h0 : bd = 0
      · rw [if_pos h0]
        exact Or.inl rfl
      · rw [if_neg h0]
        rcases ih best bd with he | hr
        · rw [he]
          exact Or.inl rfl
        · exact Or.inr ⟨List.mem_cons_of_mem a hr.1, hr.2⟩

/-! ## The pruned sphere search -/

/-- An id is masked when it lies under the node the mask path points at. -/
def maskMem (root : Node) (mask : Option (List (Fin 8))) (id : Int) : Prop :=
  ∃ mp, mask = some mp ∧ id ∈ (root.descend mp).allIds

theorem mem_pushChildren {path : List (Fin 8)} {n : Node} {keep : Fin 8 → Bool}
    {e : PathNode} :
    e ∈ pushChildren path n keep ↔
      ∃ i : Fin 8, keep i = true ∧ e = (path ++ [i], n.child i) := by
  unfold pushChildren
  rw [List.mem_map]
  constructor
  · rintro ⟨i, hi, rfl⟩
    rw [List.mem_filter] at hi
    exact ⟨i, hi.2, rfl⟩
  · rintro ⟨i, hk, rfl⟩
    exact ⟨i, List.mem_filter.mpr ⟨List.mem_finRange i, hk⟩, rfl⟩

theorem sphereKeep_false_cases {root : Node} {q : P3} {radius2 : ℚ}
    {mask : Option (List (Fin 8))} {refv : ℚ} {path : List (Fin 8)} {n : Node}
    {i : Fin 8} (h : sphereKeep root q radius2 mask refv path n i = false) :
    some (path ++ [i]) = mask ∨
      (¬ ((if (n.child i).numPoints ≠ 0 then (n.child i).dist2ToBoundaryData q root
          else radius2 + radius2) ≤ refv) ∧ (n.child i).containsPoint q = false) := by
  by_cases hm : some (path ++ [i]) = mask
  · exact Or.inl hm
  · right
    unfold sphereKeep at h
    rw [decide_eq_true hm, Bool.true_and] at h
    rcases Bool.or_eq_false_iff.mp h with ⟨h1, h2⟩
    exact ⟨of_decide_eq_false h1, h2⟩

set_option maxHeartbeats 1600000

theorem sphereGo_master {P : PtStore} {root : Node} {q : P3} {radius2 : ℚ}
    {mask : Option (List (Fin 8))} {aliased : Bool} {refFixed : ℚ} {B : ℚ}
    (hwf : root.WF P) :
    ∀ N : Nat, ∀ stack : List PathNode, ∀ best : Int × ℚ, stackSize stack ≤ N →
      (∀ e ∈ stack, root.descend e.1 = e.2) →
      ((best.1 = -1 ∧ (best.2 = B ∨ best.2 = svtkDoubleMax)) ∨
        (0 ≤ best.1 ∧ best.1.toNat < P.length ∧ best.1 ∈ root.allIds ∧
          best.2 = dist2 (getPt P best.1) q)) →
      (∀ id ∈ root.allIds, ¬ maskMem root mask id →
        best.2 ≤ dist2 (getPt P id) q ∨
          (aliased = false ∧ refFixed < dist2 (getPt P id) q) ∨
          ∃ e ∈ stack, id ∈ e.2.allIds) →
      (sphereGo P root q radius2 mask aliased refFixed stack best).2 ≤ best.2 ∧
      (((sphereGo P root q radius2 mask aliased refFixed stack best).1 = -1 ∧
          ((sphereGo P root q radius2 mask aliased refFixed stack best).2 = B ∨
            (sphereGo P root q radius2 mask aliased refFixed stack best).2 = svtkDoubleMax)) ∨
        (0 ≤ (sphereGo P root q radius2 mask aliased refFixed stack best).1 ∧
          (sphereGo P root q radius2 mask aliased refFixed stack best).1.toNat < P.length ∧
          (sphereGo P root q radius2 mask aliased refFixed stack best).1 ∈ root.allIds ∧
          (sphereGo P root q radius2 mask aliased refFixed stack best).2 =
            dist2 (getPt P (sphereGo P root q radius2 mask aliased refFixed stack best).1) q)) ∧
      (∀ id ∈ root.allIds, ¬ maskMem root mask id →
        (sphereGo P root q radius2 mask aliased refFixed stack best).2 ≤
            dist2 (getPt P id) q ∨
          (aliased = false ∧ refFixed < dist2 (getPt P id) q)) := by
  intro N
  induction N with
  | zero =>
    intro stack best hsz hreach hbest hcov
    cases stack with
    | nil =>
      rw [sphereGo_nil]
      refine ⟨le_refl _, hbest, ?_⟩
      intro id hid hm
      rcases hcov id hid hm with h1 | h2 | ⟨e2, he2, hmem⟩
      · exact Or.inl h1
      · exact Or.inr h2
      · exact absurd he2 (List.not_mem_nil e2)
    | cons e rest =>
      exfalso
      rw [stackSize_cons] at hsz
      have := Node.size_pos e.2
      omega
  | succ N ih =>
    intro stack best hsz hreach hbest hcov
    cases stack with
    | nil =>
      rw [sphereGo_nil]
      refine ⟨le_refl _, hbest, ?_⟩
      intro id hid hm
      rcases hcov id hid hm with h1 | h2 | ⟨e2, he2, hmem⟩
      · exact Or.inl h1
      · exact Or.inr h2
      · exact absurd he2 (List.not_mem_nil e2)
    | cons e rest =>
      obtain ⟨path, n⟩ := e
      by_cases hpos : 0 < best.2
      · cases n with
        | leaf l hh dl dh ids =>
          rw [sphereGo_leaf P root q radius2 mask aliased refFixed path l hh dl dh ids
            rest best hpos]
          have hreach0 : root.descend path = Node.leaf l hh dl dh ids :=
            hreach _ (List.mem_cons_self _ _)
          have hsub : ∀ id ∈ ids, id ∈ root.allIds := by
            intro id hid
            refine Node.descend_allIds_subset root path id ?_
            rw [hreach0]
            exact hid
          have hach : findClosestPointInLeafNode P q (.leaf l hh dl dh ids) =
              (-1, svtkDoubleMax) ∨
              ((findClosestPointInLeafNode P q (.leaf l hh dl dh ids)).1 ∈ ids ∧
                (findClosestPointInLeafNode P q (.leaf l hh dl dh ids)).2 =
                  dist2 (getPt P (findClosestPointInLeafNode P q
                    (.leaf l hh dl dh ids)).1) q) :=
            leafScanGo_achieve P q ids (-1) svtkDoubleMax
          have hlb : ∀ id ∈ ids, (findClosestPointInLeafNode P q
              (.leaf l hh dl dh ids)).2 ≤ dist2 (getPt P id) q :=
            fun id hid => leafScanGo_lb P q ids (-1) svtkDoubleMax id hid
          have hble : (if (findClosestPointInLeafNode P q
              (.leaf l hh dl dh ids)).2 < best.2
              then findClosestPointInLeafNode P q (.leaf l hh dl dh ids) else best).2 ≤
              best.2 := by
            split_ifs with hplt
            · exact le_of_lt hplt
            · exact le_refl _
          have hb2s : (if (findClosestPointInLeafNode P q
              (.leaf l hh dl dh ids)).2 < best.2
              then findClosestPointInLeafNode P q (.leaf l hh dl dh ids) else best).2 ≤
              (findClosestPointInLeafNode P q (.leaf l hh dl dh ids)).2 := by
            split_ifs with hplt
            · exact le_refl _
            · exact le_of_not_lt hplt
          have hbest' : ((if (findClosestPointInLeafNode P q
              (.leaf l hh dl dh ids)).2 < best.2
              then findClosestPointInLeafNode P q (.leaf l hh dl dh ids) else best).1 = -1 ∧
              ((if (findClosestPointInLeafNode P q (.leaf l hh dl dh ids)).2 < best.2
                then findClosestPointInLeafNode P q (.leaf l hh dl dh ids) else best).2 = B ∨
               (if (findClosestPointInLeafNode P q (.leaf l hh dl dh ids)).2 < best.2
                then findClosestPointInLeafNode P q (.leaf l hh dl dh ids) else best).2 =
                  svtkDoubleMax)) ∨
              (0 ≤ (if (findClosestPointInLeafNode P q (.leaf l hh dl dh ids)).2 < best.2
                then findClosestPointInLeafNode P q (.leaf l hh dl dh ids) else best).1 ∧
               (if (findClosestPointInLeafNode P q (.leaf l hh dl dh ids)).2 < best.2
                then findClosestPointInLeafNode P q (.leaf l hh dl dh ids) else best).1.toNat <
                  P.length ∧
               (if (findClosestPointInLeafNode P q (.leaf l hh dl dh ids)).2 < best.2
                then findClosestPointInLeafNode P q (.leaf l hh dl dh ids) else best).1 ∈
                  root.allIds ∧
               (if (findClosestPointInLeafNode P q (.leaf l hh dl dh ids)).2 < best.2
                then findClosestPointInLeafNode P q (.leaf l hh dl dh ids) else best).2 =
                dist2 (getPt P (if (findClosestPointInLeafNode P q
                  (.leaf l hh dl dh ids)).2 < best.2
                  then findClosestPointInLeafNode P q (.leaf l hh dl dh ids) else best).1) q) := by
            split_ifs with hplt
            · rcases hach with hse | hsr
              · rw [hse]
                exact Or.inl ⟨rfl, Or.inr rfl⟩
              · right
                have hmem : (findClosestPointInLeafNode P q
                    (.leaf l hh dl dh ids)).1 ∈ root.allIds := hsub _ hsr.1
                have hok := (hwf.ids _ hmem).1
                exact ⟨hok.1, hok.2, hmem, hsr.2⟩
            · exact hbest
          have hcov' : ∀ id ∈ root.allIds, ¬ maskMem root mask id →
              (if (findClosestPointInLeafNode P q (.leaf l hh dl dh ids)).2 < best.2
                then findClosestPointInLeafNode P q (.leaf l hh dl dh ids) else best).2 ≤
                  dist2 (getPt P id) q ∨
                (aliased = false ∧ refFixed < dist2 (getPt P id) q) ∨
                ∃ e ∈ rest, id ∈ e.2.allIds := by
            intro id hid hm
            rcases hcov id hid hm with h1 | h2 | ⟨e2, he2, hmem⟩
            · exact Or.inl (le_trans hble h1)
            · exact Or.inr (Or.inl h2)
            · rcases List.mem_cons.mp he2 with he | hr
              · subst he
                exact Or.inl (le_trans hb2s (hlb id hmem))
              · exact Or.inr (Or.inr ⟨e2, hr, hmem⟩)
          have hsz' : stackSize rest ≤ N := by
            rw [stackSize_cons] at hsz
            have hone : (Node.leaf l hh dl dh ids).size = 1 := rfl
            simp only [hone] at hsz
            omega
          obtain ⟨c1, c2, c3⟩ := ih rest _ hsz'
            (fun e2 he2 => hreach e2 (List.mem_cons_of_mem _ he2)) hbest' hcov'
          exact ⟨le_trans c1 hble, c2, c3⟩
        | internal l hh dl dh a b c d e f g hc =>
          rw [sphereGo_internal P root q radius2 mask aliased refFixed path l hh dl dh
            a b c d e f g hc rest best hpos]
          have hreach0 : root.descend path = Node.internal l hh dl dh a b c d e f g hc :=
            hreach _ (List.mem_cons_self _ _)
          have hwfN : (Node.internal l hh dl dh a b c d e f g hc).WF P := by
            have hd := hwf.descend path
            rwa [hreach0] at hd
          have hsz' : stackSize ((pushChildren path (.internal l hh dl dh a b c d e f g hc)
              (sphereKeep root q radius2 mask (if aliased then best.2 else refFixed) path
                (Node.internal l hh dl dh a b c d e f g hc))).reverse ++ rest) ≤ N := by
            have hlt := stackSize_push_rev_append_lt path
              (sphereKeep root q radius2 mask (if aliased then best.2 else refFixed) path
                (Node.internal l hh dl dh a b c d e f g hc)) l hh dl dh a b c d e f g hc rest
            rw [stackSize_cons] at hsz
            have hj : (path, Node.internal l hh dl dh a b c d e f g hc).2.size =
                (Node.internal l hh dl dh a b c d e f g hc).size := rfl
            omega
          have hreach' : ∀ e2 ∈ (pushChildren path
              (.internal l hh dl dh a b c d e f g hc)
              (sphereKeep root q radius2 mask (if aliased then best.2 else refFixed) path
                (Node.internal l hh dl dh a b c d e f g hc))).reverse ++ rest,
              root.descend e2.1 = e2.2 := by
            intro e2 he2
            rcases List.mem_append.mp he2 with hp | hr
            · rw [List.mem_reverse] at hp
              obtain ⟨i, hk, rfl⟩ := mem_pushChildren.mp hp
              rw [Node.descend_append, hreach0]
            · exact hreach e2 (List.mem_cons_of_mem _ hr)
          have hcov' : ∀ id ∈ root.allIds, ¬ maskMem root mask id →
              best.2 ≤ dist2 (getPt P id) q ∨
                (aliased = false ∧ refFixed < dist2 (getPt P id) q) ∨
                ∃ e2 ∈ (pushChildren path (.internal l hh dl dh a b c d e f g hc)
                  (sphereKeep root q radius2 mask (if aliased then best.2 else refFixed) path
                    (Node.internal l hh dl dh a b c d e f g hc))).reverse ++ rest,
                  id ∈ e2.2.allIds := by
            intro id hid hm
            rcases hcov id hid hm with h1 | h2 | ⟨e2, he2, hmem⟩
            · exact Or.inl h1
            · exact Or.inr (Or.inl h2)
            · rcases List.mem_cons.mp he2 with he | hr
              · subst he
                obtain ⟨j, hj⟩ := Node.mem_allIds_cases hmem
                by_cases hkp : sphereKeep root q radius2 mask
                    (if aliased then best.2 else refFixed) path
                    (Node.internal l hh dl dh a b c d e f g hc) j = true
                · refine Or.inr (Or.inr ⟨(path ++ [j],
                    (Node.internal l hh dl dh a b c d e f g hc).child j), ?_, hj⟩)
                  refine List.mem_append.mpr (Or.inl ?_)
                  rw [List.mem_reverse]
                  exact mem_pushChildren.mpr ⟨j, hkp, rfl⟩
                · have hkf : sphereKeep root q radius2 mask
                      (if aliased then best.2 else refFixed) path
                      (Node.internal l hh dl dh a b c d e f g hc) j = false := by
                    revert hkp
                    cases sphereKeep root q radius2 mask
                      (if aliased then best.2 else refFixed) path
                      (Node.internal l hh dl dh a b c d e f g hc) j <;> simp
                  rcases sphereKeep_false_cases hkf with hmaskj | ⟨hnle, hcont⟩
                  · exfalso
                    refine hm ⟨path ++ [j], hmaskj.symm, ?_⟩
                    rw [Node.descend_append, hreach0]
                    exact hj
                  · by_cases hnp :
                        ((Node.internal l hh dl dh a b c d e f g hc).child j).numPoints ≠ 0
                    · rw [if_pos hnp] at hnle
                      have hdtd : (if aliased then best.2 else refFixed) <
                          ((Node.internal l hh dl dh a b c d e f g hc).child
                            j).dist2ToBoundaryData q root := lt_of_not_le hnle
                      have hwfj := hwfN.child j
                      have hdata := (hwfj.ids id hj).2.2
                      have hlow := @dist2PtBox_le q
                        ((Node.internal l hh dl dh a b c d e f g hc).child j).dataLo
                        ((Node.internal l hh dl dh a b c d e f g hc).child j).dataHi
                        root.boxLo root.boxHi (getPt P id) hdata
                      have hdd : ((Node.internal l hh dl dh a b c d e f g hc).child
                          j).dist2ToBoundaryData q root ≤ dist2 (getPt P id) q := by
                        unfold Node.dist2ToBoundaryData
                        rw [if_neg (by omega : ¬ ((Node.internal l hh dl dh
                          a b c d e f g hc).child j).numPoints = 0)]
                        rw [dist2_comm]
                        exact hlow
                      have hfin : (if aliased then best.2 else refFixed) <
                          dist2 (getPt P id) q := lt_of_lt_of_le hdtd hdd
                      rcases Bool.eq_false_or_eq_true aliased with hal | hal
                      · rw [hal] at hfin
                        simp only [if_true] at hfin
                        exact Or.inl (le_of_lt hfin)
                      · rw [hal] at hfin
                        simp only [Bool.false_eq_true, if_false] at hfin
                        exact Or.inr (Or.inl ⟨hal, hfin⟩)
                    · exfalso
                      have hz : ((Node.internal l hh dl dh a b c d e f g hc).child
                          j).numPoints = 0 := by omega
                      have hnil := (Node.numPoints_zero_iff _).mp hz
                      rw [hnil] at hj
                      exact absurd hj (List.not_mem_nil id)
              · exact Or.inr (Or.inr ⟨e2, List.mem_append.mpr (Or.inr hr), hmem⟩)
          exact ih _ best hsz' hreach' hbest hcov'
      · rw [sphereGo_stop P root q radius2 mask aliased refFixed (path, n) rest best hpos]
        refine ⟨le_refl _, hbest, ?_⟩
        intro id hid hm
        exact Or.inl (le_trans (le_of_not_lt hpos) (dist2_nonneg _ _))

set_option maxHeartbeats 200000

theorem fcpsWithoutTol_spec {P : PtStore} {root : Node} {q : P3} (radius2 : ℚ)
    (mask : Option (List (Fin 8))) (hwf : root.WF P) :
    (findClosestPointInSphereWithoutTolerance P root q radius2 mask).2 ≤
        radius2 * (11 / 10) ∧
    (((findClosestPointInSphereWithoutTolerance P root q radius2 mask).1 = -1 ∧
        ((findClosestPointInSphereWithoutTolerance P root q radius2 mask).2 =
            radius2 * (11 / 10) ∨
          (findClosestPointInSphereWithoutTolerance P root q radius2 mask).2 =
            svtkDoubleMax ∨
          radius2 < (findClosestPointInSphereWithoutTolerance P root q radius2 mask).2)) ∨
      (0 ≤ (findClosestPointInSphereWithoutTolerance P root q radius2 mask).1 ∧
        (findClosestPointInSphereWithoutTolerance P root q radius2 mask).1.toNat <
          P.length ∧
        (findClosestPointInSphereWithoutTolerance P root q radius2 mask).1 ∈
          root.allIds ∧
        (findClosestPointInSphereWithoutTolerance P root q radius2 mask).2 =
          dist2 (getPt P
            (findClosestPointInSphereWithoutTolerance P root q radius2 mask).1) q ∧
        (findClosestPointInSphereWithoutTolerance P root q radius2 mask).2 ≤ radius2)) ∧
    (∀ id ∈ root.allIds, ¬ maskMem root mask id →
      (findClosestPointInSphereWithoutTolerance P root q radius2 mask).2 ≤
        dist2 (getPt P id) q) := by
  obtain ⟨c1, c2, c3⟩ := @sphereGo_master P root q radius2 mask true 0
    (radius2 * (11 / 10)) hwf
    (stackSize [([], root)]) [([], root)] (-1, radius2 * (11 / 10)) (le_refl _)
    (by
      intro e he
      rw [List.mem_singleton] at he
      subst he
      rfl)
    (Or.inl ⟨rfl, Or.inl rfl⟩)
    (by
      intro id hid hm
      exact Or.inr (Or.inr ⟨([], root), List.mem_singleton.mpr rfl, hid⟩))
  have hr2 : (findClosestPointInSphereWithoutTolerance P root q radius2 mask).2 =
      (sphereGo P root q radius2 mask true 0 [([], root)] (-1, radius2 * (11 / 10))).2 := rfl
  have hr1 : (findClosestPointInSphereWithoutTolerance P root q radius2 mask).1 =
      if (sphereGo P root q radius2 mask true 0 [([], root)]
          (-1, radius2 * (11 / 10))).2 ≤ radius2
        then (sphereGo P root q radius2 mask true 0 [([], root)]
          (-1, radius2 * (11 / 10))).1
        else -1 := rfl
  refine ⟨by rw [hr2]; exact c1, ?_, ?_⟩
  · rw [hr1, hr2]
    by_cases hle : (sphereGo P root q radius2 mask true 0 [([], root)]
        (-1, radius2 * (11 / 10))).2 ≤ radius2
    · rw [if_pos hle]
      rcases c2 with ⟨hm1, hm2⟩ | ⟨hv1, hv2, hv3, hv4⟩
      · refine Or.inl ⟨hm1, ?_⟩
        rcases hm2 with h | h
        · exact Or.inl h
        · exact Or.inr (Or.inl h)
      · exact Or.inr ⟨hv1, hv2, hv3, hv4, hle⟩
    · rw [if_neg hle]
      exact Or.inl ⟨rfl, Or.inr (Or.inr (lt_of_not_le hle))⟩
  · intro id hid hm
    rw [hr2]
    rcases c3 id hid hm with h | ⟨hfalse, _⟩
    · exact h
    · exact absurd hfalse (by simp)

theorem sq_le_lo {a u v : ℚ} (h1 : v ≤ a) (h2 : a < u) :
    (u - a) ^ 2 ≤ (u - v) ^ 2 := by nlinarith

theorem sq_le_hi {b u v : ℚ} (h1 : u ≤ b) (h2 : b < v) :
    (u - b) ^ 2 ≤ (u - v) ^ 2 := by nlinarith

theorem dist2_ge_x (q y : P3) : (q.x - y.x) ^ 2 ≤ dist2 q y := by
  unfold dist2
  nlinarith [sq_nonneg (q.y - y.y), sq_nonneg (q.z - y.z)]

theorem dist2_ge_y (q y : P3) : (q.y - y.y) ^ 2 ≤ dist2 q y := by
  unfold dist2
  nlinarith [sq_nonneg (q.x - y.x), sq_nonneg (q.z - y.z)]

theorem dist2_ge_z (q y : P3) : (q.z - y.z) ^ 2 ≤ dist2 q y := by
  unfold dist2
  nlinarith [sq_nonneg (q.x - y.x), sq_nonneg (q.y - y.y)]

theorem inner_boundary_le {P : PtStore} {root : Node} (hwf : root.WF P)
    (path : List (Fin 8)) {q y : P3}
    (hq : inBoxHO (root.descend path).boxLo (root.descend path).boxHi q = true)
    (hyroot : inBoxHO root.boxLo root.boxHi y = true)
    (hynot : ¬ inBoxHO (root.descend path).boxLo (root.descend path).boxHi y = true) :
    (root.descend path).dist2ToInnerBoundary q root ≤ dist2 q y := by
  have hnest := hwf.descend_box_nested path
  rw [inBoxHO_iff] at hq hyroot
  obtain ⟨hq1, hq2, hq3, hq4, hq5, hq6⟩ := hq
  obtain ⟨hy1, hy2, hy3, hy4, hy5, hy6⟩ := hyroot
  unfold Node.dist2ToInnerBoundary
  by_cases hx1 : (root.descend path).boxLo.x < y.x
  case neg =>
    have hxx : y.x ≤ (root.descend path).boxLo.x := le_of_not_lt hx1
    have hne : (root.descend path).boxLo.x ≠ root.boxLo.x :=
      fun he => absurd (he ▸ hy1) (not_lt.mpr (he ▸ hxx))
    refine le_trans (innerFaceMin_le_acc _ _ _ _ _ _) ?_
    refine le_trans (innerFaceMin_le_acc _ _ _ _ _ _) ?_
    refine le_trans (innerFaceMin_le_lo hne) ?_
    exact le_trans (sq_le_lo hxx hq1) (dist2_ge_x q y)
  by_cases hx2 : y.x ≤ (root.descend path).boxHi.x
  case neg =>
    have hxx : (root.descend path).boxHi.x < y.x := lt_of_not_le hx2
    have hne : (root.descend path).boxHi.x ≠ root.boxHi.x :=
      fun he => absurd (he ▸ hxx) (not_lt.mpr hy2)
    refine le_trans (innerFaceMin_le_acc _ _ _ _ _ _) ?_
    refine le_trans (innerFaceMin_le_acc _ _ _ _ _ _) ?_
    refine le_trans (innerFaceMin_le_hi hne) ?_
    exact le_trans (sq_le_hi hq2 hxx) (dist2_ge_x q y)
  by_cases hyy1 : (root.descend path).boxLo.y < y.y
  case neg =>
    have hyy : y.y ≤ (root.descend path).boxLo.y := le_of_not_lt hyy1
    have hne : (root.descend path).boxLo.y ≠ root.boxLo.y :=
      fun he => absurd (he ▸ hy3) (not_lt.mpr (he ▸ hyy))
    refine le_trans (innerFaceMin_le_acc _ _ _ _ _ _) ?_
    refine le_trans (innerFaceMin_le_lo hne) ?_
    exact le_trans (sq_le_lo hyy hq3) (dist2_ge_y q y)
  by_cases hyy2 : y.y ≤ (root.descend path).boxHi.y
  case neg =>
    have hyy : (root.descend path).boxHi.y < y.y := lt_of_not_le hyy2
    have hne : (root.descend path).boxHi.y ≠ root.boxHi.y :=
      fun he => absurd (he ▸ hyy) (not_lt.mpr hy4)
    refine le_trans (innerFaceMin_le_acc _ _ _ _ _ _) ?_
    refine le_trans (innerFaceMin_le_hi hne) ?_
    exact le_trans (sq_le_hi hq4 hyy) (dist2_ge_y q y)
  by_cases hz1 : (root.descend path).boxLo.z < y.z
  case neg =>
    have hzz : y.z ≤ (root.descend path).boxLo.z := le_of_not_lt hz1
    have hne : (root.descend path).boxLo.z ≠ root.boxLo.z :=
      fun he => absurd (he ▸ hy5) (not_lt.mpr (he ▸ hzz))
    refine le_trans (innerFaceMin_le_lo hne) ?_
    exact le_trans (sq_le_lo hzz hq5) (dist2_ge_z q y)
  by_cases hz2 : y.z ≤ (root.descend path).boxHi.z
  case neg =>
    have hzz : (root.descend path).boxHi.z < y.z := lt_of_not_le hz2
    have hne : (root.descend path).boxHi.z ≠ root.boxHi.z :=
      fun he => absurd (he ▸ hzz) (not_lt.mpr hy6)
    refine le_trans (innerFaceMin_le_hi hne) ?_
    exact le_trans (sq_le_hi hq6 hzz) (dist2_ge_z q y)
  exact absurd (inBoxHO_iff _ _ _ |>.mpr ⟨hx1, hx2, hyy1, hyy2, hz1, hz2⟩) hynot

theorem maskMem_some {root : Node} {lpath : List (Fin 8)} {id : Int} :
    maskMem root (some lpath) id ↔ id ∈ (root.descend lpath).allIds := by
  constructor
  · rintro ⟨mp, hmp, hmem⟩
    rw [Option.some.inj hmp]
    exact hmem
  · intro h
    exact ⟨lpath, rfl, h⟩

theorem exists_leaf_of_isLeaf {n : Node} (h : n.isLeaf = true) :
    ∃ l hh dl dh ids, n = Node.leaf l hh dl dh ids := by
  cases n with
  | leaf l hh dl dh ids => exact ⟨l, hh, dl, dh, ids, rfl⟩
  | internal l hh dl dh a b c d e f g hc => exact absurd h (by simp [Node.isLeaf])

theorem leafContainerPath_isLeaf (root : Node) (p : P3) :
    (root.descend (leafContainerPath root p)).isLeaf = true := by
  induction root with
  | leaf l hh dl dh ids =>
    rw [leafContainerPath_leaf]
    rfl
  | internal l hh dl dh a b c d e f g hc iha ihb ihc ihd ihe ihf ihg ihh =>
    rw [leafContainerPath_internal]
    show (((Node.internal l hh dl dh a b c d e f g hc).child
        (childIndexOf l hh p)).descend _).isLeaf = true
    rcases fin8_cases (childIndexOf l hh p) with hk | hk | hk | hk | hk | hk | hk | hk <;>
      rw [hk]
    · exact iha
    · exact ihb
    · exact ihc
    · exact ihd
    · exact ihe
    · exact ihf
    · exact ihg
    · exact ihh

theorem leafScan_snd_nonneg (P : PtStore) (q : P3) (l hh dl dh : P3) (ids : List Int) :
    0 ≤ (findClosestPointInLeafNode P q (Node.leaf l hh dl dh ids)).2 := by
  rcases leafScanGo_achieve P q ids (-1) svtkDoubleMax with he | hr
  · show 0 ≤ (leafScanGo P q ids (-1) svtkDoubleMax).2
    rw [he]
    exact le_of_lt dblMax_pos
  · have h2 : (findClosestPointInLeafNode P q (Node.leaf l hh dl dh ids)).2 =
        dist2 (getPt P (findClosestPointInLeafNode P q (Node.leaf l hh dl dh ids)).1) q :=
      hr.2
    rw [h2]
    exact dist2_nonneg _ _

theorem maskedSphere_spec {P : PtStore} {root : Node} {q : P3} (hwf : root.WF P)
    (hqs : ptSmall q) (lpath : List (Fin 8)) (l hh dl dh : P3) (ids : List Int)
    (hleaf : root.descend lpath = Node.leaf l hh dl dh ids)
    (hne : root.allIds ≠ []) (s e r : Int × ℚ)
    (hs : s = findClosestPointInLeafNode P q (Node.leaf l hh dl dh ids))
    (he : e = findClosestPointInSphereWithoutTolerance P root q s.2 (some lpath))
    (hr : r = if e.2 < s.2 then e else s) :
    0 ≤ r.1 ∧ r.1.toNat < P.length ∧ r.1 ∈ root.allIds ∧
      r.2 = dist2 (getPt P r.1) q ∧
      ∀ id ∈ root.allIds, r.2 ≤ dist2 (getPt P id) q := by
  have hsmallpt : ∀ id ∈ root.allIds, ptSmall (getPt P id) := fun id hid =>
    ptSmall_of_inBoxHO hwf.box.2.2.2.1 hwf.box.2.2.2.2 (hwf.ids id hid).2.1
  have hsub : ∀ id ∈ ids, id ∈ root.allIds := fun id hid =>
    Node.descend_allIds_subset root lpath id (by rw [hleaf]; exact hid)
  have hlb : ∀ id ∈ ids, s.2 ≤ dist2 (getPt P id) q := by
    intro id hid
    rw [hs]
    exact leafScanGo_lb P q ids (-1) svtkDoubleMax id hid
  have hach : s = (-1, svtkDoubleMax) ∨ (s.1 ∈ ids ∧ s.2 = dist2 (getPt P s.1) q) := by
    rw [hs]
    exact leafScanGo_achieve P q ids (-1) svtkDoubleMax
  have hsnn : 0 ≤ s.2 := by
    rw [hs]
    exact leafScan_snd_nonneg P q l hh dl dh ids
  have hsle : s.2 ≤ svtkDoubleMax := by
    rw [hs]
    exact leafScanGo_le_init P q ids (-1) svtkDoubleMax
  obtain ⟨w1, w2, w3⟩ := @fcpsWithoutTol_spec P root q s.2 (some lpath) hwf
  rw [← he] at w1 w2 w3
  have hmaskiff : ∀ id : Int, id ∉ ids → ¬ maskMem root (some lpath) id := by
    intro id hmem hmm
    rw [maskMem_some, hleaf] at hmm
    exact hmem hmm
  subst hr
  by_cases hlt : e.2 < s.2
  · rw [if_pos hlt]
    rcases w2 with ⟨hm1, hm2⟩ | ⟨hv1, hv2, hv3, hv4, hv5⟩
    · exfalso
      rcases hm2 with h | h | h
      · rw [h] at hlt
        nlinarith [hsnn]
      · rw [h] at hlt
        exact absurd hlt (not_lt.mpr hsle)
      · exact absurd hlt (not_lt.mpr (le_of_lt h))
    · refine ⟨hv1, hv2, hv3, hv4, ?_⟩
      intro id hid
      by_cases hmem : id ∈ ids
      · exact le_trans (le_of_lt hlt) (hlb id hmem)
      · exact w3 id hid (hmaskiff id hmem)
  · rw [if_neg hlt]
    have hreal : s.1 ∈ ids ∧ s.2 = dist2 (getPt P s.1) q := by
      rcases hach with hse | hsr
      · exfalso
        obtain ⟨id0, hid0⟩ := List.exists_mem_of_ne_nil root.allIds hne
        have hdlt : dist2 (getPt P id0) q < svtkDoubleMax :=
          dist2_lt_dblMax (hsmallpt id0 hid0) hqs
        have hs2 : s.2 = svtkDoubleMax := by rw [hse]
        by_cases hmem : id0 ∈ ids
        · have hcon := lt_of_le_of_lt (hlb id0 hmem) hdlt
          rw [hs2] at hcon
          exact lt_irrefl _ hcon
        · have hw := w3 id0 hid0 (hmaskiff id0 hmem)
          have hlt2 : e.2 < svtkDoubleMax := lt_of_le_of_lt hw hdlt
          have hge : s.2 ≤ e.2 := le_of_not_lt hlt
          rw [hs2] at hge
          exact lt_irrefl _ (lt_of_le_of_lt hge hlt2)
      · exact hsr
    have hok := (hwf.ids s.1 (hsub s.1 hreal.1)).1
    refine ⟨hok.1, hok.2, hsub s.1 hreal.1, hreal.2, ?_⟩
    intro id hid
    by_cases hmem : id ∈ ids
    · exact hlb id hmem
    · exact le_trans (le_of_not_lt hlt) (w3 id hid (hmaskiff id hmem))

/-- The outside-case query point: the projection of `q` onto the root's data
box, nudged strictly inside the root box (`FindClosestPoint`, lines 595-642). -/
def nudgedOf (st : Loc) (root : Node) (q : P3) : P3 :=
  ⟨nudgeAx (projToBox q root.dataLo root.dataHi).x root.boxLo.x root.boxHi.x
      st.fudgeFactor,
   nudgeAx (projToBox q root.dataLo root.dataHi).y root.boxLo.y root.boxHi.y
      st.fudgeFactor,
   nudgeAx (projToBox q root.dataLo root.dataHi).z root.boxLo.z root.boxHi.z
      st.fudgeFactor⟩

theorem findClosestPoint_some {st : Loc} {root : Node} (q : P3)
    (hroot : st.octreeRootNode = some root) :
    findClosestPoint st q =
      if root.numPoints = 0 then (-1, st.octreeMaxDimSize * st.octreeMaxDimSize * 4)
      else if root.containsPoint q then
        (if 0 < (findClosestPointInLeafNode st.locatorPoints q
            (root.descend (leafContainerPath root q))).2 then
          (if (root.descend (leafContainerPath root q)).dist2ToInnerBoundary q root <
              (findClosestPointInLeafNode st.locatorPoints q
                (root.descend (leafContainerPath root q))).2 then
            (if (findClosestPointInSphereWithoutTolerance st.locatorPoints root q
                (findClosestPointInLeafNode st.locatorPoints q
                  (root.descend (leafContainerPath root q))).2
                (some (leafContainerPath root q))).2 <
                (findClosestPointInLeafNode st.locatorPoints q
                  (root.descend (leafContainerPath root q))).2
             then findClosestPointInSphereWithoutTolerance st.locatorPoints root q
                (findClosestPointInLeafNode st.locatorPoints q
                  (root.descend (leafContainerPath root q))).2
                (some (leafContainerPath root q))
             else findClosestPointInLeafNode st.locatorPoints q
                (root.descend (leafContainerPath root q)))
           else findClosestPointInLeafNode st.locatorPoints q
              (root.descend (leafContainerPath root q)))
         else findClosestPointInLeafNode st.locatorPoints q
            (root.descend (leafContainerPath root q)))
      else
        (if (findClosestPointInSphereWithoutTolerance st.locatorPoints root q
            (findClosestPointInLeafNode st.locatorPoints q
              (root.descend (leafContainerPath root (nudgedOf st root q)))).2
            (some (leafContainerPath root (nudgedOf st root q)))).2 <
            (findClosestPointInLeafNode st.locatorPoints q
              (root.descend (leafContainerPath root (nudgedOf st root q)))).2
         then findClosestPointInSphereWithoutTolerance st.locatorPoints root q
            (findClosestPointInLeafNode st.locatorPoints q
              (root.descend (leafContainerPath root (nudgedOf st root q)))).2
            (some (leafContainerPath root (nudgedOf st root q)))
         else findClosestPointInLeafNode st.locatorPoints q
            (root.descend (leafContainerPath root (nudgedOf st root q)))) := by
  unfold findClosestPoint nudgedOf
  rw [hroot]

theorem findClosestPoint_root_spec {st : Loc} {root : Node}
    (hroot : st.octreeRootNode = some root) (hwf : root.WF st.locatorPoints)
    {q : P3} (hqs : ptSmall q) (hnp : ¬ root.numPoints = 0) :
    0 ≤ (findClosestPoint st q).1 ∧
    (findClosestPoint st q).1.toNat < st.locatorPoints.length ∧
    (findClosestPoint st q).1 ∈ root.allIds ∧
    (findClosestPoint st q).2 =
      dist2 (getPt st.locatorPoints (findClosestPoint st q).1) q ∧
    ∀ id ∈ root.allIds, (findClosestPoint st q).2 ≤
      dist2 (getPt st.locatorPoints id) q := by
  have hne : root.allIds ≠ [] := fun h => hnp ((Node.numPoints_zero_iff root).mpr h)
  have hsmallpt : ∀ id ∈ root.allIds, ptSmall (getPt st.locatorPoints id) :=
    fun id hid =>
      ptSmall_of_inBoxHO hwf.box.2.2.2.1 hwf.box.2.2.2.2 (hwf.ids id hid).2.1
  rw [findClosestPoint_some q hroot, if_neg hnp]
  by_cases hcont : root.containsPoint q = true
  · rw [if_pos hcont]
    obtain ⟨l, hh, dl, dh, ids, hleaf⟩ :=
      exists_leaf_of_isLeaf (leafContainerPath_isLeaf root q)
    rw [hleaf]
    have hsub : ∀ id ∈ ids, id ∈ root.allIds := fun id hid =>
      Node.descend_allIds_subset root (leafContainerPath root q) id
        (by rw [hleaf]; exact hid)
    have hlb : ∀ id ∈ ids,
        (findClosestPointInLeafNode st.locatorPoints q (Node.leaf l hh dl dh ids)).2 ≤
          dist2 (getPt st.locatorPoints id) q :=
      fun id hid => leafScanGo_lb st.locatorPoints q ids (-1) svtkDoubleMax id hid
    have hach : findClosestPointInLeafNode st.locatorPoints q
          (Node.leaf l hh dl dh ids) = (-1, svtkDoubleMax) ∨
        ((findClosestPointInLeafNode st.locatorPoints q (Node.leaf l hh dl dh ids)).1 ∈ ids ∧
          (findClosestPointInLeafNode st.locatorPoints q (Node.leaf l hh dl dh ids)).2 =
            dist2 (getPt st.locatorPoints (findClosestPointInLeafNode st.locatorPoints q
              (Node.leaf l hh dl dh ids)).1) q) :=
      leafScanGo_achieve st.locatorPoints q ids (-1) svtkDoubleMax
    have hsnn := leafScan_snd_nonneg st.locatorPoints q l hh dl dh ids
    have hql : inBoxHO (Node.leaf l hh dl dh ids).boxLo
        (Node.leaf l hh dl dh ids).boxHi q = true := by
      have h := (leafContainerPath_spec hwf hcont).1
      rwa [hleaf] at h
    have hinner_le : ∀ id ∈ root.allIds, id ∉ ids →
        (Node.leaf l hh dl dh ids).dist2ToInnerBoundary q root ≤
          dist2 (getPt st.locatorPoints id) q := by
      intro id hid hmem
      have hynot := hwf.not_mem_descend_box (leafContainerPath root q) id hid
        (by rw [hleaf]; exact hmem)
      have hyroot := (hwf.ids id hid).2.1
      have h := inner_boundary_le hwf (leafContainerPath root q)
        (by rw [hleaf]; exact hql) hyroot hynot
      rw [hleaf] at h
      rw [dist2_comm]
      exact h
    by_cases hpos : 0 < (findClosestPointInLeafNode st.locatorPoints q
        (Node.leaf l hh dl dh ids)).2
    · rw [if_pos hpos]
      by_cases hinner : (Node.leaf l hh dl dh ids).dist2ToInnerBoundary q root <
          (findClosestPointInLeafNode st.locatorPoints q (Node.leaf l hh dl dh ids)).2
      · rw [if_pos hinner]
        exact maskedSphere_spec hwf hqs (leafContainerPath root q) l hh dl dh ids
          hleaf hne _ _ _ rfl rfl rfl
      · rw [if_neg hinner]
        have hreal : (findClosestPointInLeafNode st.locatorPoints q
              (Node.leaf l hh dl dh ids)).1 ∈ ids ∧
            (findClosestPointInLeafNode st.locatorPoints q (Node.leaf l hh dl dh ids)).2 =
              dist2 (getPt st.locatorPoints (findClosestPointInLeafNode st.locatorPoints q
                (Node.leaf l hh dl dh ids)).1) q := by
          rcases hach with hse | hsr
          · exfalso
            obtain ⟨id0, hid0⟩ := List.exists_mem_of_ne_nil root.allIds hne
            have hdlt : dist2 (getPt st.locatorPoints id0) q < svtkDoubleMax :=
              dist2_lt_dblMax (hsmallpt id0 hid0) hqs
            have hs2 : (findClosestPointInLeafNode st.locatorPoints q
                (Node.leaf l hh dl dh ids)).2 = svtkDoubleMax := by rw [hse]
            by_cases hmem : id0 ∈ ids
            · have hcon := lt_of_le_of_lt (hlb id0 hmem) hdlt
              rw [hs2] at hcon
              exact lt_irrefl _ hcon
            · have h1 := hinner_le id0 hid0 hmem
              have h2 : (findClosestPointInLeafNode st.locatorPoints q
                  (Node.leaf l hh dl dh ids)).2 ≤
                  (Node.leaf l hh dl dh ids).dist2ToInnerBoundary q root :=
                le_of_not_lt hinner
              have hcon := lt_of_le_of_lt (le_trans h2 h1) hdlt
              rw [hs2] at hcon
              exact lt_irrefl _ hcon
          · exact hsr
        have hok := (hwf.ids _ (hsub _ hreal.1)).1
        refine ⟨hok.1, hok.2, hsub _ hreal.1, hreal.2, ?_⟩
        intro id hid
        by_cases hmem : id ∈ ids
        · exact hlb id hmem
        · exact le_trans (le_of_not_lt hinner) (hinner_le id hid hmem)
    · rw [if_neg hpos]
      have hz : (findClosestPointInLeafNode st.locatorPoints q
          (Node.leaf l hh dl dh ids)).2 = 0 := le_antisymm (le_of_not_lt hpos) hsnn
      have hreal : (findClosestPointInLeafNode st.locatorPoints q
            (Node.leaf l hh dl dh ids)).1 ∈ ids ∧
          (findClosestPointInLeafNode st.locatorPoints q (Node.leaf l hh dl dh ids)).2 =
            dist2 (getPt st.locatorPoints (findClosestPointInLeafNode st.locatorPoints q
              (Node.leaf l hh dl dh ids)).1) q := by
        rcases hach with hse | hsr
        · exfalso
          have hs2 : (findClosestPointInLeafNode st.locatorPoints q
              (Node.leaf l hh dl dh ids)).2 = svtkDoubleMax := by rw [hse]
          rw [hz] at hs2
          exact absurd hs2.symm (ne_of_gt dblMax_pos)
        · exact hsr
      have hok := (hwf.ids _ (hsub _ hreal.1)).1
      refine ⟨hok.1, hok.2, hsub _ hreal.1, hreal.2, ?_⟩
      intro id hid
      rw [hz]
      exact dist2_nonneg _ _
  · rw [if_neg hcont]
    obtain ⟨l, hh, dl, dh, ids, hleaf⟩ :=
      exists_leaf_of_isLeaf (leafContainerPath_isLeaf root (nudgedOf st root q))
    rw [hleaf]
    exact maskedSphere_spec hwf hqs (leafContainerPath root (nudgedOf st root q))
      l hh dl dh ids hleaf hne _ _ _ rfl rfl rfl

/-- C1: on a tree built by insertions into the supplied world bounds, with all
coordinates in the no-overflow regime and at least one stored point,
`FindClosestPoint(q)` returns a valid stored id whose squared distance to `q`
is the brute-force minimum over all stored points, and reports exactly that
distance. -/
theorem findClosestPoint_bruteforce (tol : ℚ) (maxPts : Nat) (cubic : Bool)
    (bLo bHi : P3) (pts : List P3) (q : P3)
    (hbox : boxOK (rootBoxOf cubic bLo bHi).1 (rootBoxOf cubic bLo bHi).2)
    (hin : ∀ p ∈ pts,
      inBoxHO (rootBoxOf cubic bLo bHi).1 (rootBoxOf cubic bLo bHi).2 p = true)
    (hqs : ptSmall q) (hne : pts ≠ []) :
    0 ≤ (findClosestPoint (buildLoc tol maxPts cubic bLo bHi pts) q).1 ∧
    (findClosestPoint (buildLoc tol maxPts cubic bLo bHi pts) q).1.toNat < pts.length ∧
    (findClosestPoint (buildLoc tol maxPts cubic bLo bHi pts) q).2 =
      dist2 (pts.getD (findClosestPoint (buildLoc tol maxPts cubic bLo bHi pts)
        q).1.toNat default) q ∧
    ∀ i : Nat, i < pts.length →
      (findClosestPoint (buildLoc tol maxPts cubic bLo bHi pts) q).2 ≤
        dist2 (pts.getD i default) q := by
  obtain ⟨root, hr, hbl, hbh, hwf, hperm, hpts⟩ :=
    buildLoc_WF tol maxPts cubic bLo bHi pts hbox hin
  have hnp : ¬ root.numPoints = 0 := by
    rw [Node.numPoints_eq_length, hperm.length_eq]
    unfold rangeIds
    simp only [List.length_map, List.length_range]
    intro h
    exact hne (List.length_eq_zero.mp h)
  obtain ⟨c1, c2, c3, c4, c5⟩ := findClosestPoint_root_spec hr hwf hqs hnp
  rw [hpts] at c2 c4 c5
  refine ⟨c1, c2, c4, ?_⟩
  intro i hi
  have hmem : Int.ofNat i ∈ root.allIds :=
    hperm.mem_iff.mpr (mem_rangeIds.mpr ⟨i, hi, rfl⟩)
  have h := c5 (Int.ofNat i) hmem
  unfold getPt at h
  simpa using h

/-- C9: on a non-empty built tree, a query outside the root box makes
`FindClosestInsertedPoint` give up with `-1`, while `FindClosestPoint` on the
same query still returns a valid stored id at the brute-force minimum
distance. -/
theorem findClosestInsertedPoint_outside_contrast (tol : ℚ) (maxPts : Nat)
    (cubic : Bool) (bLo bHi : P3) (pts : List P3) (x : P3)
    (hbox : boxOK (rootBoxOf cubic bLo bHi).1 (rootBoxOf cubic bLo bHi).2)
    (hin : ∀ p ∈ pts,
      inBoxHO (rootBoxOf cubic bLo bHi).1 (rootBoxOf cubic bLo bHi).2 p = true)
    (hxs : ptSmall x) (hne : pts ≠ [])
    (hout : inBoxHO (rootBoxOf cubic bLo bHi).1 (rootBoxOf cubic bLo bHi).2 x = false) :
    findClosestInsertedPoint (buildLoc tol maxPts cubic bLo bHi pts) x = -1 ∧
    0 ≤ (findClosestPoint (buildLoc tol maxPts cubic bLo bHi pts) x).1 ∧
    (findClosestPoint (buildLoc tol maxPts cubic bLo bHi pts) x).1.toNat < pts.length ∧
    (findClosestPoint (buildLoc tol maxPts cubic bLo bHi pts) x).2 =
      dist2 (pts.getD (findClosestPoint (buildLoc tol maxPts cubic bLo bHi pts)
        x).1.toNat default) x ∧
    ∀ i : Nat, i < pts.length →
      (findClosestPoint (buildLoc tol maxPts cubic bLo bHi pts) x).2 ≤
        dist2 (pts.getD i default) x := by
  obtain ⟨root, hr, hbl, hbh, hwf, hperm, hpts⟩ :=
    buildLoc_WF tol maxPts cubic bLo bHi pts hbox hin
  have hnp : ¬ root.numPoints = 0 := by
    rw [Node.numPoints_eq_length, hperm.length_eq]
    unfold rangeIds
    simp only [List.length_map, List.length_range]
    intro h
    exact hne (List.length_eq_zero.mp h)
  have hcont : root.containsPoint x = false := by
    unfold Node.containsPoint
    rw [hbl, hbh]
    exact hout
  constructor
  · unfold findClosestInsertedPoint
    rw [hr]
    show (if root.numPoints = 0 ∨ root.containsPoint x = false then (-1 : Int) else _) = -1
    rw [if_pos (Or.inr hcont)]
  · obtain ⟨c1, c2, c3, c4, c5⟩ := findClosestPoint_root_spec hr hwf hxs hnp
    rw [hpts] at c2 c4 c5
    refine ⟨c1, c2, c4, ?_⟩
    intro i hi
    have hmem : Int.ofNat i ∈ root.allIds :=
      hperm.mem_iff.mpr (mem_rangeIds.mpr ⟨i, hi, rfl⟩)
    have h := c5 (Int.ofNat i) hmem
    unfold getPt at h
    simpa using h

theorem findClosestPoint_bruteforce_witness :
    0 ≤ (findClosestPoint (buildLoc 0 128 false ⟨0, 0, 0⟩ ⟨1, 1, 1⟩
      [⟨1/4, 1/4, 1/4⟩, ⟨3/4, 3/4, 3/4⟩]) ⟨0, 0, 0⟩).1 ∧
    (findClosestPoint (buildLoc 0 128 false ⟨0, 0, 0⟩ ⟨1, 1, 1⟩
      [⟨1/4, 1/4, 1/4⟩, ⟨3/4, 3/4, 3/4⟩]) ⟨0, 0, 0⟩).1.toNat <
      [(⟨1/4, 1/4, 1/4⟩ : P3), ⟨3/4, 3/4, 3/4⟩].length ∧
    (findClosestPoint (buildLoc 0 128 false ⟨0, 0, 0⟩ ⟨1, 1, 1⟩
      [⟨1/4, 1/4, 1/4⟩, ⟨3/4, 3/4, 3/4⟩]) ⟨0, 0, 0⟩).2 =
      dist2 ([(⟨1/4, 1/4, 1/4⟩ : P3), ⟨3/4, 3/4, 3/4⟩].getD
        (findClosestPoint (buildLoc 0 128 false ⟨0, 0, 0⟩ ⟨1, 1, 1⟩
          [⟨1/4, 1/4, 1/4⟩, ⟨3/4, 3/4, 3/4⟩]) ⟨0, 0, 0⟩).1.toNat default) ⟨0, 0, 0⟩ ∧
    ∀ i : Nat, i < [(⟨1/4, 1/4, 1/4⟩ : P3), ⟨3/4, 3/4, 3/4⟩].length →
      (findClosestPoint (buildLoc 0 128 false ⟨0, 0, 0⟩ ⟨1, 1, 1⟩
        [⟨1/4, 1/4, 1/4⟩, ⟨3/4, 3/4, 3/4⟩]) ⟨0, 0, 0⟩).2 ≤
        dist2 ([(⟨1/4, 1/4, 1/4⟩ : P3), ⟨3/4, 3/4, 3/4⟩].getD i default) ⟨0, 0, 0⟩ :=
  findClosestPoint_bruteforce 0 128 false ⟨0, 0, 0⟩ ⟨1, 1, 1⟩
    [⟨1/4, 1/4, 1/4⟩, ⟨3/4, 3/4, 3/4⟩] ⟨0, 0, 0⟩
    (of_decide_eq_true (by with_unfolding_all rfl))
    (by
      intro p hp
      rcases List.mem_cons.mp hp with h | h
      · subst h
        with_unfolding_all rfl
      · rw [List.mem_singleton] at h
        subst h
        with_unfolding_all rfl)
    (of_decide_eq_true (by with_unfolding_all rfl))
    (by simp)

theorem findClosestInsertedPoint_outside_contrast_witness :
    findClosestInsertedPoint (buildLoc 0 128 false ⟨0, 0, 0⟩ ⟨1, 1, 1⟩
      [⟨1/4, 1/4, 1/4⟩, ⟨3/4, 3/4, 3/4⟩]) ⟨2, 2, 2⟩ = -1 ∧
    0 ≤ (findClosestPoint (buildLoc 0 128 false ⟨0, 0, 0⟩ ⟨1, 1, 1⟩
      [⟨1/4, 1/4, 1/4⟩, ⟨3/4, 3/4, 3/4⟩]) ⟨2, 2, 2⟩).1 ∧
    (findClosestPoint (buildLoc 0 128 false ⟨0, 0, 0⟩ ⟨1, 1, 1⟩
      [⟨1/4, 1/4, 1/4⟩, ⟨3/4, 3/4, 3/4⟩]) ⟨2, 2, 2⟩).1.toNat <
      [(⟨1/4, 1/4, 1/4⟩ : P3), ⟨3/4, 3/4, 3/4⟩].length ∧
    (findClosestPoint (buildLoc 0 128 false ⟨0, 0, 0⟩ ⟨1, 1, 1⟩
      [⟨1/4, 1/4, 1/4⟩, ⟨3/4, 3/4, 3/4⟩]) ⟨2, 2, 2⟩).2 =
      dist2 ([(⟨1/4, 1/4, 1/4⟩ : P3), ⟨3/4, 3/4, 3/4⟩].getD
        (findClosestPoint (buildLoc 0 128 false ⟨0, 0, 0⟩ ⟨1, 1, 1⟩
          [⟨1/4, 1/4, 1/4⟩, ⟨3/4, 3/4, 3/4⟩]) ⟨2, 2, 2⟩).1.toNat default) ⟨2, 2, 2⟩ ∧
    ∀ i : Nat, i < [(⟨1/4, 1/4, 1/4⟩ : P3), ⟨3/4, 3/4, 3/4⟩].length →
      (findClosestPoint (buildLoc 0 128 false ⟨0, 0, 0⟩ ⟨1, 1, 1⟩
        [⟨1/4, 1/4, 1/4⟩, ⟨3/4, 3/4, 3/4⟩]) ⟨2, 2, 2⟩).2 ≤
        dist2 ([(⟨1/4, 1/4, 1/4⟩ : P3), ⟨3/4, 3/4, 3/4⟩].getD i default) ⟨2, 2, 2⟩ :=
  findClosestInsertedPoint_outside_contrast 0 128 false ⟨0, 0, 0⟩ ⟨1, 1, 1⟩
    [⟨1/4, 1/4, 1/4⟩, ⟨3/4, 3/4, 3/4⟩] ⟨2, 2, 2⟩
    (of_decide_eq_true (by with_unfolding_all rfl))
    (by
      intro p hp
      rcases List.mem_cons.mp hp with h | h
      · subst h
        with_unfolding_all rfl
      · rw [List.mem_singleton] at h
        subst h
        with_unfolding_all rfl)
    (of_decide_eq_true (by with_unfolding_all rfl))
    (by simp)
    (by with_unfolding_all rfl)

/-- Modelled from the spec: the claim's description of
`IsInsertedPointForNonZeroTolerance` — closest id in the containing leaf with
squared distance d2; an exact hit returns immediately; otherwise the
whole-tree sphere search with radius squared equal to `Tolerance`^2, masking
the containing leaf, runs exactly when the leaf's squared
distance-to-inner-boundary is below `Tolerance`^2; the best id found is
returned iff its squared distance is within `Tolerance`^2, else -1. -/
def isInsertedPointClaim (st : Loc) (root : Node) (x : P3) : Int :=
  let lpath := leafContainerPath root x
  let leaf := root.descend lpath
  let s := findClosestPointInLeafNode st.locatorPoints x leaf
  if s.2 = 0 then s.1
  else
    let best :=
      if leaf.dist2ToInnerBoundary x root < st.tolerance * st.tolerance then
        let e := findClosestPointInSphereWithTolerance st.locatorPoints root x
          st.octreeMaxDimSize (st.tolerance * st.tolerance) (some lpath)
        if e.2 < s.2 then e else s
      else s
    if best.2 ≤ st.tolerance * st.tolerance then best.1 else -1

/-- C6: once insertion has been initialized (so that
`InsertTolerance2 = Tolerance^2`), `IsInsertedPointForNonZeroTolerance`
computes exactly the procedure the claim describes: leaf scan, immediate
return on an exact hit, the tolerance-radius sphere search masking the
containing leaf run exactly when the leaf's inner-boundary distance is below
the squared tolerance, and the best id iff within tolerance, else -1. -/
theorem isInserted_spec_refinement (st : Loc) (root : Node) (x : P3)
    (htol : st.insertTolerance2 = st.tolerance * st.tolerance) :
    isInsertedPointForNonZeroTolerance st root x = isInsertedPointClaim st root x := by
  unfold isInsertedPointForNonZeroTolerance isInsertedPointClaim
  rw [htol]

theorem isInserted_spec_refinement_witness :
    isInsertedPointForNonZeroTolerance
      ⟨0, 1, false, 128, 1/2, 1/4, [⟨1/4, 1/4, 1/4⟩], some (Node.leaf ⟨0, 0, 0⟩
        ⟨1, 1, 1⟩ ⟨1/4, 1/4, 1/4⟩ ⟨1/4, 1/4, 1/4⟩ [0])⟩
      (Node.leaf ⟨0, 0, 0⟩ ⟨1, 1, 1⟩ ⟨1/4, 1/4, 1/4⟩ ⟨1/4, 1/4, 1/4⟩ [0])
      ⟨1/4, 1/4, 1/4⟩ =
    isInsertedPointClaim
      ⟨0, 1, false, 128, 1/2, 1/4, [⟨1/4, 1/4, 1/4⟩], some (Node.leaf ⟨0, 0, 0⟩
        ⟨1, 1, 1⟩ ⟨1/4, 1/4, 1/4⟩ ⟨1/4, 1/4, 1/4⟩ [0])⟩
      (Node.leaf ⟨0, 0, 0⟩ ⟨1, 1, 1⟩ ⟨1/4, 1/4, 1/4⟩ ⟨1/4, 1/4, 1/4⟩ [0])
      ⟨1/4, 1/4, 1/4⟩ :=
  isInserted_spec_refinement _ _ _ (by with_unfolding_all rfl)

/-! ## Sorter contents -/

theorem mapAdd_mem_char (m : List (ℚ × List Int)) (d2 : ℚ) (pid : Int) :
    ∀ kb ∈ mapAdd m d2 pid, ∀ id ∈ kb.2,
      (id = pid ∧ kb.1 = d2) ∨ ∃ kb' ∈ m, id ∈ kb'.2 ∧ kb.1 = kb'.1 := by
  induction m with
  | nil =>
    intro kb hkb id hid
    rw [List.mem_singleton.mp hkb] at hid ⊢
    rw [List.mem_singleton.mp hid]
    exact Or.inl ⟨rfl, rfl⟩
  | cons kl rest ih =>
    obtain ⟨k, l⟩ := kl
    intro kb hkb id hid
    simp only [mapAdd] at hkb
    split at hkb
    · rename_i heq
      rcases List.mem_cons.mp hkb with h1 | h2
      · rw [h1] at hid ⊢
        rcases List.mem_append.mp hid with h3 | h4
        · exact Or.inr ⟨(k, l), List.mem_cons_self _ _, h3, rfl⟩
        · rw [List.mem_singleton.mp h4]
          exact Or.inl ⟨rfl, heq.symm⟩
      · exact Or.inr ⟨kb, List.mem_cons_of_mem _ h2, hid, rfl⟩
    · split at hkb
      · rcases List.mem_cons.mp hkb with h1 | h2
        · rw [h1] at hid ⊢
          rw [List.mem_singleton.mp hid]
          exact Or.inl ⟨rfl, rfl⟩
        · rcases List.mem_cons.mp h2 with h3 | h4
          · exact Or.inr ⟨(k, l), List.mem_cons_self _ _, h3 ▸ hid, h3 ▸ rfl⟩
          · exact Or.inr ⟨kb, List.mem_cons_of_mem _ h4, hid, rfl⟩
      · rcases List.mem_cons.mp hkb with h1 | h2
        · exact Or.inr ⟨(k, l), List.mem_cons_self _ _, h1 ▸ hid, h1 ▸ rfl⟩
        · rcases ih kb h2 id hid with h3 | ⟨kb', hkb', hid', he⟩
          · exact Or.inl h3
          · exact Or.inr ⟨kb', List.mem_cons_of_mem _ hkb', hid', he⟩

theorem mapAdd_preserves (m : List (ℚ × List Int)) (d2 : ℚ) (pid : Int) :
    ∀ kb ∈ m, ∀ id ∈ kb.2, ∃ kb' ∈ mapAdd m d2 pid, id ∈ kb'.2 ∧ kb'.1 = kb.1 := by
  induction m with
  | nil => intro kb hkb; exact absurd hkb (List.not_mem_nil kb)
  | cons kl rest ih =>
    obtain ⟨k, l⟩ := kl
    intro kb hkb id hid
    simp only [mapAdd]
    split
    · rename_i heq
      rcases List.mem_cons.mp hkb with h1 | h2
      · refine ⟨(k, l ++ [pid]), List.mem_cons_self _ _, ?_, by rw [h1]⟩
        refine List.mem_append.mpr (Or.inl ?_)
        rw [h1] at hid
        exact hid
      · exact ⟨kb, List.mem_cons_of_mem _ h2, hid, rfl⟩
    · split
      · rcases List.mem_cons.mp hkb with h1 | h2
        · exact ⟨(k, l), List.mem_cons_of_mem _ (List.mem_cons_self _ _),
            by rw [h1] at hid; exact hid, by rw [h1]⟩
        · exact ⟨kb, List.mem_cons_of_mem _ (List.mem_cons_of_mem _ h2), hid, rfl⟩
      · rcases List.mem_cons.mp hkb with h1 | h2
        · exact ⟨(k, l), List.mem_cons_self _ _, by rw [h1] at hid; exact hid,
            by rw [h1]⟩
        · obtain ⟨kb', hkb', hid', he⟩ := ih kb h2 id hid
          exact ⟨kb', List.mem_cons_of_mem _ hkb', hid', he⟩

theorem mapAdd_new (m : List (ℚ × List Int)) (d2 : ℚ) (pid : Int) :
    ∃ kb ∈ mapAdd m d2 pid, pid ∈ kb.2 ∧ kb.1 = d2 := by
  induction m with
  | nil => exact ⟨(d2, [pid]), List.mem_singleton.mpr rfl, List.mem_singleton.mpr rfl, rfl⟩
  | cons kl rest ih =>
    obtain ⟨k, l⟩ := kl
    simp only [mapAdd]
    split
    · rename_i heq
      exact ⟨(k, l ++ [pid]), List.mem_cons_self _ _,
        List.mem_append.mpr (Or.inr (List.mem_singleton.mpr rfl)), heq.symm⟩
    · split
      · exact ⟨(d2, [pid]), List.mem_cons_self _ _, List.mem_singleton.mpr rfl, rfl⟩
      · obtain ⟨kb, hkb, hmem, he⟩ := ih
        exact ⟨kb, List.mem_cons_of_mem _ hkb, hmem, he⟩

theorem mapAdd_flatten_perm (m : List (ℚ × List Int)) (d2 : ℚ) (pid : Int) :
    (((mapAdd m d2 pid).map Prod.snd).flatten).Perm
      (((m.map Prod.snd).flatten) ++ [pid]) := by
  induction m with
  | nil => simp [mapAdd]
  | cons kl rest ih =>
    obtain ⟨k, l⟩ := kl
    simp only [mapAdd]
    split
    · simp only [List.map_cons, List.flatten_cons, List.append_assoc]
      exact List.Perm.append_left l List.perm_append_comm
    · split
      · simp only [List.map_cons, List.flatten_cons]
        exact List.perm_append_comm
      · simp only [List.map_cons, List.flatten_cons, List.append_assoc]
        exact List.Perm.append_left l ih

theorem getLast?_decomp {α : Type} (m : List α) (last : α) (h : m.getLast? = some last) :
    m = m.dropLast ++ [last] := by
  have hne : m ≠ [] := by
    intro he
    rw [he] at h
    simp at h
  have hl := (List.getLast_eq_iff_getLast?_eq_some hne).mpr h
  rw [← hl]
  exact (List.dropLast_append_getLast hne).symm

theorem SortPoints.insertPt_eq (s : SortPoints) (d2 : ℚ) (pid : Int) :
    s.insertPt d2 pid =
      if d2 ≤ s.largestDist2 ∨ s.numberPoints < s.numRequested then
        (if s.numRequested < s.numberPoints + 1 then
          (match (mapAdd s.dist2ToIds d2 pid).getLast? with
           | some last =>
             if s.numRequested < s.numberPoints + 1 - last.2.length then
               ⟨s.numRequested, s.numberPoints + 1 - last.2.length,
                (match (mapAdd s.dist2ToIds d2 pid).dropLast.getLast? with
                 | some prev => prev.1
                 | none => s.largestDist2),
                (mapAdd s.dist2ToIds d2 pid).dropLast⟩
             else ⟨s.numRequested, s.numberPoints + 1, s.largestDist2,
                mapAdd s.dist2ToIds d2 pid⟩
           | none => ⟨s.numRequested, s.numberPoints + 1, s.largestDist2,
                mapAdd s.dist2ToIds d2 pid⟩)
         else ⟨s.numRequested, s.numberPoints + 1, s.largestDist2,
            mapAdd s.dist2ToIds d2 pid⟩)
      else s := rfl

/-- The abstract state of the K-NN sorter after the pairs of the id list `I`
have been offered to it: the map is a strictly-key-sorted list of nonempty
buckets of exact squared distances; every retained id was offered; every
offered id is retained or at least as far as the current pruning radius; the
radius bounds every retained key; once the radius is real the sorter holds
more than `K` points, and while it is still the sentinel nothing has been
dropped; no id is retained twice. -/
structure SOK (P : PtStore) (x : P3) (K : Nat) (s : SortPoints) (I : List Int) :
    Prop where
  req : s.numRequested = K
  pw : List.Pairwise (fun p q => p.1 < q.1) s.dist2ToIds
  bne : ∀ p ∈ s.dist2ToIds, p.2 ≠ []
  total : s.numberPoints = (s.dist2ToIds.map (fun p => p.2.length)).sum
  keys : ∀ kb ∈ s.dist2ToIds, ∀ id ∈ kb.2, kb.1 = dist2 x (getPt P id) ∧ id ∈ I
  complete : ∀ id ∈ I, (∃ kb ∈ s.dist2ToIds, id ∈ kb.2) ∨
    s.largestDist2 ≤ dist2 x (getPt P id)
  large : ∀ kb ∈ s.dist2ToIds, kb.1 ≤ s.largestDist2
  state : s.largestDist2 = svtkDoubleMax ∨ K < s.numberPoints
  full : s.largestDist2 = svtkDoubleMax → s.numberPoints = I.length
  nodupf : ((s.dist2ToIds.map Prod.snd).flatten).Nodup
  keysmall : ∀ kb ∈ s.dist2ToIds, kb.1 < svtkDoubleMax

theorem SOK.flat_sub {P : PtStore} {x : P3} {K : Nat} {s : SortPoints} {I : List Int}
    (h : SOK P x K s I) :
    ∀ id ∈ ((s.dist2ToIds.map Prod.snd).flatten), id ∈ I := by
  intro id hid
  rw [List.mem_flatten] at hid
  obtain ⟨l, hl, hidl⟩ := hid
  rw [List.mem_map] at hl
  obtain ⟨kb, hkb, rfl⟩ := hl
  exact (h.keys kb hkb id hidl).2

set_option maxHeartbeats 1000000

theorem SOK.insert {P : PtStore} {x : P3} {K : Nat} {s : SortPoints} {I : List Int}
    (h : SOK P x K s I) (pid : Int) (d2 : ℚ) (hd2 : d2 = dist2 x (getPt P pid))
    (hfresh : pid ∉ I) (hsmall : d2 < svtkDoubleMax) :
    SOK P x K (s.insertPt d2 pid) (I ++ [pid]) ∧
      (s.insertPt d2 pid).largestDist2 ≤ s.largestDist2 := by
  rw [SortPoints.insertPt_eq]
  by_cases hg : d2 ≤ s.largestDist2 ∨ s.numberPoints < s.numRequested
  case neg =>
    rw [if_neg hg]
    push_neg at hg
    refine ⟨⟨h.req, h.pw, h.bne, h.total, ?_, ?_, h.large, h.state, ?_, h.nodupf,
      h.keysmall⟩, le_refl _⟩
    · intro kb hkb id hid
      exact ⟨(h.keys kb hkb id hid).1,
        List.mem_append.mpr (Or.inl (h.keys kb hkb id hid).2)⟩
    · intro id hid
      rcases List.mem_append.mp hid with hl | hr
      · exact h.complete id hl
      · rw [List.mem_singleton.mp hr, ← hd2]
        exact Or.inr (le_of_lt hg.1)
    · intro hdbl
      rw [hdbl] at hg
      exact absurd hg.1 (not_lt.mpr (le_of_lt hsmall))
  case pos =>
    rw [if_pos hg]
    have hd2le : d2 ≤ s.largestDist2 := by
      rcases hg with h1 | h1
      · exact h1
      · rcases h.state with hs | hs
        · rw [hs]
          exact le_of_lt hsmall
        · exact absurd h1 (by rw [h.req]; omega)
    have hpw' := mapAdd_pairwise s.dist2ToIds d2 pid h.pw
    have hbne' := mapAdd_buckets s.dist2ToIds d2 pid h.bne
    have htot' : ((mapAdd s.dist2ToIds d2 pid).map (fun p => p.2.length)).sum =
        s.numberPoints + 1 := by
      rw [mapAdd_total, ← h.total]
    have hkeys' : ∀ kb ∈ mapAdd s.dist2ToIds d2 pid, ∀ id ∈ kb.2,
        kb.1 = dist2 x (getPt P id) ∧ id ∈ I ++ [pid] := by
      intro kb hkb id hid
      rcases mapAdd_mem_char _ _ _ kb hkb id hid with ⟨he, hk⟩ | ⟨kb', hkb', hid', he⟩
      · subst he
        rw [hk, hd2]
        exact ⟨rfl, List.mem_append.mpr (Or.inr (List.mem_singleton.mpr rfl))⟩
      · obtain ⟨hk0, hI⟩ := h.keys kb' hkb' id hid'
        rw [he, hk0]
        exact ⟨rfl, List.mem_append.mpr (Or.inl hI)⟩
    have hlarge' : ∀ kb ∈ mapAdd s.dist2ToIds d2 pid, kb.1 ≤ s.largestDist2 := by
      intro kb hkb
      rcases mapAdd_keys _ _ _ kb hkb with he | ⟨q, hq, he⟩
      · rw [he]
        exact hd2le
      · rw [he]
        exact h.large q hq
    have hksmall' : ∀ kb ∈ mapAdd s.dist2ToIds d2 pid, kb.1 < svtkDoubleMax := by
      intro kb hkb
      rcases mapAdd_keys _ _ _ kb hkb with he | ⟨q, hq, he⟩
      · rw [he]
        exact hsmall
      · rw [he]
        exact h.keysmall q hq
    have hflat' : (((mapAdd s.dist2ToIds d2 pid).map Prod.snd).flatten).Nodup := by
      refine (mapAdd_flatten_perm s.dist2ToIds d2 pid).nodup_iff.mpr ?_
      rw [List.nodup_append]
      refine ⟨h.nodupf, List.nodup_singleton pid, ?_⟩
      intro a ha hb
      rw [List.mem_singleton.mp hb] at ha
      exact hfresh (h.flat_sub pid ha)
    have hcomp' : ∀ id ∈ I ++ [pid],
        (∃ kb ∈ mapAdd s.dist2ToIds d2 pid, id ∈ kb.2) ∨
          s.largestDist2 ≤ dist2 x (getPt P id) := by
      intro id hid
      rcases List.mem_append.mp hid with hl | hr
      · rcases h.complete id hl with ⟨kb, hkb, hidkb⟩ | hfar
        · obtain ⟨kb', hkb', hidkb', he⟩ := mapAdd_preserves s.dist2ToIds d2 pid kb hkb id hidkb
          exact Or.inl ⟨kb', hkb', hidkb'⟩
        · exact Or.inr hfar
      · rw [List.mem_singleton.mp hr]
        obtain ⟨kb, hkb, hmem, he⟩ := mapAdd_new s.dist2ToIds d2 pid
        exact Or.inl ⟨kb, hkb, hmem⟩
    by_cases h1 : s.numRequested < s.numberPoints + 1
    case neg =>
      rw [if_neg h1]
      refine ⟨⟨h.req, hpw', hbne', htot'.symm, hkeys', hcomp', hlarge', ?_, ?_,
        hflat', hksmall'⟩, le_refl _⟩
      · rcases h.state with hs | hs
        · exact Or.inl hs
        · exact Or.inr (by show K < s.numberPoints + 1; omega)
      · intro hdbl
        show s.numberPoints + 1 = (I ++ [pid]).length
        rw [h.full hdbl, List.length_append, List.length_singleton]
    case pos =>
      rw [if_pos h1]
      cases hlast : (mapAdd s.dist2ToIds d2 pid).getLast? with
      | none =>
        exact absurd (List.getLast?_eq_none.mp hlast) (mapAdd_ne_nil s.dist2ToIds d2 pid)
      | some last =>
        dsimp only
        by_cases h2 : s.numRequested < s.numberPoints + 1 - last.2.length
        case neg =>
          rw [if_neg h2]
          refine ⟨⟨h.req, hpw', hbne', htot'.symm, hkeys', hcomp', hlarge', ?_, ?_,
            hflat', hksmall'⟩, le_refl _⟩
          · exact Or.inr (by show K < s.numberPoints + 1; rw [← h.req]; omega)
          · intro hdbl
            show s.numberPoints + 1 = (I ++ [pid]).length
            rw [h.full hdbl, List.length_append, List.length_singleton]
        case pos =>
          rw [if_pos h2]
          have hmd := getLast?_decomp _ last hlast
          have hlastm : last ∈ mapAdd s.dist2ToIds d2 pid := by
            rw [hmd]
            exact List.mem_append.mpr (Or.inr (List.mem_singleton.mpr rfl))
          have hpwparts := List.pairwise_append.mp (by rw [← hmd]; exact hpw')
          cases hprev : (mapAdd s.dist2ToIds d2 pid).dropLast.getLast? with
          | none =>
            exfalso
            have hm'nil := List.getLast?_eq_none.mp hprev
            have hsum : ((mapAdd s.dist2ToIds d2 pid).map (fun p => p.2.length)).sum =
                last.2.length := by
              conv_lhs => rw [hmd]
              rw [hm'nil]
              simp
            rw [htot'] at hsum
            omega
          | some prev =>
            dsimp only
            have hprevmem := List.mem_of_getLast?_eq_some hprev
            have hprevm : prev ∈ mapAdd s.dist2ToIds d2 pid := by
              rw [hmd]
              exact List.mem_append.mpr (Or.inl hprevmem)
            have hprevlt : prev.1 < last.1 :=
              hpwparts.2.2 prev hprevmem last (List.mem_singleton.mpr rfl)
            have hm'sum :
                (((mapAdd s.dist2ToIds d2 pid).dropLast).map (fun p => p.2.length)).sum +
                  last.2.length = s.numberPoints + 1 := by
              rw [← htot']
              conv_rhs => rw [hmd]
              rw [List.map_append, List.sum_append]
              simp
            have hflatd : (((mapAdd s.dist2ToIds d2 pid).map Prod.snd).flatten) =
                ((((mapAdd s.dist2ToIds d2 pid).dropLast).map Prod.snd).flatten) ++
                  last.2 := by
              conv_lhs => rw [hmd]
              rw [List.map_append, List.flatten_append]
              simp
            refine ⟨⟨h.req, hpwparts.1, ?_, ?_, ?_, ?_, ?_, ?_, ?_, ?_, ?_⟩, ?_⟩
            · intro p hp
              refine hbne' p ?_
              rw [hmd]
              exact List.mem_append.mpr (Or.inl hp)
            · show s.numberPoints + 1 - last.2.length =
                ((((mapAdd s.dist2ToIds d2 pid).dropLast).map
                  (fun p => p.2.length)).sum)
              omega
            · intro kb hkb id hid
              refine hkeys' kb ?_ id hid
              rw [hmd]
              exact List.mem_append.mpr (Or.inl hkb)
            · intro id hid
              rcases hcomp' id hid with ⟨kb, hkb, hidkb⟩ | hfar
              · rw [hmd] at hkb
                rcases List.mem_append.mp hkb with hk1 | hk2
                · exact Or.inl ⟨kb, hk1, hidkb⟩
                · right
                  rw [List.mem_singleton.mp hk2] at hidkb
                  have hkey := (hkeys' last hlastm id hidkb).1
                  rw [← hkey]
                  exact le_of_lt hprevlt
              · right
                exact le_trans (hlarge' prev hprevm) hfar
            · intro kb hkb
              exact pairwise_getLast_max _ hpwparts.1 prev hprev kb hkb
            · exact Or.inr (by
                show K < s.numberPoints + 1 - last.2.length
                rw [← h.req]
                omega)
            · intro hdbl
              exact absurd hdbl (ne_of_lt (hksmall' prev hprevm))
            · rw [hflatd] at hflat'
              exact (List.nodup_append.mp hflat').1
            · intro kb hkb
              refine hksmall' kb ?_
              rw [hmd]
              exact List.mem_append.mpr (Or.inl hkb)
            · exact hlarge' prev hprevm

theorem SOK.foldl_insert {P : PtStore} {x : P3} {K : Nat} (ids : List Int) :
    ∀ (s : SortPoints) (I : List Int), SOK P x K s I →
      (∀ id ∈ ids, id ∉ I ∧ dist2 x (getPt P id) < svtkDoubleMax) → ids.Nodup →
      SOK P x K (ids.foldl (fun acc pid => acc.insertPt (dist2 x (getPt P pid)) pid) s)
        (I ++ ids) ∧
      (ids.foldl (fun acc pid => acc.insertPt (dist2 x (getPt P pid)) pid)
          s).largestDist2 ≤ s.largestDist2 := by
  induction ids with
  | nil =>
    intro s I h hfr hnd
    rw [List.foldl_nil, List.append_nil]
    exact ⟨h, le_refl _⟩
  | cons a rest ih =>
    intro s I h hfr hnd
    rw [List.foldl_cons]
    obtain ⟨h1, hle1⟩ := h.insert a (dist2 x (getPt P a)) rfl
      (hfr a (List.mem_cons_self a rest)).1 (hfr a (List.mem_cons_self a rest)).2
    rw [List.nodup_cons] at hnd
    have hfr' : ∀ id ∈ rest, id ∉ I ++ [a] ∧ dist2 x (getPt P id) < svtkDoubleMax := by
      intro id hid
      refine ⟨?_, (hfr id (List.mem_cons_of_mem a hid)).2⟩
      intro hmem
      rcases List.mem_append.mp hmem with hl | hr
      · exact (hfr id (List.mem_cons_of_mem a hid)).1 hl
      · rw [List.mem_singleton.mp hr] at hid
        exact hnd.1 hid
    obtain ⟨h2, hle2⟩ := ih _ _ h1 hfr' hnd.2
    rw [List.append_assoc] at h2
    exact ⟨by simpa using h2, le_trans hle2 hle1⟩

theorem SOK.init (P : PtStore) (x : P3) (K : Nat) :
    SOK P x K (mkSortPoints K) [] := by
  refine ⟨rfl, List.Pairwise.nil, ?_, rfl, ?_, ?_, ?_, Or.inl rfl, fun _ => rfl, ?_, ?_⟩
  · intro p hp
    exact absurd hp (List.not_mem_nil p)
  · intro kb hkb
    exact absurd hkb (List.not_mem_nil kb)
  · intro id hid
    exact absurd hid (List.not_mem_nil id)
  · intro kb hkb
    exact absurd hkb (List.not_mem_nil kb)
  · exact List.nodup_nil
  · intro kb hkb
    exact absurd hkb (List.not_mem_nil kb)

/-! ## Subtree id segments -/

theorem Node.child_allIds_sublist (n : Node) (i : Fin 8) :
    ((n.child i).allIds).Sublist n.allIds := by
  cases n with
  | leaf l hh dl dh ids => exact List.Sublist.refl _
  | internal l hh dl dh a b c d e f g hc =>
    show _
    fin_cases i
    · show a.allIds.Sublist ((((((((a.allIds ++ b.allIds) ++ c.allIds) ++ d.allIds) ++
        e.allIds) ++ f.allIds) ++ g.allIds) ++ hc.allIds))
      simp only [List.append_assoc]
      exact List.sublist_append_left _ _
    · show b.allIds.Sublist _
      refine List.Sublist.trans ?_ (List.sublist_append_left _ hc.allIds)
      refine List.Sublist.trans ?_ (List.sublist_append_left _ g.allIds)
      refine List.Sublist.trans ?_ (List.sublist_append_left _ f.allIds)
      refine List.Sublist.trans ?_ (List.sublist_append_left _ e.allIds)
      refine List.Sublist.trans ?_ (List.sublist_append_left _ d.allIds)
      refine List.Sublist.trans ?_ (List.sublist_append_left _ c.allIds)
      exact List.sublist_append_right _ _
    · show c.allIds.Sublist _
      refine List.Sublist.trans ?_ (List.sublist_append_left _ hc.allIds)
      refine List.Sublist.trans ?_ (List.sublist_append_left _ g.allIds)
      refine List.Sublist.trans ?_ (List.sublist_append_left _ f.allIds)
      refine List.Sublist.trans ?_ (List.sublist_append_left _ e.allIds)
      refine List.Sublist.trans ?_ (List.sublist_append_left _ d.allIds)
      exact List.sublist_append_right _ _
    · show d.allIds.Sublist _
      refine List.Sublist.trans ?_ (List.sublist_append_left _ hc.allIds)
      refine List.Sublist.trans ?_ (List.sublist_append_left _ g.allIds)
      refine List.Sublist.trans ?_ (List.sublist_append_left _ f.allIds)
      refine List.Sublist.trans ?_ (List.sublist_append_left _ e.allIds)
      exact List.sublist_append_right _ _
    · show e.allIds.Sublist _
      refine List.Sublist.trans ?_ (List.sublist_append_left _ hc.allIds)
      refine List.Sublist.trans ?_ (List.sublist_append_left _ g.allIds)
      refine List.Sublist.trans ?_ (List.sublist_append_left _ f.allIds)
      exact List.sublist_append_right _ _
    · show f.allIds.Sublist _
      refine List.Sublist.trans ?_ (List.sublist_append_left _ hc.allIds)
      refine List.Sublist.trans ?_ (List.sublist_append_left _ g.allIds)
      exact List.sublist_append_right _ _
    · show g.allIds.Sublist _
      refine List.Sublist.trans ?_ (List.sublist_append_left _ hc.allIds)
      exact List.sublist_append_right _ _
    · show hc.allIds.Sublist _
      exact List.sublist_append_right _ _

theorem Node.descend_allIds_sublist (n : Node) (path : List (Fin 8)) :
    ((n.descend path).allIds).Sublist n.allIds := by
  induction path generalizing n with
  | nil => exact List.Sublist.refl _
  | cons i rest ih =>
    exact List.Sublist.trans (ih (n.child i)) (Node.child_allIds_sublist n i)

/-! ## Path prefixes and real descent paths -/

/-- Prefix test on child-index paths. -/
def isPre : List (Fin 8) → List (Fin 8) → Bool
  | [], _ => true
  | _ :: _, [] => false
  | i :: p, j :: q => decide (i = j) && isPre p q

theorem isPre_iff (p q : List (Fin 8)) : isPre p q = true ↔ ∃ r, p ++ r = q := by
  induction p generalizing q with
  | nil =>
    constructor
    · intro _
      exact ⟨q, rfl⟩
    · intro _
      rfl
  | cons i p ih =>
    cases q with
    | nil =>
      simp only [isPre]
      constructor
      · intro h
        exact absurd h (by simp)
      · rintro ⟨r, hr⟩
        exact absurd hr (by simp)
    | cons j q =>
      simp only [isPre, Bool.and_eq_true, decide_eq_true_eq]
      rw [ih q]
      constructor
      · rintro ⟨rfl, r, rfl⟩
        exact ⟨r, rfl⟩
      · rintro ⟨r, hr⟩
        rw [List.cons_append] at hr
        have h1 : i = j := (List.cons.inj hr).1
        exact ⟨h1, r, (List.cons.inj hr).2⟩

theorem isPre_nil_left (q : List (Fin 8)) : isPre [] q = true := rfl

theorem isPre_nil_right {p : List (Fin 8)} (h : isPre p [] = true) : p = [] := by
  obtain ⟨r, hr⟩ := (isPre_iff p []).mp h
  exact List.append_eq_nil.mp hr |>.1

theorem isPre_snoc_cases {sp p : List (Fin 8)} {i : Fin 8}
    (h : isPre sp (p ++ [i]) = true) : isPre sp p = true ∨ sp = p ++ [i] := by
  obtain ⟨r, hr⟩ := (isPre_iff sp (p ++ [i])).mp h
  cases r with
  | nil =>
    right
    rw [← hr, List.append_nil]
  | cons a rest =>
    left
    rw [isPre_iff]
    refine ⟨(a :: rest).dropLast, ?_⟩
    have hdec : (a :: rest).dropLast ++ [(a :: rest).getLast (by simp)] = a :: rest :=
      List.dropLast_append_getLast _
    have h2 : (sp ++ (a :: rest).dropLast) ++ [(a :: rest).getLast (by simp)] =
        p ++ [i] := by
      rw [List.append_assoc, hdec, hr]
    have h3 := List.append_inj' h2 rfl
    exact h3.1

/-- Every node passed through strictly before the end of the path is
internal. -/
def pathReal : Node → List (Fin 8) → Bool
  | _, [] => true
  | n, i :: rest => !n.isLeaf && pathReal (n.child i) rest

theorem pathReal_extend {root : Node} {p : List (Fin 8)} (hp : pathReal root p = true)
    (hnl : (root.descend p).isLeaf = false) (i : Fin 8) :
    pathReal root (p ++ [i]) = true := by
  induction p generalizing root with
  | nil =>
    show (!root.isLeaf && pathReal (root.child i) []) = true
    rw [show pathReal (root.child i) [] = true from rfl]
    simp only [Bool.and_true, Bool.not_eq_true']
    exact hnl
  | cons j rest ih =>
    show (!root.isLeaf && pathReal (root.child j) (rest ++ [i])) = true
    have hp' : (!root.isLeaf && pathReal (root.child j) rest) = true := hp
    rw [Bool.and_eq_true] at hp'
    rw [Bool.and_eq_true]
    exact ⟨hp'.1, ih hp'.2 hnl⟩

theorem pathReal_prefix_not_leaf {root : Node} {p sp : List (Fin 8)}
    (hreal : pathReal root sp = true) (hpre : isPre p sp = true) (hne : p ≠ sp) :
    (root.descend p).isLeaf = false := by
  obtain ⟨r, hr⟩ := (isPre_iff p sp).mp hpre
  cases r with
  | nil =>
    exact absurd (by rw [← hr, List.append_nil]) hne
  | cons a rest =>
    subst hr
    clear hpre hne
    induction p generalizing root with
    | nil =>
      have h : (!root.isLeaf && pathReal (root.child a) rest) = true := hreal
      rw [Bool.and_eq_true] at h
      simpa using h.1
    | cons j p ih =>
      have h : (!root.isLeaf && pathReal (root.child j) (p ++ a :: rest)) = true := hreal
      rw [Bool.and_eq_true] at h
      exact ih h.2

set_option maxHeartbeats 800000 in
theorem Node.children_disjoint {bl bh dLo dHi : P3} {a b c d e f g hc : Node}
    (hnd : (Node.internal bl bh dLo dHi a b c d e f g hc).allIds.Nodup)
    {i j : Fin 8} (hij : i ≠ j) {id : Int}
    (hmi : id ∈ ((Node.internal bl bh dLo dHi a b c d e f g hc).child i).allIds)
    (hmj : id ∈ ((Node.internal bl bh dLo dHi a b c d e f g hc).child j).allIds) :
    False := by
  have hcnt := List.nodup_iff_count_le_one.mp hnd id
  simp only [Node.allIds, List.count_append] at hcnt
  fin_cases i <;> fin_cases j <;>
    first
      | exact hij rfl
      | (first
          | have p1 : 0 < List.count id a.allIds := List.count_pos_iff.mpr hmi
          | have p1 : 0 < List.count id b.allIds := List.count_pos_iff.mpr hmi
          | have p1 : 0 < List.count id c.allIds := List.count_pos_iff.mpr hmi
          | have p1 : 0 < List.count id d.allIds := List.count_pos_iff.mpr hmi
          | have p1 : 0 < List.count id e.allIds := List.count_pos_iff.mpr hmi
          | have p1 : 0 < List.count id f.allIds := List.count_pos_iff.mpr hmi
          | have p1 : 0 < List.count id g.allIds := List.count_pos_iff.mpr hmi
          | have p1 : 0 < List.count id hc.allIds := List.count_pos_iff.mpr hmi)
        (first
          | have p2 : 0 < List.count id a.allIds := List.count_pos_iff.mpr hmj
          | have p2 : 0 < List.count id b.allIds := List.count_pos_iff.mpr hmj
          | have p2 : 0 < List.count id c.allIds := List.count_pos_iff.mpr hmj
          | have p2 : 0 < List.count id d.allIds := List.count_pos_iff.mpr hmj
          | have p2 : 0 < List.count id e.allIds := List.count_pos_iff.mpr hmj
          | have p2 : 0 < List.count id g.allIds := List.count_pos_iff.mpr hmj
          | have p2 : 0 < List.count id f.allIds := List.count_pos_iff.mpr hmj
          | have p2 : 0 < List.count id hc.allIds := List.count_pos_iff.mpr hmj)
        omega

theorem Node.descend_allIds_nodup {root : Node} (hnd : root.allIds.Nodup)
    (path : List (Fin 8)) : ((root.descend path).allIds).Nodup :=
  hnd.sublist (Node.descend_allIds_sublist root path)

theorem Node.descend_append2 (n : Node) (p r : List (Fin 8)) :
    n.descend (p ++ r) = (n.descend p).descend r := by
  induction p generalizing n with
  | nil => rfl
  | cons i t ih => exact ih (n.child i)

theorem Node.descend_prefix_subset (root : Node) {p q : List (Fin 8)}
    (hpre : isPre p q = true) :
    ∀ id ∈ (root.descend q).allIds, id ∈ (root.descend p).allIds := by
  obtain ⟨r, rfl⟩ := (isPre_iff p q).mp hpre
  intro id hid
  rw [Node.descend_append2] at hid
  exact Node.descend_allIds_subset _ r id hid

/-- Loop invariant for the start-node selection of `FindClosestNPoints`: the
node and the recorded parent are both reached from the root by their recorded
paths, those paths pass only through internal nodes, and the parent is
internal unless it still equals the (nonempty) node. -/
def SelQ (root : Node) (t : Node × List (Fin 8) × Node × List (Fin 8)) : Prop :=
  root.descend t.2.1 = t.1 ∧ pathReal root t.2.1 = true ∧
  root.descend t.2.2.2 = t.2.2.1 ∧ pathReal root t.2.2.2 = true ∧
  (t.2.2.1.isLeaf = false ∨ (t.2.2.1 = t.1 ∧ t.2.2.2 = t.2.1 ∧ 0 < t.1.numPoints))

theorem descendInF_Q (x : P3) (K : Nat) (root : Node) :
    ∀ fuel n path par parPath, SelQ root (n, path, par, parPath) →
      SelQ root (descendInF x K fuel n path par parPath) := by
  intro fuel
  induction fuel with
  | zero => intro n path par parPath h; exact h
  | succ fuel ih =>
    intro n path par parPath h
    cases n with
    | leaf l hh dl dh ids => exact h
    | internal l hh dl dh a b c d e f g hc =>
      simp only [descendInF]
      split
      · apply ih
        refine ⟨?_, ?_, h.1, h.2.1, Or.inl rfl⟩
        · rw [Node.descend_append, h.1]
        · refine pathReal_extend h.2.1 ?_ _
          rw [h.1]
          rfl
      · exact h

theorem descendOutF_Q (x : P3) (K : Nat) (root : Node) :
    ∀ fuel n path par parPath, SelQ root (n, path, par, parPath) →
      SelQ root (descendOutF x K root fuel n path par parPath) := by
  intro fuel
  induction fuel with
  | zero => intro n path par parPath h; exact h
  | succ fuel ih =>
    intro n path par parPath h
    cases n with
    | leaf l hh dl dh ids => exact h
    | internal l hh dl dh a b c d e f g hc =>
      simp only [descendOutF]
      split
      · split
        · apply ih
          refine ⟨?_, ?_, h.1, h.2.1, Or.inl rfl⟩
          · rw [Node.descend_append, h.1]
          · refine pathReal_extend h.2.1 ?_ _
            rw [h.1]
            rfl
        · exact ⟨h.1, h.2.1, h.1, h.2.1, Or.inl rfl⟩
      · exact h

theorem selectLoop_Q (x : P3) (K : Nat) (root : Node) :
    ∀ fuel n path par parPath, SelQ root (n, path, par, parPath) →
      root.descend (selectLoop x K root fuel n path par parPath).2 =
          (selectLoop x K root fuel n path par parPath).1 ∧
        pathReal root (selectLoop x K root fuel n path par parPath).2 = true := by
  intro fuel
  induction fuel with
  | zero => intro n path par parPath h; exact ⟨h.1, h.2.1⟩
  | succ fuel ih =>
    intro n path par parPath h
    simp only [selectLoop]
    split
    · have hq : SelQ root (descendIn x K n path par parPath) := by
        unfold descendIn
        exact descendInF_Q x K root _ n path par parPath h
      split
      · split
        · exact ⟨hq.1, hq.2.1⟩
        · exact ⟨hq.2.2.1, hq.2.2.2.1⟩
      · rename_i hnp0
        have hpar_nl : (descendIn x K n path par parPath).2.2.1.isLeaf = false := by
          rcases hq.2.2.2.2 with hl | ⟨he, hpe, hpos⟩
          · exact hl
          · exact absurd (by omega) hnp0
        split
        · rename_i i hi2
          apply ih
          refine ⟨?_, ?_, hq.2.2.1, hq.2.2.2.1, Or.inl hpar_nl⟩
          · rw [Node.descend_append, hq.2.2.1]
          · refine pathReal_extend hq.2.2.2.1 ?_ _
            rw [hq.2.2.1]
            exact hpar_nl
        · apply ih
          exact ⟨hq.1, hq.2.1, hq.2.2.1, hq.2.2.2.1, Or.inl hpar_nl⟩
    · have hq : SelQ root (descendOut x K root n path par parPath) := by
        unfold descendOut
        exact descendOutF_Q x K root _ n path par parPath h
      split
      · exact ⟨hq.1, hq.2.1⟩
      · exact ⟨hq.2.2.1, hq.2.2.2.1⟩

theorem selectStartNode_spec (x : P3) (K : Nat) (root : Node)
    (hnp : 0 < root.numPoints) :
    root.descend (selectStartNode x K root).2 = (selectStartNode x K root).1 ∧
      pathReal root (selectStartNode x K root).2 = true := by
  unfold selectStartNode
  exact selectLoop_Q x K root _ root [] root []
    ⟨rfl, rfl, rfl, rfl, Or.inr ⟨rfl, rfl, hnp⟩⟩

/-- The sorter map spelled as key-id pairs, in emitted order. -/
def keyedFlat (m : List (ℚ × List Int)) : List (ℚ × Int) :=
  (m.map (fun kb => kb.2.map (fun id => (kb.1, id)))).flatten

theorem keyedFlat_map_snd (m : List (ℚ × List Int)) :
    (keyedFlat m).map Prod.snd = (m.map Prod.snd).flatten := by
  induction m with
  | nil => rfl
  | cons kb rest ih =>
    show (kb.2.map (fun id => (kb.1, id)) ++ keyedFlat rest).map Prod.snd =
      kb.2 ++ (rest.map Prod.snd).flatten
    rw [List.map_append, ih, List.map_map]
    congr 1
    simp [Function.comp]

theorem keyedFlat_mem {m : List (ℚ × List Int)} {pr : ℚ × Int} :
    pr ∈ keyedFlat m ↔ ∃ kb ∈ m, kb.1 = pr.1 ∧ pr.2 ∈ kb.2 := by
  unfold keyedFlat
  rw [List.mem_flatten]
  constructor
  · rintro ⟨l, hl, hpr⟩
    rw [List.mem_map] at hl
    obtain ⟨kb, hkb, rfl⟩ := hl
    rw [List.mem_map] at hpr
    obtain ⟨id, hid, rfl⟩ := hpr
    exact ⟨kb, hkb, rfl, hid⟩
  · rintro ⟨kb, hkb, hk, hid⟩
    refine ⟨kb.2.map (fun id => (kb.1, id)), List.mem_map_of_mem _ hkb, ?_⟩
    rw [List.mem_map]
    exact ⟨pr.2, hid, by rw [hk]⟩

theorem pairwise_const_map (l : List Int) (k : ℚ) :
    List.Pairwise (fun a b : ℚ × Int => a.1 ≤ b.1) (l.map (fun id => (k, id))) := by
  induction l with
  | nil => exact List.Pairwise.nil
  | cons a t ih =>
    rw [List.map_cons]
    refine List.Pairwise.cons ?_ ih
    intro b hb
    rw [List.mem_map] at hb
    obtain ⟨id, _, rfl⟩ := hb
    exact le_refl k

theorem keyedFlat_pairwise {m : List (ℚ × List Int)}
    (h : List.Pairwise (fun p q => p.1 < q.1) m) :
    List.Pairwise (fun a b : ℚ × Int => a.1 ≤ b.1) (keyedFlat m) := by
  induction m with
  | nil => exact List.Pairwise.nil
  | cons kb rest ih =>
    rw [List.pairwise_cons] at h
    show List.Pairwise _ (kb.2.map (fun id => (kb.1, id)) ++ keyedFlat rest)
    rw [List.pairwise_append]
    refine ⟨pairwise_const_map kb.2 kb.1, ih h.2, ?_⟩
    intro a ha b hb
    rw [List.mem_map] at ha
    obtain ⟨id, _, rfl⟩ := ha
    rw [keyedFlat_mem] at hb
    obtain ⟨kb', hkb', hk', _⟩ := hb
    have hlt := h.1 kb' hkb'
    rw [hk'] at hlt
    exact le_of_lt hlt

theorem keyedFlat_length (m : List (ℚ × List Int)) :
    (keyedFlat m).length = (m.map (fun p => p.2.length)).sum := by
  induction m with
  | nil => rfl
  | cons kb rest ih =>
    show (kb.2.map (fun id => (kb.1, id)) ++ keyedFlat rest).length = _
    rw [List.length_append, List.length_map, ih, List.map_cons, List.sum_cons]

theorem take_pairwise_le {l : List (ℚ × Int)}
    (hp : List.Pairwise (fun a b : ℚ × Int => a.1 ≤ b.1) l) (k : Nat)
    {a b : ℚ × Int} (ha : a ∈ l.take k) (hb : b ∈ l.drop k) : a.1 ≤ b.1 := by
  rw [← List.take_append_drop k l] at hp
  exact (List.pairwise_append.mp hp).2.2 a ha b hb

theorem dist2ToBoundaryData_le_dist {P : PtStore} {m : Node} (hwf : m.WF P)
    (x : P3) (root : Node) {id : Int} (hid : id ∈ m.allIds) :
    m.dist2ToBoundaryData x root ≤ dist2 x (getPt P id) := by
  have hnz : ¬ m.numPoints = 0 := by
    intro h0
    rw [(Node.numPoints_zero_iff m).mp h0] at hid
    exact absurd hid (List.not_mem_nil id)
  unfold Node.dist2ToBoundaryData
  rw [if_neg hnz]
  exact @dist2PtBox_le x m.dataLo m.dataHi root.boxLo root.boxHi (getPt P id)
    ((hwf.ids id hid).2.2)

set_option maxHeartbeats 1600000 in
theorem knnBfs_master {P : PtStore} {root : Node} {x : P3} {K : Nat}
    {startPath : List (Fin 8)}
    (hwf : root.WF P) (hnd : root.allIds.Nodup)
    (hreal : pathReal root startPath = true)
    (hsm : ∀ id ∈ root.allIds, dist2 x (getPt P id) < svtkDoubleMax) :
    ∀ N : Nat, ∀ queue : List PathNode, ∀ s : SortPoints, ∀ I : List Int,
      stackSize queue ≤ N →
      SOK P x K s I →
      I.Nodup →
      (∀ id ∈ I, id ∈ root.allIds) →
      (∀ id ∈ (root.descend startPath).allIds, id ∈ I) →
      (∀ e ∈ queue, root.descend e.1 = e.2) →
      List.Pairwise (fun e1 e2 : PathNode =>
        ∀ id : Int, id ∈ e1.2.allIds → id ∈ e2.2.allIds → False) queue →
      (∀ e ∈ queue, ∀ id : Int, id ∈ e.2.allIds → id ∈ I →
        id ∈ (root.descend startPath).allIds ∧ isPre e.1 startPath = true) →
      (∀ id ∈ root.allIds, id ∈ I ∨ (∃ e ∈ queue, id ∈ e.2.allIds) ∨
        s.largestDist2 ≤ dist2 x (getPt P id)) →
      ∃ J : List Int,
        SOK P x K (knnBfs P root x startPath queue s) (I ++ J) ∧
        (I ++ J).Nodup ∧
        (∀ id ∈ I ++ J, id ∈ root.allIds) ∧
        (∀ id ∈ root.allIds, id ∈ I ++ J ∨
          (knnBfs P root x startPath queue s).largestDist2 ≤ dist2 x (getPt P id)) ∧
        (knnBfs P root x startPath queue s).largestDist2 ≤ s.largestDist2 := by
  intro N
  induction N with
  | zero =>
    intro queue s I hsz hS hIn hIv hseed hreach hpw hdi hcov
    cases queue with
    | nil =>
      rw [knnBfs_nil]
      refine ⟨[], by rw [List.append_nil]; exact hS, by rw [List.append_nil]; exact hIn,
        by rw [List.append_nil]; exact hIv, ?_, le_refl _⟩
      intro id hid
      rw [List.append_nil]
      rcases hcov id hid with h1 | ⟨e, he, _⟩ | h3
      · exact Or.inl h1
      · exact absurd he (List.not_mem_nil e)
      · exact Or.inr h3
    | cons hd rest =>
      exfalso
      rw [stackSize_cons] at hsz
      have := Node.size_pos hd.2
      omega
  | succ N ih =>
    intro queue s I hsz hS hIn hIv hseed hreach hpw hdi hcov
    cases queue with
    | nil =>
      rw [knnBfs_nil]
      refine ⟨[], by rw [List.append_nil]; exact hS, by rw [List.append_nil]; exact hIn,
        by rw [List.append_nil]; exact hIv, ?_, le_refl _⟩
      intro id hid
      rw [List.append_nil]
      rcases hcov id hid with h1 | ⟨e, he, _⟩ | h3
      · exact Or.inl h1
      · exact absurd he (List.not_mem_nil e)
      · exact Or.inr h3
    | cons hd rest =>
      obtain ⟨path, n⟩ := hd
      rw [stackSize_cons] at hsz
      have hhead : root.descend path = n :=
        hreach (path, n) (List.mem_cons_self _ _)
      have hrest_sz : stackSize rest ≤ N := by
        have := Node.size_pos (path, n).2
        omega
      have hpw' := List.pairwise_cons.mp hpw
      by_cases hpe : path = startPath
      · -- the start node is skipped
        subst hpe
        rw [knnBfs_skip]
        apply ih rest s I hrest_sz hS hIn hIv hseed
          (fun e he => hreach e (List.mem_cons_of_mem _ he)) hpw'.2
          (fun e he => hdi e (List.mem_cons_of_mem _ he))
        intro id hid
        rcases hcov id hid with h1 | ⟨e, he, hmem⟩ | h3
        · exact Or.inl h1
        · rcases List.mem_cons.mp he with rfl | he'
          · refine Or.inl (hseed id ?_)
            rw [hhead]
            exact hmem
          · exact Or.inr (Or.inl ⟨e, he', hmem⟩)
        · exact Or.inr (Or.inr h3)
      · cases n with
        | leaf l2 h2 dl2 dh2 ids =>
          rw [knnBfs_leaf P root x startPath path l2 h2 dl2 dh2 ids rest s hpe]
          have hwfL : (Node.leaf l2 h2 dl2 dh2 ids).WF P := by
            rw [← hhead]
            exact hwf.descend path
          have hsr : ∀ id ∈ (Node.leaf l2 h2 dl2 dh2 ids).allIds, id ∈ root.allIds := by
            rw [← hhead]
            exact Node.descend_allIds_subset root path
          by_cases hins : (Node.leaf l2 h2 dl2 dh2 ids).dist2ToBoundaryData x root
              < s.largestDist2
          · rw [if_pos hins]
            have hfr : ∀ id ∈ ids, id ∉ I ∧ dist2 x (getPt P id) < svtkDoubleMax := by
              intro id hid
              constructor
              · intro hidI
                have hd := hdi (path, Node.leaf l2 h2 dl2 dh2 ids)
                  (List.mem_cons_self _ _) id hid hidI
                have hnl := pathReal_prefix_not_leaf hreal hd.2 hpe
                rw [hhead] at hnl
                exact absurd hnl (by simp [Node.isLeaf])
              · exact hsm id (hsr id hid)
            have hndids : ids.Nodup := by
              have h1 : ((root.descend path).allIds).Nodup :=
                Node.descend_allIds_nodup hnd path
              rw [hhead] at h1
              exact h1
            obtain ⟨hS2, hle2⟩ := SOK.foldl_insert ids s I hS hfr hndids
            have hIn2 : (I ++ ids).Nodup := by
              refine List.Nodup.append hIn hndids ?_
              intro a haI haids
              exact (hfr a haids).1 haI
            have hIv2 : ∀ id ∈ I ++ ids, id ∈ root.allIds := by
              intro id hid
              rcases List.mem_append.mp hid with h1 | h1
              · exact hIv id h1
              · exact hsr id h1
            have hseed2 : ∀ id ∈ (root.descend startPath).allIds, id ∈ I ++ ids :=
              fun id hid => List.mem_append.mpr (Or.inl (hseed id hid))
            have hdi2 : ∀ e ∈ rest, ∀ id : Int, id ∈ e.2.allIds → id ∈ I ++ ids →
                id ∈ (root.descend startPath).allIds ∧ isPre e.1 startPath = true := by
              intro e he id hide hidI
              rcases List.mem_append.mp hidI with h1 | h1
              · exact hdi e (List.mem_cons_of_mem _ he) id hide h1
              · exact absurd hide (by
                  intro hmm
                  exact hpw'.1 e he id h1 hmm)
            have hcov2 : ∀ id ∈ root.allIds, id ∈ I ++ ids ∨
                (∃ e ∈ rest, id ∈ e.2.allIds) ∨
                (ids.foldl (fun acc pid => acc.insertPt (dist2 x (getPt P pid)) pid)
                  s).largestDist2 ≤ dist2 x (getPt P id) := by
              intro id hid
              rcases hcov id hid with h1 | ⟨e, he, hmem⟩ | h3
              · exact Or.inl (List.mem_append.mpr (Or.inl h1))
              · rcases List.mem_cons.mp he with rfl | he'
                · exact Or.inl (List.mem_append.mpr (Or.inr hmem))
                · exact Or.inr (Or.inl ⟨e, he', hmem⟩)
              · exact Or.inr (Or.inr (le_trans hle2 h3))
            obtain ⟨J', hS', hIn', hIv', hC', hM'⟩ := ih rest _ (I ++ ids) hrest_sz
              hS2 hIn2 hIv2 hseed2
              (fun e he => hreach e (List.mem_cons_of_mem _ he)) hpw'.2 hdi2 hcov2
            rw [List.append_assoc] at hS' hIn' hIv' hC'
            exact ⟨ids ++ J', hS', hIn', hIv', hC', le_trans hM' hle2⟩
          · rw [if_neg hins]
            apply ih rest s I hrest_sz hS hIn hIv hseed
              (fun e he => hreach e (List.mem_cons_of_mem _ he)) hpw'.2
              (fun e he => hdi e (List.mem_cons_of_mem _ he))
            intro id hid
            rcases hcov id hid with h1 | ⟨e, he, hmem⟩ | h3
            · exact Or.inl h1
            · rcases List.mem_cons.mp he with rfl | he'
              · refine Or.inr (Or.inr ?_)
                refine le_trans (le_of_not_lt hins) ?_
                exact dist2ToBoundaryData_le_dist hwfL x root hmem
              · exact Or.inr (Or.inl ⟨e, he', hmem⟩)
            · exact Or.inr (Or.inr h3)
        | internal l2 h2 dl2 dh2 a b c d e f g hc =>
          rw [knnBfs_internal P root x startPath path l2 h2 dl2 dh2 a b c d e f g hc
            rest s hpe]
          have hwfN : (Node.internal l2 h2 dl2 dh2 a b c d e f g hc).WF P := by
            rw [← hhead]
            exact hwf.descend path
          have hndN : (Node.internal l2 h2 dl2 dh2 a b c d e f g hc).allIds.Nodup := by
            have h1 := Node.descend_allIds_nodup hnd path
            rw [hhead] at h1
            exact h1
          have hsz2 : stackSize (rest ++ pushChildren path
              (Node.internal l2 h2 dl2 dh2 a b c d e f g hc)
              (knnKeep root x s (Node.internal l2 h2 dl2 dh2 a b c d e f g hc))) ≤ N := by
            have hlt := stackSize_enqueue_lt path
              (knnKeep root x s (Node.internal l2 h2 dl2 dh2 a b c d e f g hc))
              l2 h2 dl2 dh2 a b c d e f g hc rest
            rw [stackSize_cons] at hlt
            omega
          have hreach2 : ∀ e2 ∈ rest ++ pushChildren path
              (Node.internal l2 h2 dl2 dh2 a b c d e f g hc)
              (knnKeep root x s (Node.internal l2 h2 dl2 dh2 a b c d e f g hc)),
              root.descend e2.1 = e2.2 := by
            intro e2 he2
            rcases List.mem_append.mp he2 with h1 | h1
            · exact hreach e2 (List.mem_cons_of_mem _ h1)
            · obtain ⟨i, hi, rfl⟩ := mem_pushChildren.mp h1
              show root.descend (path ++ [i]) = _
              rw [Node.descend_append, hhead]
          have hpw2 : List.Pairwise (fun e1 e2 : PathNode =>
              ∀ id : Int, id ∈ e1.2.allIds → id ∈ e2.2.allIds → False)
              (rest ++ pushChildren path
                (Node.internal l2 h2 dl2 dh2 a b c d e f g hc)
                (knnKeep root x s (Node.internal l2 h2 dl2 dh2 a b c d e f g hc))) := by
            rw [List.pairwise_append]
            refine ⟨hpw'.2, ?_, ?_⟩
            · unfold pushChildren
              rw [List.pairwise_map]
              have hne8 : List.Pairwise (fun i j : Fin 8 => i ≠ j)
                  (((List.finRange 8)).filter
                    (knnKeep root x s (Node.internal l2 h2 dl2 dh2 a b c d e f g hc))) :=
                List.Pairwise.sublist (List.filter_sublist _) (List.nodup_finRange 8)
              refine hne8.imp ?_
              intro i j hij
              intro id hmi hmj
              exact Node.children_disjoint hndN hij hmi hmj
            · intro e1 he1 e2 he2
              obtain ⟨i, hi, rfl⟩ := mem_pushChildren.mp he2
              intro id hm1 hm2
              have hmN : id ∈ (Node.internal l2 h2 dl2 dh2 a b c d e f g hc).allIds :=
                Node.child_allIds_subset _ i id hm2
              exact hpw'.1 e1 he1 id hmN hm1
          have hdi2 : ∀ e2 ∈ rest ++ pushChildren path
              (Node.internal l2 h2 dl2 dh2 a b c d e f g hc)
              (knnKeep root x s (Node.internal l2 h2 dl2 dh2 a b c d e f g hc)),
              ∀ id : Int, id ∈ e2.2.allIds → id ∈ I →
              id ∈ (root.descend startPath).allIds ∧ isPre e2.1 startPath = true := by
            intro e2 he2 id hide hidI
            rcases List.mem_append.mp he2 with h1 | h1
            · exact hdi e2 (List.mem_cons_of_mem _ h1) id hide hidI
            · obtain ⟨i, hi, rfl⟩ := mem_pushChildren.mp h1
              have hmN : id ∈ (Node.internal l2 h2 dl2 dh2 a b c d e f g hc).allIds :=
                Node.child_allIds_subset _ i id hide
              have hd := hdi (path, Node.internal l2 h2 dl2 dh2 a b c d e f g hc)
                (List.mem_cons_self _ _) id hmN hidI
              obtain ⟨r, hr⟩ := (isPre_iff path startPath).mp hd.2
              cases r with
              | nil =>
                exfalso
                rw [List.append_nil] at hr
                exact hpe hr
              | cons j r' =>
                have hpre2 : isPre (path ++ [j]) startPath = true := by
                  rw [isPre_iff]
                  refine ⟨r', ?_⟩
                  rw [List.append_assoc]
                  exact hr
                have hsub : id ∈ (root.descend (path ++ [j])).allIds :=
                  Node.descend_prefix_subset root hpre2 id hd.1
                rw [Node.descend_append, hhead] at hsub
                have hij : i = j := by
                  by_contra hij
                  exact Node.children_disjoint hndN hij hide hsub
                subst hij
                exact ⟨hd.1, hpre2⟩
          have hcov2 : ∀ id ∈ root.allIds, id ∈ I ∨
              (∃ e2 ∈ rest ++ pushChildren path
                (Node.internal l2 h2 dl2 dh2 a b c d e f g hc)
                (knnKeep root x s (Node.internal l2 h2 dl2 dh2 a b c d e f g hc)),
                id ∈ e2.2.allIds) ∨
              s.largestDist2 ≤ dist2 x (getPt P id) := by
            intro id hid
            rcases hcov id hid with h1 | ⟨e2, he2, hmem⟩ | h3
            · exact Or.inl h1
            · rcases List.mem_cons.mp he2 with rfl | he'
              · obtain ⟨j, hj⟩ := Node.mem_allIds_cases hmem
                rcases Bool.eq_false_or_eq_true
                    (knnKeep root x s (Node.internal l2 h2 dl2 dh2 a b c d e f g hc) j)
                  with hkeep | hkeep
                · refine Or.inr (Or.inl ⟨(path ++ [j],
                    (Node.internal l2 h2 dl2 dh2 a b c d e f g hc).child j), ?_, hj⟩)
                  refine List.mem_append.mpr (Or.inr ?_)
                  exact mem_pushChildren.mpr ⟨j, hkeep, rfl⟩
                · refine Or.inr (Or.inr ?_)
                  simp only [knnKeep, Bool.or_eq_false_iff] at hkeep
                  have hnlt := of_decide_eq_false hkeep.2
                  refine le_trans (le_of_not_lt hnlt) ?_
                  exact dist2ToBoundaryData_le_dist (hwfN.child j) x root hj
              · exact Or.inr (Or.inl ⟨e2, List.mem_append.mpr (Or.inl he'), hmem⟩)
            · exact Or.inr (Or.inr h3)
          exact ih _ s I hsz2 hS hIn hIv hseed hreach2 hpw2 hdi2 hcov2

theorem getSortedIds_spec {P : PtStore} {x : P3} {K : Nat} {s : SortPoints}
    {I U : List Int} (hS : SOK P x K s I)
    (hIU : ∀ id ∈ I, id ∈ U) (hUnd : U.Nodup)
    (hcov : ∀ id ∈ U, id ∈ I ∨ s.largestDist2 ≤ dist2 x (getPt P id))
    (hsm : ∀ id ∈ U, dist2 x (getPt P id) < svtkDoubleMax)
    (hKU : K ≤ U.length) :
    s.getSortedIds.length = K ∧
    s.getSortedIds.Nodup ∧
    (∀ id ∈ s.getSortedIds, id ∈ I) ∧
    (∀ i ∈ s.getSortedIds, ∀ j ∈ U, j ∉ s.getSortedIds →
      dist2 x (getPt P i) ≤ dist2 x (getPt P j)) := by
  have hKle : K ≤ s.numberPoints := by
    rcases hS.state with hdbl | hlt
    · have hUI : ∀ id ∈ U, id ∈ I := by
        intro id hid
        rcases hcov id hid with h1 | h2
        · exact h1
        · exact absurd (hsm id hid) (not_lt.mpr (hdbl ▸ h2))
      have hUlen : U.length ≤ I.length := (List.subperm_of_subset hUnd hUI).length_le
      have hfull := hS.full hdbl
      omega
    · omega
  have hflatlen : ((s.dist2ToIds.map Prod.snd).flatten).length = s.numberPoints := by
    rw [← keyedFlat_map_snd, List.length_map, keyedFlat_length, ← hS.total]
  have hmin : min s.numRequested s.numberPoints = K := by
    rw [hS.req]
    exact min_eq_left hKle
  have hout : s.getSortedIds = ((s.dist2ToIds.map Prod.snd).flatten).take K := by
    unfold SortPoints.getSortedIds
    rw [hmin]
  refine ⟨?_, ?_, ?_, ?_⟩
  · rw [hout, List.length_take, hflatlen]
    exact min_eq_left hKle
  · rw [hout]
    exact hS.nodupf.sublist (List.take_sublist _ _)
  · intro id hid
    rw [hout] at hid
    exact hS.flat_sub id (List.mem_of_mem_take hid)
  · intro i hi j hjU hjout
    rw [hout] at hi hjout
    rw [← keyedFlat_map_snd, ← List.map_take] at hi
    obtain ⟨pri, hpri_take, hpri2⟩ := List.mem_map.mp hi
    obtain ⟨kb, hkb, hkb1, hkbm⟩ := keyedFlat_mem.mp (List.mem_of_mem_take hpri_take)
    have hkey_i : pri.1 = dist2 x (getPt P i) := by
      rw [← hkb1, (hS.keys kb hkb pri.2 hkbm).1, hpri2]
    by_cases hjf : j ∈ (s.dist2ToIds.map Prod.snd).flatten
    · have hjtd : j ∈ ((s.dist2ToIds.map Prod.snd).flatten).take K ++
          ((s.dist2ToIds.map Prod.snd).flatten).drop K := by
        rw [List.take_append_drop]
        exact hjf
      have hjd : j ∈ ((s.dist2ToIds.map Prod.snd).flatten).drop K := by
        rcases List.mem_append.mp hjtd with h1 | h1
        · exact absurd h1 hjout
        · exact h1
      rw [← keyedFlat_map_snd, ← List.map_drop] at hjd
      obtain ⟨prj, hprj_drop, hprj2⟩ := List.mem_map.mp hjd
      obtain ⟨kb', hkb', hkb1', hkbm'⟩ := keyedFlat_mem.mp (List.mem_of_mem_drop hprj_drop)
      have hkey_j : prj.1 = dist2 x (getPt P j) := by
        rw [← hkb1', (hS.keys kb' hkb' prj.2 hkbm').1, hprj2]
      have hle := take_pairwise_le (keyedFlat_pairwise hS.pw) K hpri_take hprj_drop
      rw [hkey_i, hkey_j] at hle
      exact hle
    · have hlgj : s.largestDist2 ≤ dist2 x (getPt P j) := by
        rcases hcov j hjU with h1 | h2
        · rcases hS.complete j h1 with ⟨kb2, hkb2, hjkb2⟩ | h2
          · exact absurd (List.mem_flatten.mpr
              ⟨kb2.2, List.mem_map_of_mem Prod.snd hkb2, hjkb2⟩) hjf
          · exact h2
        · exact h2
      have h_i_lg : dist2 x (getPt P i) ≤ s.largestDist2 := by
        rw [← hkey_i, ← hkb1]
        exact hS.large kb hkb
      exact le_trans h_i_lg hlgj

theorem findClosestNPoints_eq {st : Loc} {root : Node}
    (hr : st.octreeRootNode = some root) (N : Int) (x : P3) :
    findClosestNPoints st N x =
      (if (if (root.numPoints : Int) < N then (root.numPoints : Int) else N) ≤ 0
       then some []
       else
        some (knnBfs st.locatorPoints root x
            (selectStartNode x
              ((if (root.numPoints : Int) < N then (root.numPoints : Int) else N)).toNat
              root).2
            [([], root)]
            ((selectStartNode x
              ((if (root.numPoints : Int) < N then (root.numPoints : Int) else N)).toNat
              root).1.allIds.foldl
              (fun acc pid => acc.insertPt (dist2 x (getPt st.locatorPoints pid)) pid)
              (mkSortPoints
                ((if (root.numPoints : Int) < N then (root.numPoints : Int) else N)).toNat))
          ).getSortedIds) := by
  unfold findClosestNPoints
  rw [hr]

/-- C3, amended: on a tree built by insertions into the supplied world bounds,
`FindClosestNPoints(N, x, result)` with `1 ≤ N ≤` number of stored points
returns exactly `N` pairwise-distinct valid ids, and every returned id lies at
least as close to the query (in exact squared distance) as every stored id
that is not returned — the output realizes the `N` smallest squared distances
of a brute-force scan.  The insertion-order tie rule of the original claim is
refuted separately by `knn_tie_breaks_insertion_order`. -/
theorem findClosestNPoints_kSmallest (tol : ℚ) (maxPts : Nat) (cubic : Bool)
    (bLo bHi : P3) (pts : List P3) (x : P3) (N : Int)
    (hbox : boxOK (rootBoxOf cubic bLo bHi).1 (rootBoxOf cubic bLo bHi).2)
    (hin : ∀ p ∈ pts,
      inBoxHO (rootBoxOf cubic bLo bHi).1 (rootBoxOf cubic bLo bHi).2 p = true)
    (hxs : ptSmall x) (hN1 : 1 ≤ N) (hNn : N ≤ (pts.length : Int)) :
    ∃ out : List Int,
      findClosestNPoints (buildLoc tol maxPts cubic bLo bHi pts) N x = some out ∧
      out.length = N.toNat ∧
      out.Nodup ∧
      (∀ i ∈ out, 0 ≤ i ∧ i.toNat < pts.length) ∧
      (∀ i ∈ out, ∀ j : Nat, j < pts.length → (j : Int) ∉ out →
        dist2 x (pts.getD i.toNat default) ≤ dist2 x (pts.getD j default)) := by
  obtain ⟨root, hr, hbl, hbh, hwf, hperm, hpts⟩ :=
    buildLoc_WF tol maxPts cubic bLo bHi pts hbox hin
  have hnum : root.numPoints = pts.length := by
    rw [Node.numPoints_eq_length, hperm.length_eq]
    unfold rangeIds
    rw [List.length_map, List.length_range]
  have hnd : root.allIds.Nodup := hperm.nodup_iff.mpr (rangeIds_nodup pts.length)
  have hnp : 0 < root.numPoints := by omega
  have hsmall : ∀ id ∈ root.allIds,
      dist2 x (getPt (buildLoc tol maxPts cubic bLo bHi pts).locatorPoints id)
        < svtkDoubleMax := by
    intro id hid
    have hbs := (hwf.ids id hid).2.1
    rw [hbl, hbh] at hbs
    exact dist2_lt_dblMax hxs (ptSmall_of_inBoxHO hbox.2.2.2.1 hbox.2.2.2.2 hbs)
  have hifN : (if (root.numPoints : Int) < N then (root.numPoints : Int) else N) = N := by
    rw [if_neg (show ¬ ((root.numPoints : Int) < N) by rw [hnum]; omega)]
  rw [findClosestNPoints_eq hr N x, hifN, if_neg (show ¬ N ≤ 0 by omega)]
  have hsel := selectStartNode_spec x N.toNat root hnp
  have hseedsub : ∀ id ∈ (selectStartNode x N.toNat root).1.allIds,
      id ∈ root.allIds := by
    intro id hid
    rw [← hsel.1] at hid
    exact Node.descend_allIds_subset root _ id hid
  have hseednd : ((selectStartNode x N.toNat root).1.allIds).Nodup := by
    rw [← hsel.1]
    exact Node.descend_allIds_nodup hnd _
  obtain ⟨hS0, -⟩ := SOK.foldl_insert (selectStartNode x N.toNat root).1.allIds
    (mkSortPoints N.toNat) []
    (SOK.init (buildLoc tol maxPts cubic bLo bHi pts).locatorPoints x N.toNat)
    (fun id hid => ⟨List.not_mem_nil id, hsmall id (hseedsub id hid)⟩) hseednd
  rw [List.nil_append] at hS0
  obtain ⟨J, hSf, hInf, hIvf, hCf, hMf⟩ :=
    knnBfs_master hwf hnd hsel.2 hsmall (stackSize [(([] : List (Fin 8)), root)])
      [(([] : List (Fin 8)), root)] _ (selectStartNode x N.toNat root).1.allIds
      (le_refl _) hS0 hseednd hseedsub
      (by rw [hsel.1]; exact fun id hid => hid)
      (by
        intro e he
        rw [List.mem_singleton] at he
        subst he
        rfl)
      (List.pairwise_singleton _ _)
      (by
        intro e he id hide hidI
        rw [List.mem_singleton] at he
        subst he
        exact ⟨by rw [hsel.1]; exact hidI, isPre_nil_left _⟩)
      (by
        intro id hid
        exact Or.inr (Or.inl ⟨(([] : List (Fin 8)), root),
          List.mem_singleton.mpr rfl, hid⟩))
  have hKU : N.toNat ≤ root.allIds.length := by
    have h1 := Node.numPoints_eq_length root
    omega
  obtain ⟨hlen, hnodup, hmemI, hksm⟩ :=
    getSortedIds_spec hSf hIvf hnd hCf hsmall hKU
  refine ⟨_, rfl, hlen, hnodup, ?_, ?_⟩
  · intro i hiout
    have hmem := hIvf i (hmemI i hiout)
    obtain ⟨k, hk, hki⟩ := mem_rangeIds.mp (hperm.mem_iff.mp hmem)
    subst hki
    refine ⟨Int.natCast_nonneg k, ?_⟩
    simpa using hk
  · intro i hiout j hj hjout
    have hjmem : ((j : Int)) ∈ root.allIds :=
      hperm.mem_iff.mpr (mem_rangeIds.mpr ⟨j, hj, rfl⟩)
    have hks := hksm i hiout (j : Int) hjmem hjout
    rw [hpts] at hks
    unfold getPt at hks
    simpa using hks

theorem findClosestNPoints_kSmallest_witness :
    ∃ out : List Int,
      findClosestNPoints (buildLoc 0 128 false ⟨0, 0, 0⟩ ⟨1, 1, 1⟩
        [⟨1/4, 1/4, 1/4⟩, ⟨3/4, 3/4, 3/4⟩]) 1 ⟨0, 0, 0⟩ = some out ∧
      out.length = (1 : Int).toNat ∧
      out.Nodup ∧
      (∀ i ∈ out, 0 ≤ i ∧ i.toNat <
        [(⟨1/4, 1/4, 1/4⟩ : P3), ⟨3/4, 3/4, 3/4⟩].length) ∧
      (∀ i ∈ out, ∀ j : Nat,
        j < [(⟨1/4, 1/4, 1/4⟩ : P3), ⟨3/4, 3/4, 3/4⟩].length → (j : Int) ∉ out →
        dist2 ⟨0, 0, 0⟩ ([(⟨1/4, 1/4, 1/4⟩ : P3), ⟨3/4, 3/4, 3/4⟩].getD i.toNat default) ≤
          dist2 ⟨0, 0, 0⟩ ([(⟨1/4, 1/4, 1/4⟩ : P3), ⟨3/4, 3/4, 3/4⟩].getD j default)) :=
  findClosestNPoints_kSmallest 0 128 false ⟨0, 0, 0⟩ ⟨1, 1, 1⟩
    [⟨1/4, 1/4, 1/4⟩, ⟨3/4, 3/4, 3/4⟩] ⟨0, 0, 0⟩ 1
    (of_decide_eq_true (by with_unfolding_all rfl))
    (by
      intro p hp
      rcases List.mem_cons.mp hp with h | h
      · subst h
        with_unfolding_all rfl
      · rw [List.mem_singleton] at h
        subst h
        with_unfolding_all rfl)
    (of_decide_eq_true (by with_unfolding_all rfl))
    (of_decide_eq_true (by with_unfolding_all rfl))
    (of_decide_eq_true (by with_unfolding_all rfl))
